import Mathlib

/-!
# File.fnmatch (mruby-file-fnmatch), `src/fnmatch.c`

A shallow embedding of the glob matcher of `src/fnmatch.c` (`bracket`,
`fnmatch_helper`, `mrb_file_fnmatch`, `_strlcpy_`, `mrb_file_fnmatch_ex`) and
the properties proved about it.

Conventions of the embedding.

* A C string is the list of its bytes before the terminating NUL; a byte is
  the `Char` with the same code, so `(unsigned char) c` is `c.toNat`.  The
  statements about strings ask for `nul_free` arguments.
* A pointer into a string is the suffix that starts at the pointed byte.
  Reading through a pointer (`deref`) gives the first byte of the suffix, and
  the terminator `'\x00'` when the suffix is empty.  `p + 1` is the tail.
  Pointers into one string are ordered by the reverse order of their lengths.
* The flags are a natural number read as a bit set; the functions only test
  single bits of it (`period`, `pathname`, `escape`, `nocase`).
* The `while` loops of `bracket`, `fnmatch_helper`, `mrb_file_fnmatch` and
  `mrb_file_fnmatch_ex` are step functions (one run of the loop body) driven
  by `iterate`, which runs a body for a bounded number of rounds and answers
  `none` when the bound is too small.  The functions choose the bound from
  the lengths of their arguments, and a lemma shows for each loop that the
  bound suffices (`bracket_loop_total`, `helper_loop_total`,
  `path_loop_total`, `scan_loop_total`, `alt_loop_total`, `ex_loop_total`).  The small scanning loops (`do { p++; } while (*p == '*')`,
  `while (*s && *s != '/')`, the loop over `**/`, the copy loop of
  `_strlcpy_`) are recursions on the list or on the counter.
* `malloc` is a parameter of `mrb_file_fnmatch_ex`: it tells whether the
  allocation succeeds.
* The bodies of the loops of `bracket` and `fnmatch_helper` are embedded a
  second time with every pointer increment checked (`inc` answers `none` for a
  pointer that stands on the terminator); `bracket_step_chk_eq` and
  `helper_step_chk_eq` show that the checked bodies agree with the plain ones.

A theorem that settles a numbered claim of the specification names the claim
in its comment.
-/

namespace Fnmatch

/-! ## Loops -/

/-- Runs a loop body at most `n` times.  The body answers `Sum.inl` with the
next state (`continue`) or `Sum.inr` with the value the loop leaves with. -/
def iterate {σ ρ : Type} (step : σ → σ ⊕ ρ) : Nat → σ → Option ρ
  | 0, _ => none
  | n + 1, st =>
    match step st with
    | Sum.inl st' => iterate step n st'
    | Sum.inr r => some r

/-! ## Constants of `mruby/ext/fnmatch.h` -/

/-- Modelled from the spec: the header `mruby/ext/fnmatch.h` is not among the
sources.  The flags are "independently combinable bits"; `NOESCAPE` disables
the backslash as escape introducer. -/
def MRB_FNM_NOESCAPE : Nat := 0x01

/-- Modelled from the spec: flag bit of the absent header; enables the
`/`-segment semantics and the `**/` recursion. -/
def MRB_FNM_PATHNAME : Nat := 0x02

/-- Modelled from the spec: flag bit of the absent header; disables the
leading-dot rule. -/
def MRB_FNM_DOTMATCH : Nat := 0x04

/-- Modelled from the spec: flag bit of the absent header; ASCII
case-insensitive comparison. -/
def MRB_FNM_CASEFOLD : Nat := 0x08

/-- Modelled from the spec: flag bit of the absent header; routes the call
through the brace expander. -/
def MRB_FNM_EXTGLOB : Nat := 0x10

/-- Modelled from the spec: the non-zero value of the absent header that the
matchers return for "no match" (`0` is "match"). -/
def MRB_FNM_NOMATCH : Int := 1

/-! ## Pointers and the macros of the source -/

/-- The byte under the pointer: `*p`. -/
def deref (p : List Char) : Char := p.headD '\x00'

/-- `#define Next(p) ((p) + 1)`. -/
def Next (p : List Char) : List Char := p.tail

/-- `strlen`. -/
def strlen (p : List Char) : Nat := (p.takeWhile (fun c => c != '\x00')).length

/-- `const int nocase = flags & MRB_FNM_CASEFOLD`, as a truth value. -/
def nocase (flags : Nat) : Bool := (flags &&& MRB_FNM_CASEFOLD) != 0

/-- `const int escape = !(flags & MRB_FNM_NOESCAPE)`. -/
def escape (flags : Nat) : Bool := (flags &&& MRB_FNM_NOESCAPE) == 0

/-- `const int period = !(flags & MRB_FNM_DOTMATCH)`. -/
def period (flags : Nat) : Bool := (flags &&& MRB_FNM_DOTMATCH) == 0

/-- `const int pathname = flags & MRB_FNM_PATHNAME`, as a truth value. -/
def pathname (flags : Nat) : Bool := (flags &&& MRB_FNM_PATHNAME) != 0

/-- `isupper` of `<ctype.h>` in the C locale. -/
def isupper (c : Char) : Bool := decide ('A'.toNat ≤ c.toNat) && decide (c.toNat ≤ 'Z'.toNat)

/-- `tolower` of `<ctype.h>` in the C locale. -/
def tolower (c : Char) : Char := if isupper c then Char.ofNat (c.toNat + 32) else c

/-- `#define downcase(c) (nocase && isupper(c) ? tolower(c) : (c))`. -/
def downcase (flags : Nat) (c : Char) : Char :=
  if nocase flags && isupper c then tolower c else c

/-- `#define compare(c1, c2) (((unsigned char)(c1)) - ((unsigned char)(c2)))`. -/
def compare (c1 c2 : Char) : Int := (c1.toNat : Int) - (c2.toNat : Int)

/-- `#define Compare(p1, p2) (compare(downcase(*(p1)), downcase(*(p2))))`. -/
def Compare (flags : Nat) (p1 p2 : List Char) : Int :=
  compare (downcase flags (deref p1)) (downcase flags (deref p2))

/-- `#define UNESCAPE(p) (escape && *(p) == '\\' ? (p) + 1 : (p))`. -/
def UNESCAPE (flags : Nat) (p : List Char) : List Char :=
  if escape flags && deref p == '\\' then Next p else p

/-- `#define ISEND(p) (!*(p) || (pathname && *(p) == '/'))`. -/
def ISEND (flags : Nat) (p : List Char) : Bool :=
  deref p == '\x00' || (pathname flags && deref p == '/')

/-! ## `bracket` -/

/-- One run of the body of `while (*p != ']')` in `bracket`, on the state
`(p, ok)`; the loop leaves with the value `bracket` returns (`none` is
`NULL`). -/
def bracket_step (flags : Nat) (s : List Char) (nope : Bool) :
    List Char × Bool → (List Char × Bool) ⊕ Option (List Char)
  | (p, ok) =>
    if deref p != ']' then
      let t1 := p
      let t1 := if escape flags && deref t1 == '\\' then Next t1 else t1
      if deref t1 == '\x00' then Sum.inr none
      else
        let p := Next t1
        if deref p == '-' && deref (Next p) != ']' then
          let t2 := Next p
          let t2 := if escape flags && deref t2 == '\\' then Next t2 else t2
          if deref t2 == '\x00' then Sum.inr none
          else
            let p := Next t2
            Sum.inl (p, if !ok && decide (Compare flags t1 s ≤ 0)
                            && decide (Compare flags s t2 ≤ 0) then true else ok)
        else
          Sum.inl (p, if !ok && Compare flags t1 s == 0 then true else ok)
    else
      Sum.inr (if ok == nope then none else some (Next p))

/-- The function `bracket(p, s, flags)`: `p` points just past the `[`.  The
answer is `some none` for `NULL` and `some (some t)` for the pointer `t`
past the closing `]`. -/
def bracket (flags : Nat) (p s : List Char) : Option (Option (List Char)) :=
  let nope := deref p == '!' || deref p == '^'
  let p := if nope then Next p else p
  iterate (bracket_step flags s nope) (p.length + 1) (p, false)

/-! ## `fnmatch_helper` -/

/-- The label `failed:` of `fnmatch_helper`: retry from the saved star
position, one candidate byte further, or leave with "no match". -/
def helper_failed (p s : List Char) (ptmp stmp : Option (List Char)) :
    (List Char × List Char × Option (List Char) × Option (List Char))
      ⊕ Option (Int × List Char × List Char) :=
  match ptmp, stmp with
  | some pt, some st => Sum.inl (pt, Next st, some pt, some (Next st))
  | _, _ => Sum.inr (some (MRB_FNM_NOMATCH, p, s))

/-- One run of the body of `while (1)` in `fnmatch_helper`, on the state
`(p, s, ptmp, stmp)` (a null pointer is `none`).  The loop leaves with
`some (val, p, s)` for `RETURN(val)`, which also stores the two cursors. -/
def helper_step (flags : Nat) :
    List Char × List Char × Option (List Char) × Option (List Char) →
    (List Char × List Char × Option (List Char) × Option (List Char))
      ⊕ Option (Int × List Char × List Char)
  | (p, s, ptmp, stmp) =>
    if deref p == '*' then
      let p := (Next p).dropWhile (fun c => c == '*')
      if ISEND flags (UNESCAPE flags p) then Sum.inr (some (0, UNESCAPE flags p, s))
      else if ISEND flags s then Sum.inr (some (MRB_FNM_NOMATCH, p, s))
      else Sum.inl (p, s, some p, some s)
    else if deref p == '?' then
      if ISEND flags s then Sum.inr (some (MRB_FNM_NOMATCH, p, s))
      else Sum.inl (Next p, Next s, ptmp, stmp)
    else if deref p == '[' then
      if ISEND flags s then Sum.inr (some (MRB_FNM_NOMATCH, p, s))
      else
        match bracket flags (Next p) s with
        | none => Sum.inr none
        | some (some t) => Sum.inl (t, Next s, ptmp, stmp)
        | some none => helper_failed p s ptmp stmp
    else
      let p := UNESCAPE flags p
      if ISEND flags s then
        Sum.inr (some (if ISEND flags p then 0 else MRB_FNM_NOMATCH, p, s))
      else if ISEND flags p then helper_failed p s ptmp stmp
      else if Compare flags p s != 0 then helper_failed p s ptmp stmp
      else Sum.inl (Next p, Next s, ptmp, stmp)

/-- The function `fnmatch_helper(&p, &s, flags)`: the returned value with the
two cursors it stores back. -/
def fnmatch_helper (flags : Nat) (p s : List Char) : Option (Int × List Char × List Char) :=
  if period flags && deref s == '.' && deref (UNESCAPE flags p) != '.' then
    some (MRB_FNM_NOMATCH, p, s)
  else
    (iterate (helper_step flags) (s.length * (p.length + 1) + p.length + 1)
      (p, s, none, none)).join

/-! ## `mrb_file_fnmatch` -/

/-- The test `p[0] == '*' && p[1] == '*' && p[2] == '/'`. -/
def is_recursive (p : List Char) : Bool :=
  deref p == '*' && deref (Next p) == '*' && deref (Next (Next p)) == '/'

/-- The loop `while (p[0] == '*' && p[1] == '*' && p[2] == '/') p += 3;`.  On a
pointer that passes `is_recursive` it is the `do { p += 3; } while (...)` of
`mrb_file_fnmatch`. -/
def skip_recursive : List Char → List Char
  | a :: b :: c :: rest =>
    if a == '*' && b == '*' && c == '/' then skip_recursive rest else a :: b :: c :: rest
  | p => p

/-- The loop `while (*s && *s != '/') Inc(s);`. -/
def skip_segment (s : List Char) : List Char :=
  s.dropWhile (fun c => c != '\x00' && c != '/')

/-- The part of `mrb_file_fnmatch` under the comment "failed : try next
recursion". -/
def path_failed (flags : Nat) (ptmp stmp : Option (List Char)) :
    (List Char × List Char × Option (List Char) × Option (List Char)) ⊕ Option Int :=
  match ptmp, stmp with
  | some pt, some st =>
    if !(period flags && deref st == '.') then
      let st := skip_segment st
      if deref st != '\x00' then Sum.inl (pt, Next st, some pt, some (Next st))
      else Sum.inr (some MRB_FNM_NOMATCH)
    else Sum.inr (some MRB_FNM_NOMATCH)
  | _, _ => Sum.inr (some MRB_FNM_NOMATCH)

/-- One run of the body of `while (1)` in `mrb_file_fnmatch` (pathname mode),
on the state `(p, s, ptmp, stmp)`. -/
def path_step (flags : Nat) :
    List Char × List Char × Option (List Char) × Option (List Char) →
    (List Char × List Char × Option (List Char) × Option (List Char)) ⊕ Option Int
  | (p, s, ptmp, stmp) =>
    let found := is_recursive p
    let p := if found then skip_recursive p else p
    let ptmp := if found then some p else ptmp
    let stmp := if found then some s else stmp
    match fnmatch_helper flags p s with
    | none => Sum.inr none
    | some (r, p, s) =>
      if r == 0 then
        let s := skip_segment s
        if deref p != '\x00' && deref s != '\x00' then Sum.inl (Next p, Next s, ptmp, stmp)
        else if deref p == '\x00' && deref s == '\x00' then Sum.inr (some 0)
        else path_failed flags ptmp stmp
      else path_failed flags ptmp stmp

/-- The function `mrb_file_fnmatch(p, s, flags)`: `some 0` for a match,
`some MRB_FNM_NOMATCH` otherwise. -/
def mrb_file_fnmatch (p s : List Char) (flags : Nat) : Option Int :=
  if pathname flags then
    (iterate (path_step flags) (s.length * (p.length + 1) + p.length + 1)
      (p, s, none, none)).join
  else
    (fnmatch_helper flags p s).map (fun r => r.1)

/-! ## `_strlcpy_` and `mrb_file_fnmatch_ex` -/

/-- The C string held by a buffer: its bytes before the first NUL. -/
def cstr (buf : List Char) : List Char := buf.takeWhile (fun c => c != '\x00')

/-- The loop `while (--nleft != 0) { if ((*dst++ = *src++) == '\0') break; }`
of `_strlcpy_`, entered with `nleft` not yet decremented: the bytes stored,
the number of source bytes consumed and the final `nleft`. -/
def strlcpy_copy : Nat → List Char → List Char × Nat × Nat
  | 0, _ => ([], 0, 0)
  | nleft + 1, src =>
    if nleft != 0 then
      if deref src == '\x00' then ([deref src], 1, nleft)
      else
        let r := strlcpy_copy nleft (Next src)
        (deref src :: r.1, r.2.1 + 1, r.2.2)
    else ([], 0, nleft)

/-- The function `_strlcpy_(dst, src, dsize)`: the bytes it stores at `dst`
and the value it returns (`src - osrc - 1`). -/
def _strlcpy_ (src : List Char) (dsize : Nat) : List Char × Nat :=
  let r := if dsize != 0 then strlcpy_copy dsize src else ([], 0, dsize)
  if r.2.2 == 0 then
    (if dsize != 0 then r.1 ++ ['\x00'] else r.1,
     r.2.1 + strlen (src.drop r.2.1) + 1 - 1)
  else (r.1, r.2.1 - 1)

/-- Pointer comparison `p < q` of two pointers into the same string. -/
def ptr_lt (p q : List Char) : Bool := decide (q.length < p.length)

/-- Pointer difference `p - t` of two pointers into the same string
(`t` not after `p`). -/
def ptr_diff (p t : List Char) : Nat := t.length - p.length

/-- Subtraction of `size_t` values (64 bits): wraps when the result would be
negative. -/
def size_sub (a b : Nat) : Nat := if b ≤ a then a - b else a + 2 ^ 64 - b

/-- One run of the body of the first loop `while (*p)` of
`mrb_file_fnmatch_ex`, on the state `(p, lbrace, nest)`; the loop leaves with
`(lbrace, rbrace)`. -/
def scan_step (flags : Nat) :
    List Char × Option (List Char) × Int →
    (List Char × Option (List Char) × Int) ⊕ (Option (List Char) × Option (List Char))
  | (p, lbrace, nest) =>
    if deref p != '\x00' then
      let lbrace1 := if deref p == '{' && nest == 0 then some p else lbrace
      let nest1 := if deref p == '{' then nest + 1 else nest
      let nest2 := if deref p == '}' && lbrace1.isSome then nest1 - 1 else nest1
      if deref p == '}' && lbrace1.isSome && nest2 == 0 then Sum.inr (lbrace1, some p)
      else if deref p == '\\' && escape flags then
        if deref (Next p) == '\x00' then Sum.inr (lbrace1, none)
        else Sum.inl (Next (Next p), lbrace1, nest2)
      else Sum.inl (Next p, lbrace1, nest2)
    else Sum.inr (lbrace, none)

/-- One run of the body of the inner loop
`while (p < rbrace && !(*p == ',' && nest == 0))`, on the state `(p, nest)`;
the loop leaves with the pointer `p` at the end of the alternative. -/
def alt_step (flags : Nat) (rbrace : List Char) :
    List Char × Int → (List Char × Int) ⊕ List Char
  | (p, nest) =>
    if ptr_lt p rbrace && !(deref p == ',' && nest == 0) then
      let nest := if deref p == '{' then nest + 1 else nest
      let nest := if deref p == '}' then nest - 1 else nest
      if deref p == '\\' && escape flags then
        if (Next p).length == rbrace.length then Sum.inr (Next p)
        else Sum.inl (Next (Next p), nest)
      else Sum.inl (Next p, nest)
    else Sum.inr p

/-- One run of the body of `while (p < rbrace)` in `mrb_file_fnmatch_ex`, on
the state `(p, status)`: cut the next alternative, write the rewritten
pattern into `buf` and match it.  `s` is the whole pattern, `shift` the
length of the part before `lbrace`, `len` the size of `buf`. -/
def ex_step (flags : Nat) (s path rbrace : List Char) (shift len : Nat) :
    List Char × Int → (List Char × Int) ⊕ Option Int
  | (p, status) =>
    if ptr_lt p rbrace then
      let t := Next p
      match iterate (alt_step flags rbrace) (t.length + 1) (t, 0) with
      | none => Sum.inr none
      | some p =>
        let buf := s.take shift ++ t.take (ptr_diff p t)
          ++ (_strlcpy_ (Next rbrace) (size_sub len (shift + ptr_diff p t))).1
        match mrb_file_fnmatch (cstr buf) path flags with
        | none => Sum.inr none
        | some r =>
          if r == 0 then Sum.inr (some 1) else Sum.inl (p, 0)
    else Sum.inr (some status)

/-- The function `mrb_file_fnmatch_ex(p, path, flags)`.  `malloc n` tells
whether the allocation of `n` bytes succeeds. -/
def mrb_file_fnmatch_ex (malloc : Nat → Bool) (p path : List Char) (flags : Nat) :
    Option Int :=
  let s := p
  match iterate (scan_step flags) (p.length + 1) (p, none, 0) with
  | none => none
  | some (some lbrace, some rbrace) =>
    let len := strlen s + 1
    if !malloc len then some (-1)
    else
      let shift := ptr_diff lbrace s
      (iterate (ex_step flags s path rbrace shift len) (lbrace.length + 1) (lbrace, 0)).join
  | some (none, none) => (mrb_file_fnmatch s path flags).map (fun r => if r == 0 then 1 else 0)
  | some _ => some 0

/-! ## The loop bodies of `bracket` and `fnmatch_helper` with checked pointer increments -/

/-- A pointer increment checked against the end of the string: a pointer that
stands on the terminator cannot be moved on (`none`). -/
def inc (p : List Char) : Option (List Char) :=
  match p with
  | [] => none
  | _ :: t => some t

/-- The macro `UNESCAPE` with its increment checked. -/
def UNESCAPE_chk (flags : Nat) (p : List Char) : Option (List Char) :=
  if escape flags && deref p == '\\' then inc p else some p

/-- The body of the loop of `bracket` with every pointer increment checked;
`p[1]` is read only after `p[0] == '-'`, as the `&&` of the source does. -/
def bracket_step_chk (flags : Nat) (s : List Char) (nope : Bool) :
    List Char × Bool → Option ((List Char × Bool) ⊕ Option (List Char))
  | (p, ok) =>
    if deref p != ']' then
      (UNESCAPE_chk flags p).bind fun t1 =>
      if deref t1 == '\x00' then some (Sum.inr none)
      else
        (inc t1).bind fun p =>
        if deref p == '-' then
          (inc p).bind fun p1 =>
          if deref p1 != ']' then
            (UNESCAPE_chk flags p1).bind fun t2 =>
            if deref t2 == '\x00' then some (Sum.inr none)
            else
              (inc t2).bind fun p =>
              some (Sum.inl (p, if !ok && decide (Compare flags t1 s ≤ 0)
                                  && decide (Compare flags s t2 ≤ 0) then true else ok))
          else some (Sum.inl (p, if !ok && Compare flags t1 s == 0 then true else ok))
        else some (Sum.inl (p, if !ok && Compare flags t1 s == 0 then true else ok))
    else
      (inc p).bind fun p1 => some (Sum.inr (if ok == nope then none else some p1))

/-- The label `failed:` of `fnmatch_helper` with the increment of `stmp`
checked. -/
def helper_failed_chk (p s : List Char) (ptmp stmp : Option (List Char)) :
    Option ((List Char × List Char × Option (List Char) × Option (List Char))
      ⊕ Option (Int × List Char × List Char)) :=
  match ptmp, stmp with
  | some pt, some st => (inc st).bind fun st1 => some (Sum.inl (pt, st1, some pt, some st1))
  | _, _ => some (Sum.inr (some (MRB_FNM_NOMATCH, p, s)))

/-- The body of the loop of `fnmatch_helper` with every pointer increment
checked. -/
def helper_step_chk (flags : Nat) :
    List Char × List Char × Option (List Char) × Option (List Char) →
    Option ((List Char × List Char × Option (List Char) × Option (List Char))
      ⊕ Option (Int × List Char × List Char))
  | (p, s, ptmp, stmp) =>
    if deref p == '*' then
      (inc p).bind fun p1 =>
      let p := p1.dropWhile (fun c => c == '*')
      (UNESCAPE_chk flags p).bind fun pu =>
      if ISEND flags pu then some (Sum.inr (some (0, pu, s)))
      else if ISEND flags s then some (Sum.inr (some (MRB_FNM_NOMATCH, p, s)))
      else some (Sum.inl (p, s, some p, some s))
    else if deref p == '?' then
      if ISEND flags s then some (Sum.inr (some (MRB_FNM_NOMATCH, p, s)))
      else (inc p).bind fun p1 => (inc s).bind fun s1 => some (Sum.inl (p1, s1, ptmp, stmp))
    else if deref p == '[' then
      if ISEND flags s then some (Sum.inr (some (MRB_FNM_NOMATCH, p, s)))
      else
        (inc p).bind fun p1 =>
        match bracket flags p1 s with
        | none => some (Sum.inr none)
        | some (some t) => (inc s).bind fun s1 => some (Sum.inl (t, s1, ptmp, stmp))
        | some none => helper_failed_chk p s ptmp stmp
    else
      (UNESCAPE_chk flags p).bind fun p =>
      if ISEND flags s then
        some (Sum.inr (some (if ISEND flags p then 0 else MRB_FNM_NOMATCH, p, s)))
      else if ISEND flags p then helper_failed_chk p s ptmp stmp
      else if Compare flags p s != 0 then helper_failed_chk p s ptmp stmp
      else (inc p).bind fun p1 => (inc s).bind fun s1 => some (Sum.inl (p1, s1, ptmp, stmp))

/-- The body of the loop of `fnmatch_helper` jumps to the label `failed`:
`bracket` returned `NULL`, or the pattern is at a segment end or at a byte
that differs from the candidate byte, the candidate not being at a segment
end. -/
def goes_to_failed (flags : Nat) :
    List Char × List Char × Option (List Char) × Option (List Char) → Bool
  | (p, s, _, _) =>
    if deref p == '*' then false
    else if deref p == '?' then false
    else if deref p == '[' then
      !ISEND flags s &&
        (match bracket flags (Next p) s with
          | some none => true
          | _ => false)
    else
      !ISEND flags s &&
        (ISEND flags (UNESCAPE flags p) || Compare flags (UNESCAPE flags p) s != 0)

/-! ## Vocabulary of the statements -/

/-- The bytes of a C string: none of them is the terminator. -/
def nul_free (s : List Char) : Prop := '\x00' ∉ s

instance (s : List Char) : Decidable (nul_free s) := by
  unfold nul_free
  infer_instance

/-- A literal pattern text: bytes of a C string, none of them one of the
metacharacters `*`, `?`, `[` and backslash. -/
def literal (p : List Char) : Prop :=
  ∀ c ∈ p, c ≠ '*' ∧ c ≠ '?' ∧ c ≠ '[' ∧ c ≠ '\\' ∧ c ≠ '\x00'

instance (p : List Char) : Decidable (literal p) := by
  unfold literal
  infer_instance

/-- ASCII letters and digits (`isalnum` in the C locale). -/
def isalnum (c : Char) : Bool :=
  (decide ('0'.toNat ≤ c.toNat) && decide (c.toNat ≤ '9'.toNat)) ||
  (decide ('A'.toNat ≤ c.toNat) && decide (c.toNat ≤ 'Z'.toNat)) ||
  (decide ('a'.toNat ≤ c.toNat) && decide (c.toNat ≤ 'z'.toNat))

/-- The body of a bracket expression: no `]`, no backslash, no NUL, and not
starting with a negation sign. -/
def plain_class_body (body : List Char) : Prop :=
  (∀ ch ∈ body, ch ≠ ']' ∧ ch ≠ '\\' ∧ ch ≠ '\x00') ∧ body.head? ≠ some '!' ∧
    body.head? ≠ some '^'

/-- The text between the braces of a group with the alternatives `alts`:
the alternatives separated by commas. -/
def brace_body : List (List Char) → List Char
  | [] => []
  | [a] => a
  | a :: rest => a ++ ',' :: brace_body rest

/-- Bytes that the brace scan steps over without touching its state. -/
def brace_free (p : List Char) : Prop :=
  ∀ c ∈ p, c ≠ '{' ∧ c ≠ '}' ∧ c ≠ '\\' ∧ c ≠ '\x00'

instance (p : List Char) : Decidable (brace_free p) := by
  unfold brace_free
  infer_instance

/-- The bytes of one alternative of a flat group. -/
def alt_text (a : List Char) : Prop :=
  ∀ c ∈ a, c ≠ '{' ∧ c ≠ '}' ∧ c ≠ ',' ∧ c ≠ '\\' ∧ c ≠ '\x00'

instance (a : List Char) : Decidable (alt_text a) := by
  unfold alt_text
  infer_instance

/-- The candidate made of the segments `segs`, each followed by `/`, and then
`r`. -/
def join_segments : List (List Char) → List Char → List Char
  | [], r => r
  | g :: gs, r => g ++ '/' :: join_segments gs r

/-- The pointers `(lbrace, rbrace)` with which the first loop of
`mrb_file_fnmatch_ex`, run on the pattern `p`, leaves. -/
def brace_scan (flags : Nat) (p : List Char) :
    Option (Option (List Char) × Option (List Char)) :=
  iterate (scan_step flags) (p.length + 1) (p, none, 0)

/-- Every backslash of the pattern text `p`, read from the left, has a byte
behind it that it escapes: the text does not end in the middle of an
escape. -/
def escapes_paired : List Char → Bool
  | [] => true
  | [c] => c != '\\'
  | c :: d :: r => if c == '\\' then escapes_paired r else escapes_paired (d :: r)

/-- The naive glob relation `G(p, s)` of the specification, as the least
relation closed under its clauses: the empty pattern matches the empty
candidate; `*p'` matches `s` when `p'` matches `s`, or when `s` is not empty
and `*p'` matches its tail; `?p'` matches a non-empty `s` whose tail `p'`
matches; `xp'`, for any other byte `x`, matches a non-empty `s` with head `x`
whose tail `p'` matches. -/
inductive G : List Char → List Char → Prop
  | nil : G [] []
  | star_skip {p s : List Char} : G p s → G ('*' :: p) s
  | star_take {p s : List Char} (c : Char) : G ('*' :: p) s → G ('*' :: p) (c :: s)
  | quest {p s : List Char} (c : Char) : G p s → G ('?' :: p) (c :: s)
  | other {p s : List Char} (x : Char) : x ≠ '*' → x ≠ '?' → G p s → G (x :: p) (x :: s)

/-- A pattern text made of `*`, `?` and bytes that stand for themselves: no
`[`, no backslash and no NUL. -/
def glob_text (p : List Char) : Prop :=
  ∀ c ∈ p, c ≠ '[' ∧ c ≠ '\\' ∧ c ≠ '\x00'

instance (p : List Char) : Decidable (glob_text p) := by
  unfold glob_text
  infer_instance

/-- The loop with body `step`, started in `st`, comes through the state
`st'`. -/
inductive Visits {σ ρ : Type} (step : σ → σ ⊕ ρ) : σ → σ → Prop
  | here (st : σ) : Visits step st st
  | next {st st' st'' : σ} : step st = Sum.inl st' → Visits step st' st'' → Visits step st st''

/-- The rewritten pattern for the alternative that starts behind the cursor
`pc` and ends at `q`: the part of the pattern `P` before `lbrace`, the
alternative, and the part after `rbrace`. -/
def rewritten (P lb rb pc q : List Char) : List Char :=
  P.take (ptr_diff lb P) ++ (Next pc).take (ptr_diff q (Next pc)) ++ Next rb

/-! ## Notions used in the proofs -/

/-- The loop with body `step`, started in `st`, leaves with `r`. -/
inductive Reaches {σ ρ : Type} (step : σ → σ ⊕ ρ) : σ → ρ → Prop
  | done {st : σ} {r : ρ} : step st = Sum.inr r → Reaches step st r
  | next {st st' : σ} {r : ρ} : step st = Sum.inl st' → Reaches step st' r → Reaches step st r

/-- The candidate cursor `s` lies in the string `s0` and, in pathname mode, no
`/` stands between the start of `s0` and `s`. -/
def SegSuffix (flags : Nat) (s s0 : List Char) : Prop :=
  ∃ a, s0 = a ++ s ∧ (pathname flags = true → '/' ∉ a)

/-- The invariant of the loop of `fnmatch_helper` started on `(p0, s0)`. -/
def HInv (flags : Nat) (p0 s0 : List Char) :
    List Char × List Char × Option (List Char) × Option (List Char) → Prop
  | (p, s, ptmp, stmp) =>
    p <:+ p0 ∧ SegSuffix flags s s0 ∧
    match ptmp, stmp with
    | some pt, some st =>
      pt <:+ p0 ∧ SegSuffix flags st s0 ∧ p.length ≤ pt.length ∧ SegSuffix flags s st
    | _, _ => True

/-- The measure of the loop of `fnmatch_helper`. -/
def hmeasure : List Char × List Char × Option (List Char) × Option (List Char) → Nat
  | (p, s, ptmp, stmp) =>
    match ptmp, stmp with
    | some pt, some st => st.length * (pt.length + 1) + p.length
    | _, _ => s.length * (p.length + 1) + p.length

/-- What `fnmatch_helper` started on `(p0, s0)` may leave with: a value `0` or
`MRB_FNM_NOMATCH`, cursors inside the strings, the candidate cursor still in
the first segment, and the pattern cursor at a segment end after a match. -/
def HPost (flags : Nat) (p0 s0 : List Char) (r : Option (Int × List Char × List Char)) : Prop :=
  ∃ v p' s', r = some (v, p', s') ∧ p' <:+ p0 ∧ SegSuffix flags s' s0 ∧
    (v = 0 ∨ v = MRB_FNM_NOMATCH) ∧ (v = 0 → ISEND flags p' = true)

/-- The invariant of the loop of `mrb_file_fnmatch`. -/
def PInv : List Char × List Char × Option (List Char) × Option (List Char) → Prop
  | (p, s, ptmp, stmp) =>
    match ptmp, stmp with
    | some pt, some st => p.length ≤ pt.length ∧ s.length ≤ st.length
    | _, _ => True

/-- The candidate `s` begins with a copy of `lit` up to case folding. -/
def StartsWithFolded (flags : Nat) (lit s : List Char) : Prop :=
  ∃ b s'', s = b ++ s'' ∧ b.map (downcase flags) = lit.map (downcase flags)

/-- The three ways the loop of `fnmatch_helper` (no star seen yet) deals with
a literal text `lit` in front of the pattern `rest`. -/
inductive LitWalk (flags : Nat) (lit rest s : List Char) : Prop
  /-- The candidate does not begin with the text: "no match". -/
  | fail (p' s' : List Char)
      (hr : Reaches (helper_step flags) (lit ++ rest, s, none, none)
              (some (MRB_FNM_NOMATCH, p', s')))
      (hn : ¬ StartsWithFolded flags lit s) : LitWalk flags lit rest s
  /-- Pathname mode: pattern and candidate reach a segment end together, inside
  the text. -/
  | segment (a lit2 b s' : List Char) (hp : pathname flags = true)
      (hlit : lit = a ++ '/' :: lit2) (hs : s = b ++ s')
      (hab : b.map (downcase flags) = a.map (downcase flags))
      (ha : '/' ∉ a) (hb : '/' ∉ b) (hend : ISEND flags s' = true)
      (hr : Reaches (helper_step flags) (lit ++ rest, s, none, none)
              (some (0, '/' :: lit2 ++ rest, s'))) : LitWalk flags lit rest s
  /-- The text is consumed; the loop goes on with `rest`. -/
  | through (b s'' : List Char) (hs : s = b ++ s'')
      (hb : b.map (downcase flags) = lit.map (downcase flags))
      (hsl : pathname flags = true → '/' ∉ lit ∧ '/' ∉ b)
      (hr : ∀ r, Reaches (helper_step flags) (rest, s'', none, none) r →
              Reaches (helper_step flags) (lit ++ rest, s, none, none) r) :
      LitWalk flags lit rest s

/-- The place `e` where the pattern cursor stands when `fnmatch_helper`,
started with the pattern cursor at `p`, reports a match: the end of the first
pattern segment, found by reading the pattern alone. -/
inductive PEnd (flags : Nat) : List Char → List Char → Prop
  | star_end {p : List Char} (h1 : deref p = '*')
      (h2 : ISEND flags (UNESCAPE flags ((Next p).dropWhile (fun c => c == '*'))) = true) :
      PEnd flags p (UNESCAPE flags ((Next p).dropWhile (fun c => c == '*')))
  | star_go {p e : List Char} (h1 : deref p = '*')
      (h2 : ISEND flags (UNESCAPE flags ((Next p).dropWhile (fun c => c == '*'))) = false)
      (h3 : PEnd flags ((Next p).dropWhile (fun c => c == '*')) e) : PEnd flags p e
  | quest {p e : List Char} (h1 : deref p = '?') (h3 : PEnd flags (Next p) e) : PEnd flags p e
  | brack {p t e : List Char} (h1 : deref p = '[')
      (h2 : ∃ s, bracket flags (Next p) s = some (some t)) (h3 : PEnd flags t e) : PEnd flags p e
  | ord_end {p : List Char} (h1 : deref p ≠ '*' ∧ deref p ≠ '?' ∧ deref p ≠ '[')
      (h2 : ISEND flags (UNESCAPE flags p) = true) : PEnd flags p (UNESCAPE flags p)
  | ord_go {p e : List Char} (h1 : deref p ≠ '*' ∧ deref p ≠ '?' ∧ deref p ≠ '[')
      (h2 : ISEND flags (UNESCAPE flags p) = false)
      (h3 : PEnd flags (Next (UNESCAPE flags p)) e) : PEnd flags p e

/-- The value of a loop body, read as the rest of the run. -/
def ReachesFrom {σ ρ : Type} (step : σ → σ ⊕ ρ) (x : σ ⊕ ρ) (r : ρ) : Prop :=
  match x with
  | Sum.inl st => Reaches step st r
  | Sum.inr r' => r = r'

/-- How a run of the loop of `mrb_file_fnmatch` goes on from a pattern cursor
that is not at a recursive wildcard, until it matches, fails or meets the
next recursive wildcard. -/
inductive SOut : Type
  | matched : SOut
  | failed : SOut
  | jump (p y : List Char) : SOut

/-- The run of segment matches from the cursors `(p, s)` up to the next
recursive wildcard of the pattern; no checkpoint is read or written on the
way. -/
inductive Straight (flags : Nat) : List Char → List Char → SOut → Prop
  | jump {p s : List Char} (h : is_recursive p = true) : Straight flags p s (SOut.jump p s)
  | matched {p s p' s' : List Char} (h : is_recursive p = false)
      (hh : fnmatch_helper flags p s = some (0, p', s'))
      (h1 : deref p' = '\x00') (h2 : deref (skip_segment s') = '\x00') :
      Straight flags p s SOut.matched
  | failed {p s p' s' : List Char} {v : Int} (h : is_recursive p = false)
      (hh : fnmatch_helper flags p s = some (v, p', s'))
      (hf : v ≠ 0 ∨ (deref p' = '\x00' ∧ deref (skip_segment s') ≠ '\x00') ∨
        (deref p' ≠ '\x00' ∧ deref (skip_segment s') = '\x00')) :
      Straight flags p s SOut.failed
  | adv {p s p' s' : List Char} {o : SOut} (h : is_recursive p = false)
      (hh : fnmatch_helper flags p s = some (0, p', s'))
      (h1 : deref p' ≠ '\x00') (h2 : deref (skip_segment s') ≠ '\x00')
      (hr : Straight flags (Next p') (Next (skip_segment s')) o) : Straight flags p s o

/-- What the loop of `mrb_file_fnmatch` does with its checkpoint `(pt, st)`
at the end of a straight run. -/
def StraightPost (flags : Nat) (pt st : Option (List Char)) (r : Option Int) : SOut → Prop
  | SOut.matched => r = some 0
  | SOut.failed => ReachesFrom (path_step flags) (path_failed flags pt st) r
  | SOut.jump p2 y => Reaches (path_step flags) (p2, y, pt, st) r

/-- The candidate `x` is the candidate `y` behind some more path segments,
none of which begins with `.` when the leading-dot rule is on. -/
inductive Skippable (flags : Nat) : List Char → List Char → Prop
  | refl (y : List Char) : Skippable flags y y
  | cons {c x y : List Char} (hc1 : '/' ∉ c) (hc2 : nul_free c)
      (hc3 : period flags = true → deref c ≠ '.') (h : Skippable flags x y) :
      Skippable flags (c ++ '/' :: x) y

/-- The loop of `mrb_file_fnmatch`, started with the pattern cursor `q` and
the candidate cursor `y` and with the checkpoint at these two, returns `0`. -/
def TryMatch (flags : Nat) (q y : List Char) : Prop :=
  Reaches (path_step flags) (q, y, some q, some y) (some 0)

/-- Two loop bodies in lockstep: both go on, to related states, or both
leave, with related results. -/
def StepRel {σ₁ σ₂ ρ₁ ρ₂ : Type} (R : σ₁ → σ₂ → Prop) (Q : ρ₁ → ρ₂ → Prop) :
    σ₁ ⊕ ρ₁ → σ₂ ⊕ ρ₂ → Prop
  | Sum.inl a, Sum.inl b => R a b
  | Sum.inr r, Sum.inr r' => Q r r'
  | _, _ => False

/-- The pattern cursor `p₁` is the cursor `p₂` with a dangling backslash
appended to the pattern. -/
def Dangling (p₁ p₂ : List Char) : Prop :=
  p₁ = p₂ ++ ['\\'] ∧ escapes_paired p₂ = true

/-- The relation between the states `(p, ok)` of two runs of the loop of
`bracket`. -/
def BDangling (a b : List Char × Bool) : Prop := Dangling a.1 b.1 ∧ a.2 = b.2

/-- The relation between the values of two runs of `bracket`. -/
def BDanglingPost : Option (List Char) → Option (List Char) → Prop
  | none, none => True
  | some t₁, some t₂ => Dangling t₁ t₂
  | _, _ => False

/-- The relation between the states of two runs of the loops of
`fnmatch_helper` and `mrb_file_fnmatch`, one on the pattern with a dangling
backslash appended. -/
def HDangling (a b : List Char × List Char × Option (List Char) × Option (List Char)) : Prop :=
  Dangling a.1 b.1 ∧ a.2.1 = b.2.1 ∧
    (match a.2.2.1, b.2.2.1 with
      | none, none => True
      | some x, some y => Dangling x y
      | _, _ => False) ∧ a.2.2.2 = b.2.2.2

/-- The relation between the values of two runs of `fnmatch_helper`, one on
the pattern with a dangling backslash appended. -/
def HDanglingPost (r₁ r₂ : Option (Int × List Char × List Char)) : Prop :=
  match r₁, r₂ with
  | some (v₁, p₁, s₁), some (v₂, p₂, s₂) =>
    v₁ = v₂ ∧ s₁ = s₂ ∧
      (v₁ = 0 → deref p₁ = deref p₂ ∧ (deref p₂ ≠ '\x00' → Dangling (Next p₁) (Next p₂)))
  | none, none => True
  | _, _ => False

/-- One round of the loop of `mrb_file_fnmatch` after the test for a
recursive wildcard. -/
def path_round (flags : Nat) (p s : List Char) (ptmp stmp : Option (List Char)) :
    (List Char × List Char × Option (List Char) × Option (List Char)) ⊕ Option Int :=
  match fnmatch_helper flags p s with
  | none => Sum.inr none
  | some (r, p, s) =>
    if r == 0 then
      let s := skip_segment s
      if deref p != '\x00' && deref s != '\x00' then Sum.inl (Next p, Next s, ptmp, stmp)
      else if deref p == '\x00' && deref s == '\x00' then Sum.inr (some 0)
      else path_failed flags ptmp stmp
    else path_failed flags ptmp stmp

/-- The pattern cursor `p₁` in `a**b` stands where the cursor `p₂` stands in
`a*b`: both in front of the stars, with the same text `x` without `[` and
backslash before them, or both at the same place behind the stars. -/
def StarPair (b p₁ p₂ : List Char) : Prop :=
  (∃ x : List Char, (∀ c ∈ x, c ≠ '[' ∧ c ≠ '\\') ∧ p₁ = x ++ '*' :: '*' :: b ∧
    p₂ = x ++ '*' :: b) ∨ p₁ = p₂

/-- The relation between the states of the loop of `fnmatch_helper` run on
`a**b` and on `a*b`. -/
def HStar (b : List Char)
    (a₁ a₂ : List Char × List Char × Option (List Char) × Option (List Char)) : Prop :=
  StarPair b a₁.1 a₂.1 ∧ a₁.2.1 = a₂.2.1 ∧
    (match a₁.2.2.1, a₂.2.2.1 with
      | none, none => True
      | some x, some y => StarPair b x y
      | _, _ => False) ∧ a₁.2.2.2 = a₂.2.2.2

/-- The relation between the values of `fnmatch_helper` run on `a**b` and on
`a*b`: the same value and the same candidate cursor. -/
def HStarPost (r₁ r₂ : Option (Int × List Char × List Char)) : Prop :=
  match r₁, r₂ with
  | some (v₁, _, s₁), some (v₂, _, s₂) => v₁ = v₂ ∧ s₁ = s₂
  | none, none => True
  | _, _ => False

/-- The checkpoint `(pt, st)` of the loop of `fnmatch_helper` at the cursors
`(p, s)`: the cursors were reached from it over a star-free piece of pattern
and as many candidate bytes. -/
def GCheckpoint (p s pt st : List Char) : Prop :=
  ∃ x y, pt = x ++ p ∧ st = y ++ s ∧ x.length = y.length ∧ '*' ∉ x

/-- The invariant of the loop of `fnmatch_helper` on a pattern `P` without
`[` and backslash. -/
def GInv (P : List Char) :
    List Char × List Char × Option (List Char) × Option (List Char) → Prop
  | (p, s, ptmp, stmp) =>
    p <:+ P ∧ nul_free s ∧
    match ptmp, stmp with
    | some pt, some st => pt <:+ P ∧ nul_free st ∧ GCheckpoint p s pt st
    | none, none => True
    | _, _ => False

/-- What is still open in a state of the loop: the naive relation holds at
the cursors, or at the checkpoint with the candidate cursor moved on by at
least one byte. -/
def GAcc : List Char × List Char × Option (List Char) × Option (List Char) → Prop
  | (p, s, ptmp, stmp) =>
    G p s ∨
    match ptmp, stmp with
    | some pt, some st => ∃ t, t <:+ st ∧ t.length < st.length ∧ G pt t
    | _, _ => False

/-- What one run of the loop body does to the invariant and to what is
open. -/
def GStepPost (P : List Char)
    (st : List Char × List Char × Option (List Char) × Option (List Char)) :
    (List Char × List Char × Option (List Char) × Option (List Char))
      ⊕ Option (Int × List Char × List Char) → Prop
  | Sum.inl st' => GInv P st' ∧ (GAcc st' ↔ GAcc st)
  | Sum.inr r => ∃ v p' s', r = some (v, p', s') ∧ (v = 0 ↔ GAcc st)

/-- The invariant of the scan for the brace group in the pattern `P`. -/
def ScanInv (P : List Char) : List Char × Option (List Char) × Int → Prop
  | (p, lbrace, _) =>
    p <:+ P ∧ ∀ l, lbrace = some l → l <:+ P ∧ p <:+ l ∧ p.length < l.length

/-! ## Loops: bounded runs, reachability, termination by a measure -/

theorem iterate_succ_inl {σ ρ : Type} {step : σ → σ ⊕ ρ} {st st' : σ} (n : Nat)
    (h : step st = Sum.inl st') : iterate step (n + 1) st = iterate step n st' := by
  simp [iterate, h]

theorem iterate_succ_inr {σ ρ : Type} {step : σ → σ ⊕ ρ} {st : σ} {r : ρ} (n : Nat)
    (h : step st = Sum.inr r) : iterate step (n + 1) st = some r := by
  simp [iterate, h]

/-- The rule `Reaches.next` with the intermediate state given first. -/
theorem reaches_next {σ ρ : Type} {step : σ → σ ⊕ ρ} {st : σ} {r : ρ} (st' : σ)
    (h : step st = Sum.inl st') (hr : Reaches step st' r) : Reaches step st r :=
  Reaches.next h hr

theorem reaches_of_iterate {σ ρ : Type} {step : σ → σ ⊕ ρ} :
    ∀ (n : Nat) (st : σ) (r : ρ), iterate step n st = some r → Reaches step st r := by
  intro n
  induction n with
  | zero => intro st r h; simp [iterate] at h
  | succ n ih =>
    intro st r h
    cases hs : step st with
    | inl st' =>
      rw [iterate_succ_inl n hs] at h
      exact Reaches.next hs (ih st' r h)
    | inr r' =>
      rw [iterate_succ_inr n hs] at h
      cases h
      exact Reaches.done hs

theorem reaches_det {σ ρ : Type} {step : σ → σ ⊕ ρ} {st : σ} {r r' : ρ}
    (h : Reaches step st r) (h' : Reaches step st r') : r = r' := by
  induction h with
  | done hs =>
    cases h' with
    | done hs' => rw [hs] at hs'; cases hs'; rfl
    | next hs' _ => rw [hs] at hs'; cases hs'
  | next hs _ ih =>
    cases h' with
    | done hs' => rw [hs] at hs'; cases hs'
    | next hs' hr' => rw [hs] at hs'; cases hs'; exact ih hr'

/-- A loop that is known to end within `n` rounds and that can reach `r`
ends with `r`. -/
theorem iterate_eq_of_reaches {σ ρ : Type} {step : σ → σ ⊕ ρ} {st : σ} {r : ρ} {n : Nat}
    (hr : Reaches step st r) (ht : ∃ r', iterate step n st = some r') :
    iterate step n st = some r := by
  obtain ⟨r', h⟩ := ht
  rw [h, reaches_det (reaches_of_iterate n st r' h) hr]

/-- Termination by a measure: when every `continue` keeps the invariant and
lowers the measure, `n` rounds are enough as soon as `n` exceeds the
measure of the start state. -/
theorem iterate_total {σ ρ : Type} {step : σ → σ ⊕ ρ} (μ : σ → Nat) (Inv : σ → Prop)
    (hstep : ∀ st st', Inv st → step st = Sum.inl st' → Inv st' ∧ μ st' < μ st) :
    ∀ (n : Nat) (st : σ), Inv st → μ st < n → ∃ r, iterate step n st = some r := by
  intro n
  induction n with
  | zero => intro st _ h; omega
  | succ n ih =>
    intro st hinv hμ
    cases hs : step st with
    | inl st' =>
      obtain ⟨hinv', hlt⟩ := hstep st st' hinv hs
      rw [iterate_succ_inl n hs]
      exact ih st' hinv' (by omega)
    | inr r => exact ⟨r, iterate_succ_inr n hs⟩

/-! ## Termination and post-conditions of `bracket`, `fnmatch_helper` and
`mrb_file_fnmatch` -/

@[simp] theorem deref_nil : deref [] = '\x00' := rfl

@[simp] theorem deref_cons (c : Char) (p : List Char) : deref (c :: p) = c := rfl

@[simp] theorem Next_nil : Next [] = [] := rfl

@[simp] theorem Next_cons (c : Char) (p : List Char) : Next (c :: p) = p := rfl

theorem Next_suffix (p : List Char) : Next p <:+ p := List.tail_suffix p

theorem Next_length_le (p : List Char) : (Next p).length ≤ p.length :=
  (Next_suffix p).length_le

theorem Next_length_lt {p : List Char} (h : deref p ≠ '\x00') :
    (Next p).length < p.length := by
  cases p with
  | nil => simp at h
  | cons c p => simp

theorem bracket_step_inl {flags : Nat} {s : List Char} {nope : Bool} {p p' : List Char}
    {ok ok' : Bool} (h : bracket_step flags s nope (p, ok) = Sum.inl (p', ok')) :
    p' <:+ p ∧ p'.length < p.length := by
  simp only [bracket_step] at h
  split_ifs at h with h1 h2 h3 h4 h5 h6 h7
  all_goals simp only [Sum.inl.injEq, Prod.mk.injEq] at h
  all_goals obtain ⟨rfl, -⟩ := h
  all_goals
    refine ⟨by repeat (first | exact Next_suffix _ | apply List.IsSuffix.trans (Next_suffix _)), ?_⟩
  all_goals
    rcases p with _ | ⟨a, _ | ⟨b, _ | ⟨c, _ | ⟨d, _ | ⟨e, rest⟩⟩⟩⟩⟩ <;> simp_all <;> omega

theorem bracket_step_inr {flags : Nat} {s : List Char} {nope : Bool} {p t : List Char}
    {ok : Bool} (h : bracket_step flags s nope (p, ok) = Sum.inr (some t)) :
    deref p = ']' ∧ t = Next p ∧ ok ≠ nope := by
  simp only [bracket_step] at h
  split_ifs at h with h1 h2 h3 h4 h5 h6 h7
  all_goals simp_all

theorem bracket_loop_suffix {flags : Nat} {s : List Char} {nope : Bool} {st : List Char × Bool}
    {t : List Char} (h : Reaches (bracket_step flags s nope) st (some t)) :
    t <:+ st.1 ∧ t.length < st.1.length := by
  generalize hr : some t = r at h
  induction h with
  | @done st r hs =>
    subst hr
    obtain ⟨p, ok⟩ := st
    obtain ⟨h1, rfl, -⟩ := bracket_step_inr hs
    exact ⟨Next_suffix p, Next_length_lt (by rw [h1]; decide)⟩
  | @next st st' r hs _ ih =>
    obtain ⟨p, ok⟩ := st
    obtain ⟨p', ok'⟩ := st'
    obtain ⟨h1, h2⟩ := bracket_step_inl hs
    obtain ⟨h3, h4⟩ := ih hr
    exact ⟨h3.trans h1, by simp at *; omega⟩

theorem bracket_loop_total (flags : Nat) (s : List Char) (nope : Bool) (n : Nat)
    (st : List Char × Bool) (h : st.1.length < n) :
    ∃ r, iterate (bracket_step flags s nope) n st = some r :=
  iterate_total (fun st => st.1.length) (fun _ => True)
    (fun st st' _ hs => ⟨trivial, (@bracket_step_inl _ _ _ st.1 st'.1 st.2 st'.2 hs).2⟩) n st trivial h

theorem bracket_total (flags : Nat) (p s : List Char) : ∃ r, bracket flags p s = some r :=
  bracket_loop_total flags s _ _ _ (Nat.lt_succ_self _)

theorem bracket_suffix {flags : Nat} {p s t : List Char}
    (h : bracket flags p s = some (some t)) : t <:+ p ∧ t.length < p.length := by
  obtain ⟨h1, h2⟩ := bracket_loop_suffix (reaches_of_iterate _ _ _ h)
  simp only at h1 h2
  split_ifs at h1 h2 with hn
  · exact ⟨h1.trans (Next_suffix p), lt_of_lt_of_le h2 (Next_length_le p)⟩
  · exact ⟨h1, h2⟩

/-- Invariants along a loop: a property kept by every `continue` and
turned into the postcondition by every exit holds of the final value. -/
theorem reaches_inv {σ ρ : Type} {step : σ → σ ⊕ ρ} (Inv : σ → Prop) (Post : ρ → Prop)
    (hstep : ∀ st st', Inv st → step st = Sum.inl st' → Inv st')
    (hdone : ∀ st r, Inv st → step st = Sum.inr r → Post r)
    {st : σ} {r : ρ} (h : Reaches step st r) (hinv : Inv st) : Post r := by
  induction h with
  | done hs => exact hdone _ _ hinv hs
  | next hs _ ih => exact ih (hstep _ _ hinv hs)

theorem ISEND_false_length {flags : Nat} {s : List Char} (h : ISEND flags s = false) :
    (Next s).length + 1 = s.length := by
  cases s with
  | nil => simp [ISEND] at h
  | cons c s => simp

theorem SegSuffix.refl (flags : Nat) (s : List Char) : SegSuffix flags s s := ⟨[], rfl, by simp⟩

theorem SegSuffix.suffix {flags : Nat} {s s0 : List Char} (h : SegSuffix flags s s0) :
    s <:+ s0 := by
  obtain ⟨a, rfl, -⟩ := h
  exact List.suffix_append a s

theorem SegSuffix.length_le {flags : Nat} {s s0 : List Char} (h : SegSuffix flags s s0) :
    s.length ≤ s0.length := h.suffix.length_le

theorem SegSuffix.trans {flags : Nat} {s t u : List Char} (h1 : SegSuffix flags s t)
    (h2 : SegSuffix flags t u) : SegSuffix flags s u := by
  obtain ⟨a, rfl, ha⟩ := h1
  obtain ⟨b, rfl, hb⟩ := h2
  exact ⟨b ++ a, by simp, fun hp => by simp [ha hp, hb hp]⟩

theorem SegSuffix.next_self {flags : Nat} {s : List Char} (he : ISEND flags s = false) :
    SegSuffix flags (Next s) s := by
  cases s with
  | nil => simp [ISEND] at he
  | cons c s =>
    refine ⟨[c], by simp, ?_⟩
    intro hp
    simp only [ISEND, deref_cons, hp, Bool.true_and, Bool.or_eq_false_iff, beq_eq_false_iff_ne] at he
    simp only [List.mem_singleton]
    exact fun h => he.2 h.symm

theorem SegSuffix.next {flags : Nat} {s s0 : List Char} (h : SegSuffix flags s s0)
    (he : ISEND flags s = false) : SegSuffix flags (Next s) s0 :=
  (SegSuffix.next_self he).trans h

/-- A checkpoint that still has an unfinished cursor behind it can move one
byte on without leaving the segment. -/
theorem SegSuffix.next_base {flags : Nat} {s st : List Char} (h : SegSuffix flags s st)
    (he : ISEND flags s = false) :
    SegSuffix flags (Next st) st ∧ (Next st).length + 1 = st.length := by
  obtain ⟨b, rfl, hb⟩ := h
  cases b with
  | nil => exact ⟨SegSuffix.next_self he, ISEND_false_length he⟩
  | cons c b =>
    refine ⟨⟨[c], by simp, fun hp => ?_⟩, by simp⟩
    have := hb hp
    simp only [List.mem_cons, not_or] at this
    simpa using this.1

theorem deref_ne_length {s : List Char} {c : Char} (h : deref s = c) (hc : c ≠ '\x00') :
    (Next s).length + 1 = s.length := by
  cases s with
  | nil => simp at h; exact absurd h.symm hc
  | cons c s => simp

theorem helper_failed_inl {flags : Nat} {p0 s0 p s : List Char} {ptmp stmp : Option (List Char)}
    {st' : List Char × List Char × Option (List Char) × Option (List Char)}
    (hinv : HInv flags p0 s0 (p, s, ptmp, stmp)) (he : ISEND flags s = false) (q : List Char)
    (h : helper_failed q s ptmp stmp = Sum.inl st') :
    HInv flags p0 s0 st' ∧ hmeasure st' < hmeasure (p, s, ptmp, stmp) := by
  unfold helper_failed at h
  split at h
  · next pt st =>
    cases h
    obtain ⟨hp, hs, hpt, hst, hlen, hss⟩ := hinv
    obtain ⟨h1, h2⟩ := hss.next_base he
    refine ⟨⟨hpt, h1.trans hst, ⟨hpt, h1.trans hst, le_refl _, SegSuffix.refl _ _⟩⟩, ?_⟩
    simp only [hmeasure]
    rw [← h2]
    nlinarith
  · cases h

theorem UNESCAPE_suffix (flags : Nat) (p : List Char) : UNESCAPE flags p <:+ p := by
  unfold UNESCAPE
  split_ifs
  · exact Next_suffix p
  · exact List.suffix_refl p

theorem skip_stars_suffix (p : List Char) :
    (Next p).dropWhile (fun c => c == '*') <:+ p :=
  (List.dropWhile_suffix _).trans (Next_suffix p)

theorem hmeasure_lt {p s p' s' : List Char} {ptmp stmp : Option (List Char)}
    (hp : p'.length < p.length)
    (hs : s'.length ≤ s.length) :
    hmeasure (p', s', ptmp, stmp) < hmeasure (p, s, ptmp, stmp) := by
  simp only [hmeasure]
  split
  · omega
  · have : s'.length * (p'.length + 1) ≤ s.length * (p.length + 1) :=
      Nat.mul_le_mul hs (by omega)
    omega

theorem HInv_advance {flags : Nat} {p0 s0 p s p' : List Char} {ptmp stmp : Option (List Char)}
    (hinv : HInv flags p0 s0 (p, s, ptmp, stmp)) (hp : p' <:+ p)
    (he : ISEND flags s = false) :
    HInv flags p0 s0 (p', Next s, ptmp, stmp) := by
  obtain ⟨h1, h2, h3⟩ := hinv
  refine ⟨hp.trans h1, h2.next he, ?_⟩
  split
  · next pt st =>
    obtain ⟨h4, h5, h6, h7⟩ := h3
    exact ⟨h4, h5, le_trans hp.length_le h6, h7.next he⟩
  · trivial

theorem helper_step_inl {flags : Nat} {p0 s0 : List Char}
    {st st' : List Char × List Char × Option (List Char) × Option (List Char)}
    (hinv : HInv flags p0 s0 st) (h : helper_step flags st = Sum.inl st') :
    HInv flags p0 s0 st' ∧ hmeasure st' < hmeasure st := by
  obtain ⟨p, s, ptmp, stmp⟩ := st
  simp only [helper_step] at h
  split_ifs at h with h1 h2 h3 h4 h5 h6 h7 h8 h9 h10
  · -- star
    cases h
    have hp := skip_stars_suffix p
    have hlen := deref_ne_length (beq_iff_eq.mp h1) (by decide)
    have hlen2 : ((Next p).dropWhile (fun c => c == '*')).length ≤ (Next p).length :=
      (List.dropWhile_suffix _).length_le
    obtain ⟨i1, i2, i3⟩ := hinv
    refine ⟨⟨hp.trans i1, i2, hp.trans i1, i2, le_refl _, SegSuffix.refl _ _⟩, ?_⟩
    simp only [hmeasure]
    split
    · next pt st =>
      obtain ⟨-, -, i6, i7⟩ := i3
      have := i7.length_le
      have : s.length * (((Next p).dropWhile (fun c => c == '*')).length + 1)
          ≤ st.length * (pt.length + 1) := Nat.mul_le_mul this (by omega)
      omega
    · have : s.length * (((Next p).dropWhile (fun c => c == '*')).length + 1)
          ≤ s.length * (p.length + 1) := Nat.mul_le_mul (le_refl _) (by omega)
      omega
  · -- question mark
    cases h
    have hlen := deref_ne_length (beq_iff_eq.mp h4) (by decide)
    have he : ISEND flags s = false := by simpa using h5
    exact ⟨HInv_advance hinv (Next_suffix p) he,
      hmeasure_lt (by omega) (Next_length_le s)⟩
  · -- bracket
    have he : ISEND flags s = false := by simpa using h7
    split at h
    · cases h
    · next t hb =>
      cases h
      obtain ⟨b1, b2⟩ := bracket_suffix hb
      have := Next_length_le p
      exact ⟨HInv_advance hinv (b1.trans (Next_suffix p)) he,
        hmeasure_lt (by omega) (Next_length_le s)⟩
    · exact helper_failed_inl hinv he _ h
  · exact helper_failed_inl hinv (by simpa using h8) _ h
  · exact helper_failed_inl hinv (by simpa using h8) _ h
  · cases h
    have he : ISEND flags s = false := by simpa using h8
    have hq : ISEND flags (UNESCAPE flags p) = false := by simpa using h9
    have := ISEND_false_length hq
    have := (UNESCAPE_suffix flags p).length_le
    exact ⟨HInv_advance hinv ((Next_suffix _).trans (UNESCAPE_suffix flags p)) he,
      hmeasure_lt (by omega) (Next_length_le s)⟩

theorem helper_failed_inr {flags : Nat} {p0 s0 s q : List Char}
    {ptmp stmp : Option (List Char)} {r : Option (Int × List Char × List Char)}
    (hs : SegSuffix flags s s0) (hq : q <:+ p0)
    (h : helper_failed q s ptmp stmp = Sum.inr r) : HPost flags p0 s0 r := by
  unfold helper_failed at h
  split at h
  · cases h
  · cases h
    exact ⟨_, _, _, rfl, hq, hs, Or.inr rfl, by simp [MRB_FNM_NOMATCH]⟩

theorem helper_step_inr {flags : Nat} {p0 s0 : List Char}
    {st : List Char × List Char × Option (List Char) × Option (List Char)}
    {r : Option (Int × List Char × List Char)}
    (hinv : HInv flags p0 s0 st) (h : helper_step flags st = Sum.inr r) :
    HPost flags p0 s0 r := by
  obtain ⟨p, s, ptmp, stmp⟩ := st
  obtain ⟨i1, i2, -⟩ := hinv
  simp only [helper_step] at h
  split_ifs at h with h1 h2 h3 h4 h5 h6 h7 h8 h9 h10
  · cases h
    exact ⟨_, _, _, rfl, ((UNESCAPE_suffix _ _).trans (skip_stars_suffix p)).trans i1, i2,
      Or.inl rfl, fun _ => h2⟩
  · cases h
    exact ⟨_, _, _, rfl, (skip_stars_suffix p).trans i1, i2, Or.inr rfl,
      by simp [MRB_FNM_NOMATCH]⟩
  · cases h
    exact ⟨_, _, _, rfl, i1, i2, Or.inr rfl, by simp [MRB_FNM_NOMATCH]⟩
  · cases h
    exact ⟨_, _, _, rfl, i1, i2, Or.inr rfl, by simp [MRB_FNM_NOMATCH]⟩
  · split at h
    · next hb =>
      obtain ⟨r', hr'⟩ := bracket_total flags (Next p) s
      rw [hr'] at hb
      cases hb
    · cases h
    · exact helper_failed_inr i2 i1 h
  · cases h
    exact ⟨_, _, _, rfl, (UNESCAPE_suffix _ _).trans i1, i2, Or.inl rfl, fun _ => h9⟩
  · cases h
    exact ⟨_, _, _, rfl, (UNESCAPE_suffix _ _).trans i1, i2, Or.inr rfl,
      by simp [MRB_FNM_NOMATCH]⟩
  · exact helper_failed_inr i2 ((UNESCAPE_suffix _ _).trans i1) h
  · exact helper_failed_inr i2 ((UNESCAPE_suffix _ _).trans i1) h

theorem HInv_init (flags : Nat) (p s : List Char) : HInv flags p s (p, s, none, none) :=
  ⟨List.suffix_refl p, SegSuffix.refl flags s, trivial⟩

/-- The loop of `fnmatch_helper` ends within the rounds `fnmatch_helper`
allows it. -/
theorem helper_loop_total (flags : Nat) (p s : List Char) :
    ∃ r, iterate (helper_step flags) (s.length * (p.length + 1) + p.length + 1)
      (p, s, none, none) = some r :=
  iterate_total hmeasure (HInv flags p s) (fun _ _ hinv hs => helper_step_inl hinv hs)
    _ _ (HInv_init flags p s) (by simp [hmeasure])

theorem helper_loop_post {flags : Nat} {p s : List Char}
    {r : Option (Int × List Char × List Char)}
    (h : Reaches (helper_step flags) (p, s, none, none) r) : HPost flags p s r :=
  reaches_inv (HInv flags p s) (HPost flags p s)
    (fun _ _ hinv hs => (helper_step_inl hinv hs).1)
    (fun _ _ hinv hs => helper_step_inr hinv hs) h (HInv_init flags p s)

/-- The function `fnmatch_helper` always returns, and what it returns
satisfies `HPost`. -/
theorem fnmatch_helper_post (flags : Nat) (p s : List Char) :
    HPost flags p s (fnmatch_helper flags p s) := by
  unfold fnmatch_helper
  split_ifs with h
  · exact ⟨_, _, _, rfl, List.suffix_refl p, SegSuffix.refl flags s, Or.inr rfl,
      by simp [MRB_FNM_NOMATCH]⟩
  · obtain ⟨r, hr⟩ := helper_loop_total flags p s
    have hp := helper_loop_post (reaches_of_iterate _ _ _ hr)
    rw [hr]
    obtain ⟨v, p', s', rfl, hrest⟩ := hp
    exact ⟨v, p', s', rfl, hrest⟩

/-- When the leading-period test lets the call through and the loop can
reach `r`, `fnmatch_helper` returns `r`. -/
theorem fnmatch_helper_eq {flags : Nat} {p s : List Char}
    {r : Int × List Char × List Char}
    (hdot : (period flags && deref s == '.' && deref (UNESCAPE flags p) != '.') = false)
    (h : Reaches (helper_step flags) (p, s, none, none) (some r)) :
    fnmatch_helper flags p s = some r := by
  unfold fnmatch_helper
  rw [if_neg (by simp [hdot])]
  rw [iterate_eq_of_reaches h (helper_loop_total flags p s)]
  rfl

theorem skip_recursive_suffix : ∀ p : List Char, skip_recursive p <:+ p
  | [] => by simp [skip_recursive]
  | [_] => by simp [skip_recursive]
  | [_, _] => by simp [skip_recursive]
  | a :: b :: c :: rest => by
    unfold skip_recursive
    split_ifs
    · exact (skip_recursive_suffix rest).trans (List.suffix_append [a, b, c] rest)
    · exact List.suffix_refl _

theorem skip_segment_suffix (s : List Char) : skip_segment s <:+ s :=
  List.dropWhile_suffix _

theorem path_failed_inl {flags : Nat} {p s : List Char} {ptmp stmp : Option (List Char)}
    {st' : List Char × List Char × Option (List Char) × Option (List Char)}
    (h : path_failed flags ptmp stmp = Sum.inl st') :
    PInv st' ∧ hmeasure st' < hmeasure (p, s, ptmp, stmp) := by
  unfold path_failed at h
  split at h
  · next pt st =>
    dsimp only at h
    split_ifs at h with h1 h2
    cases h
    have h3 := deref_ne_length (s := skip_segment st) rfl (by simpa using h2)
    have h4 := (skip_segment_suffix st).length_le
    refine ⟨⟨le_refl _, le_refl _⟩, ?_⟩
    simp only [hmeasure]
    have : ((Next (skip_segment st)).length + 1) * (pt.length + 1) ≤ st.length * (pt.length + 1) :=
      Nat.mul_le_mul (by omega) (le_refl _)
    nlinarith
  · cases h

theorem path_step_inl {flags : Nat}
    {st st' : List Char × List Char × Option (List Char) × Option (List Char)}
    (hinv : PInv st) (h : path_step flags st = Sum.inl st') :
    PInv st' ∧ hmeasure st' < hmeasure st := by
  obtain ⟨p, s, ptmp, stmp⟩ := st
  simp only [path_step] at h
  obtain ⟨v, p', s', hr, hp', hs', hv, -⟩ := fnmatch_helper_post flags
    (if is_recursive p then skip_recursive p else p) s
  rw [hr] at h
  dsimp only at h
  have hfp : (if is_recursive p then skip_recursive p else p).length ≤ p.length := by
    split_ifs
    · exact (skip_recursive_suffix p).length_le
    · exact le_refl _
  have hp'l := hp'.length_le
  have hs'l := hs'.length_le
  have hs''l := (skip_segment_suffix s').length_le
  -- the checkpoint in force after the test for a leading recursive wildcard
  have hck : PInv (if is_recursive p then skip_recursive p else p, s,
      if is_recursive p then some (if is_recursive p then skip_recursive p else p) else ptmp,
      if is_recursive p then some s else stmp) ∧
      hmeasure (if is_recursive p then skip_recursive p else p, s,
      if is_recursive p then some (if is_recursive p then skip_recursive p else p) else ptmp,
      if is_recursive p then some s else stmp) ≤ hmeasure (p, s, ptmp, stmp) := by
    by_cases hrec : is_recursive p = true
    · simp only [hrec, if_true] at hfp ⊢
      refine ⟨⟨le_refl _, le_refl _⟩, ?_⟩
      simp only [hmeasure]
      split
      · next pt st =>
        obtain ⟨i1, i2⟩ := hinv
        have : s.length * ((skip_recursive p).length + 1) ≤ st.length * (pt.length + 1) :=
          Nat.mul_le_mul i2 (by omega)
        omega
      · have : s.length * ((skip_recursive p).length + 1) ≤ s.length * (p.length + 1) :=
          Nat.mul_le_mul (le_refl _) (by omega)
        omega
    · simp only [hrec, if_false, Bool.false_eq_true]
      exact ⟨hinv, le_refl _⟩
  generalize (if is_recursive p then some (if is_recursive p then skip_recursive p else p)
    else ptmp) = cpt at h hck
  generalize (if is_recursive p then some s else stmp) = cst at h hck
  generalize (if is_recursive p then skip_recursive p else p) = fp at h hck hp' hfp hp'l
  obtain ⟨hck1, hck2⟩ := hck
  have hfail : ∀ st'', path_failed flags cpt cst = Sum.inl st'' →
      PInv st'' ∧ hmeasure st'' < hmeasure (p, s, ptmp, stmp) := by
    intro st'' h''
    obtain ⟨f1, f2⟩ := path_failed_inl (p := fp) (s := s) h''
    exact ⟨f1, lt_of_lt_of_le f2 hck2⟩
  split_ifs at h with h1 h2 h3
  · cases h
    simp only [Bool.and_eq_true, bne_iff_ne, ne_eq] at h2
    have e1 := deref_ne_length (s := p') rfl h2.1
    have e2 := deref_ne_length (s := skip_segment s') rfl h2.2
    refine ⟨?_, lt_of_lt_of_le (hmeasure_lt (by omega) (by omega)) hck2⟩
    rcases cpt with _ | pt <;> rcases cst with _ | st <;> simp only [PInv] at hck1 ⊢
    exact ⟨by omega, by omega⟩
  · exact hfail _ h
  · exact hfail _ h

theorem path_failed_inr {flags : Nat} {ptmp stmp : Option (List Char)} {r : Option Int}
    (h : path_failed flags ptmp stmp = Sum.inr r) : r = some MRB_FNM_NOMATCH := by
  unfold path_failed at h
  split at h
  · dsimp only at h
    split_ifs at h <;> cases h <;> rfl
  · cases h; rfl

theorem path_step_inr {flags : Nat}
    {st : List Char × List Char × Option (List Char) × Option (List Char)} {r : Option Int}
    (h : path_step flags st = Sum.inr r) : r = some 0 ∨ r = some MRB_FNM_NOMATCH := by
  obtain ⟨p, s, ptmp, stmp⟩ := st
  simp only [path_step] at h
  obtain ⟨v, p', s', hr, -⟩ := fnmatch_helper_post flags
    (if is_recursive p then skip_recursive p else p) s
  rw [hr] at h
  dsimp only at h
  split_ifs at h <;>
    first
    | exact Or.inr (path_failed_inr h)
    | (cases h; exact Or.inl rfl)

/-- The loop of `mrb_file_fnmatch` ends within the rounds the function allows
it. -/
theorem path_loop_total (flags : Nat) (p s : List Char) :
    ∃ r, iterate (path_step flags) (s.length * (p.length + 1) + p.length + 1)
      (p, s, none, none) = some r :=
  iterate_total hmeasure PInv (fun _ _ hinv hs => path_step_inl hinv hs)
    _ _ trivial (by simp [hmeasure])

/-- The function `mrb_file_fnmatch` always returns, with `0` or
`MRB_FNM_NOMATCH`. -/
theorem mrb_file_fnmatch_total (p s : List Char) (flags : Nat) :
    mrb_file_fnmatch p s flags = some 0 ∨ mrb_file_fnmatch p s flags = some MRB_FNM_NOMATCH := by
  unfold mrb_file_fnmatch
  split_ifs with hp
  · obtain ⟨r, hr⟩ := path_loop_total flags p s
    have := reaches_inv (fun _ => True) (fun r => r = some 0 ∨ r = some MRB_FNM_NOMATCH)
      (fun _ _ _ _ => trivial) (fun _ _ _ hs => path_step_inr hs)
      (reaches_of_iterate _ _ _ hr) trivial
    rw [hr]
    rcases this with h | h <;> simp [h]
  · obtain ⟨v, p', s', hr, -, -, hv, -⟩ := fnmatch_helper_post flags p s
    rw [hr]
    rcases hv with h | h <;> simp [h]

/-- A value other than `0` is `MRB_FNM_NOMATCH`. -/
theorem mrb_file_fnmatch_nomatch {p s : List Char} {flags : Nat}
    (h : mrb_file_fnmatch p s flags ≠ some 0) :
    mrb_file_fnmatch p s flags = some MRB_FNM_NOMATCH :=
  (mrb_file_fnmatch_total p s flags).resolve_left h

/-- In pathname mode, what the loop of `mrb_file_fnmatch` can reach is what
the function returns. -/
theorem mrb_file_fnmatch_path_eq {p s : List Char} {flags : Nat} {v : Int}
    (hp : pathname flags = true)
    (h : Reaches (path_step flags) (p, s, none, none) (some v)) :
    mrb_file_fnmatch p s flags = some v := by
  unfold mrb_file_fnmatch
  rw [if_pos hp, iterate_eq_of_reaches h (path_loop_total flags p s)]
  rfl

/-! ## Bracket expressions: C7, C9, C8 -/

@[simp] theorem period_zero : period 0 = true := by decide

@[simp] theorem escape_zero : escape 0 = true := by decide

@[simp] theorem pathname_zero : pathname 0 = false := by decide

@[simp] theorem nocase_zero : nocase 0 = false := by decide

theorem isalnum_ne {c d : Char} (h : isalnum c = true) (hd : isalnum d = false) : c ≠ d := by
  rintro rfl
  rw [h] at hd
  cases hd

theorem bracket_range_reaches (lo hi c : Char) (hlo : isalnum lo = true)
    (hhi : isalnum hi = true) (nope : Bool) :
    Reaches (bracket_step 0 [c] nope) ([lo, '-', hi, ']'], false)
      (if decide (lo.toNat ≤ c.toNat ∧ c.toNat ≤ hi.toNat) == nope then none else some []) := by
  have h1 : lo ≠ ']' := isalnum_ne hlo (by decide)
  have h2 : lo ≠ '\\' := isalnum_ne hlo (by decide)
  have h3 : lo ≠ '\x00' := isalnum_ne hlo (by decide)
  have h4 : hi ≠ ']' := isalnum_ne hhi (by decide)
  have h5 : hi ≠ '\\' := isalnum_ne hhi (by decide)
  have h6 : hi ≠ '\x00' := isalnum_ne hhi (by decide)
  refine reaches_next ([']'], decide (lo.toNat ≤ c.toNat ∧ c.toNat ≤ hi.toNat)) ?_ ?_
  · simp [bracket_step, h1, h2, h3, h4, h5, h6, Compare, compare, downcase]
  · refine Reaches.done ?_
    simp [bracket_step]

/-- A bracket expression that ends the pattern, against a candidate of one
byte (not NUL, not a dot) with flags `0`: the match is decided by
`bracket`. -/
theorem fnmatch_bracket_one {q : List Char} {c : Char} (hc0 : c ≠ '\x00') (hcd : c ≠ '.')
    {b : Bool} (hb : bracket 0 q [c] = some (if b then some [] else none)) :
    mrb_file_fnmatch ('[' :: q) [c] 0 = some (if b then 0 else MRB_FNM_NOMATCH) := by
  unfold mrb_file_fnmatch
  rw [if_neg (by simp)]
  have hdot : (period 0 && deref [c] == '.' && deref (UNESCAPE 0 ('[' :: q)) != '.') = false := by
    simp [hcd]
  cases b with
  | true =>
    rw [fnmatch_helper_eq (r := (0, [], [])) hdot]
    · rfl
    · refine reaches_next ([], [], none, none) ?_ (Reaches.done ?_)
      · simp [helper_step, ISEND, hc0, hb]
      · simp [helper_step, ISEND, UNESCAPE]
  | false =>
    rw [fnmatch_helper_eq (r := (MRB_FNM_NOMATCH, '[' :: q, [c])) hdot]
    · rfl
    · refine Reaches.done ?_
      simp [helper_step, ISEND, hc0, hb, helper_failed]

theorem bracket_eq_of_reaches {flags : Nat} {p s : List Char} {r : Option (List Char)}
    (h : Reaches (bracket_step flags s (deref p == '!' || deref p == '^'))
      (if (deref p == '!' || deref p == '^') = true then Next p else p, false) r) :
    bracket flags p s = some r :=
  iterate_eq_of_reaches h (bracket_loop_total flags s _ _ _ (Nat.lt_succ_self _))

/-- C7: for ASCII alphanumeric `lo`, `hi` and `c`, the pattern `[lo-hi]`
matches the one-byte candidate `c` with flags `0` exactly when
`lo ≤ c ≤ hi` in unsigned byte order; otherwise the call returns
`MRB_FNM_NOMATCH`. -/
theorem bracket_range_membership (lo hi c : Char) (hlo : isalnum lo = true)
    (hhi : isalnum hi = true) (hc : isalnum c = true) :
    mrb_file_fnmatch ['[', lo, '-', hi, ']'] [c] 0 =
      some (if lo.toNat ≤ c.toNat ∧ c.toNat ≤ hi.toNat then 0 else MRB_FNM_NOMATCH) := by
  have h1 : lo ≠ '!' := isalnum_ne hlo (by decide)
  have h2 : lo ≠ '^' := isalnum_ne hlo (by decide)
  have hb : bracket 0 [lo, '-', hi, ']'] [c] =
      some (if decide (lo.toNat ≤ c.toNat ∧ c.toNat ≤ hi.toNat) then some [] else none) := by
    apply bracket_eq_of_reaches
    have e : (lo == '!' || lo == '^') = false := by simp [h1, h2]
    have := bracket_range_reaches lo hi c hlo hhi false
    simp only [deref_cons, e, Bool.false_eq_true, if_false]
    by_cases hcond : lo.toNat ≤ c.toNat ∧ c.toNat ≤ hi.toNat
    · simpa only [hcond, decide_True, if_true, beq_iff_eq, Bool.true_eq_false, if_false] using this
    · simpa only [hcond, decide_False, if_true, beq_iff_eq, Bool.false_eq_true, if_false] using this
  have := fnmatch_bracket_one (isalnum_ne hc (by decide)) (isalnum_ne hc (by decide)) hb
  simpa using this

/-- C7 at concrete inputs: `[a-c]` matches `b`, does not match `d`, and the
reversed range `[c-a]` does not match `b`. -/
theorem bracket_range_membership_witness :
    mrb_file_fnmatch "[a-c]".toList "b".toList 0 = some 0 ∧
    mrb_file_fnmatch "[a-c]".toList "d".toList 0 = some MRB_FNM_NOMATCH ∧
    mrb_file_fnmatch "[c-a]".toList "b".toList 0 = some MRB_FNM_NOMATCH :=
  ⟨bracket_range_membership 'a' 'c' 'b' (by decide) (by decide) (by decide),
   bracket_range_membership 'a' 'c' 'd' (by decide) (by decide) (by decide),
   bracket_range_membership 'c' 'a' 'b' (by decide) (by decide) (by decide)⟩

theorem compare_eq_zero_iff (a b : Char) : compare a b = 0 ↔ a = b := by
  unfold compare
  constructor
  · intro h
    have h' : a.toNat = b.toNat := by omega
    apply Char.ext
    apply UInt32.ext
    exact h'
  · rintro rfl
    simp

theorem bracket_dash_reaches (x c : Char) (hx : isalnum x = true) (nope : Bool) :
    Reaches (bracket_step 0 [c] nope) ([x, '-', ']'], false)
      (if decide (x = c ∨ '-' = c) == nope then none else some []) := by
  have h1 : x ≠ ']' := isalnum_ne hx (by decide)
  have h2 : x ≠ '\\' := isalnum_ne hx (by decide)
  have h3 : x ≠ '\x00' := isalnum_ne hx (by decide)
  refine reaches_next (['-', ']'], decide (x = c)) ?_ ?_
  · simp [bracket_step, h1, h2, h3, Compare, downcase, compare_eq_zero_iff]
  · refine reaches_next ([']'], decide (x = c ∨ '-' = c)) ?_ (Reaches.done ?_)
    · by_cases hcx : x = c <;>
        simp [bracket_step, Compare, downcase, compare_eq_zero_iff, hcx]
    · simp [bracket_step]

/-- C9: for an ASCII alphanumeric `x` and a one-byte candidate `c` other than
`.`, the pattern `[x-]` matches `c` with flags `0` exactly when `c` is `x` or
`-`; otherwise the call returns `MRB_FNM_NOMATCH`.  The `-` before the closing
bracket is a member, not a range operator. -/
theorem bracket_trailing_dash (x c : Char) (hx : isalnum x = true) (hc0 : c ≠ '\x00')
    (hcd : c ≠ '.') :
    mrb_file_fnmatch ['[', x, '-', ']'] [c] 0 =
      some (if c = x ∨ c = '-' then 0 else MRB_FNM_NOMATCH) := by
  have h1 : x ≠ '!' := isalnum_ne hx (by decide)
  have h2 : x ≠ '^' := isalnum_ne hx (by decide)
  have hb : bracket 0 [x, '-', ']'] [c] =
      some (if decide (c = x ∨ c = '-') then some [] else none) := by
    apply bracket_eq_of_reaches
    have e : (x == '!' || x == '^') = false := by simp [h1, h2]
    have := bracket_dash_reaches x c hx false
    have e2 : (x = c ∨ '-' = c) ↔ (c = x ∨ c = '-') := by
      rw [eq_comm (a := x), eq_comm (a := '-')]
    simp only [deref_cons, e, Bool.false_eq_true, if_false]
    by_cases hcond : c = x ∨ c = '-'
    · simpa only [e2, hcond, decide_True, if_true, beq_iff_eq, Bool.true_eq_false, if_false]
        using this
    · simpa only [e2, hcond, decide_False, if_true, beq_iff_eq, Bool.false_eq_true, if_false]
        using this
  have := fnmatch_bracket_one hc0 hcd hb
  simpa using this

/-- C9 at concrete inputs: `[a-]` matches `-` and `a`, and does not match
`b`. -/
theorem bracket_trailing_dash_witness :
    mrb_file_fnmatch "[a-]".toList "-".toList 0 = some 0 ∧
    mrb_file_fnmatch "[a-]".toList "a".toList 0 = some 0 ∧
    mrb_file_fnmatch "[a-]".toList "b".toList 0 = some MRB_FNM_NOMATCH :=
  ⟨bracket_trailing_dash 'a' '-' (by decide) (by decide) (by decide),
   bracket_trailing_dash 'a' 'a' (by decide) (by decide) (by decide),
   bracket_trailing_dash 'a' 'b' (by decide) (by decide) (by decide)⟩

/-- One round of the loop of `bracket` on a class body without `]`, backslash
or NUL: it consumes one member (a byte or a range) and stays inside the body,
whatever the negation flag. -/
theorem bracket_step_body (flags : Nat) (s : List Char) (a : Char) (rest : List Char)
    (hbody : ∀ ch ∈ a :: rest, ch ≠ ']' ∧ ch ≠ '\\' ∧ ch ≠ '\x00') (ok0 : Bool) :
    ∃ rest' ok1, rest'.length < (a :: rest).length ∧ (∀ ch ∈ rest', ch ∈ a :: rest) ∧
      ∀ nope, bracket_step flags s nope (a :: rest ++ [']'], ok0)
        = Sum.inl (rest' ++ [']'], ok1) := by
  obtain ⟨ha1, ha2, ha3⟩ := hbody a (List.mem_cons_self a rest)
  rcases rest with _ | ⟨b, rest2⟩
  · exact ⟨[], _, by simp, by simp, fun nope => by simp [bracket_step, ha1, ha2, ha3]; rfl⟩
  · obtain ⟨hb1, hb2, hb3⟩ := hbody b (by simp)
    by_cases hb : b = '-'
    · subst hb
      rcases rest2 with _ | ⟨d, rest3⟩
      · exact ⟨['-'], _, by simp, by simp,
          fun nope => by simp [bracket_step, ha1, ha2, ha3]; rfl⟩
      · obtain ⟨hd1, hd2, hd3⟩ := hbody d (by simp)
        exact ⟨rest3, _, by simp only [List.length_cons]; omega, fun ch hch => by simp [hch],
          fun nope => by simp [bracket_step, ha1, ha2, ha3, hd1, hd2, hd3]; rfl⟩
    · exact ⟨b :: rest2, _, by simp, fun ch hch => by simp [List.mem_cons.mp hch],
        fun nope => by simp [bracket_step, ha1, ha2, ha3, hb]; rfl⟩

/-- The loop of `bracket` on a class body without `]`, backslash or NUL runs
to the closing bracket; whether a member accepted the candidate byte does not
depend on the negation flag, which only decides the returned pointer. -/
theorem bracket_body_reaches (flags : Nat) (s : List Char) :
    ∀ (n : Nat) (body : List Char), body.length ≤ n →
      (∀ ch ∈ body, ch ≠ ']' ∧ ch ≠ '\\' ∧ ch ≠ '\x00') → ∀ ok0 : Bool,
      ∃ ok' : Bool, ∀ nope : Bool, Reaches (bracket_step flags s nope) (body ++ [']'], ok0)
        (if ok' == nope then none else some []) := by
  intro n
  induction n with
  | zero =>
    intro body hlen _ ok0
    have : body = [] := List.length_eq_zero.mp (Nat.le_zero.mp hlen)
    subst this
    exact ⟨ok0, fun nope => Reaches.done (by simp [bracket_step])⟩
  | succ n ih =>
    intro body hlen hbody ok0
    rcases body with _ | ⟨a, rest⟩
    · exact ⟨ok0, fun nope => Reaches.done (by simp [bracket_step])⟩
    · obtain ⟨rest', ok1, h1, h2, h3⟩ := bracket_step_body flags s a rest hbody ok0
      obtain ⟨ok', h4⟩ := ih rest' (by simp only [List.length_cons] at hlen h1; omega)
        (fun ch hch => hbody ch (h2 ch hch)) ok1
      exact ⟨ok', fun nope => Reaches.next (h3 nope) (h4 nope)⟩

/-- C8: for a class body without `]` and backslash that does not begin with
`!` or `^`, and a one-byte candidate `c` other than `.`, with flags `0`:
`[!body]` matches `c` exactly when `[body]` does not (each call returns `0` or
`MRB_FNM_NOMATCH`), and `[^body]` returns what `[!body]` returns. -/
theorem bracket_negation_complement (body : List Char) (c : Char)
    (hbody : plain_class_body body) (hc0 : c ≠ '\x00') (hcd : c ≠ '.') :
    (mrb_file_fnmatch ('[' :: '!' :: body ++ [']']) [c] 0 = some 0 ↔
      mrb_file_fnmatch ('[' :: body ++ [']']) [c] 0 = some MRB_FNM_NOMATCH) ∧
    (mrb_file_fnmatch ('[' :: body ++ [']']) [c] 0 = some 0 ↔
      mrb_file_fnmatch ('[' :: '!' :: body ++ [']']) [c] 0 = some MRB_FNM_NOMATCH) ∧
    mrb_file_fnmatch ('[' :: '^' :: body ++ [']']) [c] 0 =
      mrb_file_fnmatch ('[' :: '!' :: body ++ [']']) [c] 0 := by
  obtain ⟨h1, h2, h3⟩ := hbody
  obtain ⟨ok', hr⟩ := bracket_body_reaches 0 [c] body.length body (le_refl _) h1 false
  have hplain : (deref (body ++ [']']) == '!' || deref (body ++ [']']) == '^') = false := by
    rcases body with _ | ⟨a, rest⟩
    · decide
    · simp only [List.head?_cons, ne_eq, Option.some.injEq] at h2 h3
      simp [h2, h3]
  have e1 : bracket 0 (body ++ [']']) [c] = some (if ok' then some [] else none) := by
    apply bracket_eq_of_reaches
    rw [hplain]
    have := hr false
    cases ok' <;> simpa using this
  have e2 : bracket 0 ('!' :: body ++ [']']) [c] = some (if !ok' then some [] else none) := by
    apply bracket_eq_of_reaches
    have := hr true
    cases ok' <;> simpa using this
  have e3 : bracket 0 ('^' :: body ++ [']']) [c] = some (if !ok' then some [] else none) := by
    apply bracket_eq_of_reaches
    have := hr true
    cases ok' <;> simpa using this
  have f1 := fnmatch_bracket_one hc0 hcd e1
  have f2 := fnmatch_bracket_one hc0 hcd e2
  have f3 := fnmatch_bracket_one hc0 hcd e3
  simp only [List.cons_append] at f1 f2 f3 ⊢
  rw [f1, f2, f3]
  cases ok' <;> simp [MRB_FNM_NOMATCH]

/-- C8 at concrete inputs: `[!a-c]` matches `d` while `[a-c]` does not, and
`[^a-c]` agrees with `[!a-c]`. -/
theorem bracket_negation_complement_witness :
    ((mrb_file_fnmatch "[!a-c]".toList "d".toList 0 = some 0 ↔
        mrb_file_fnmatch "[a-c]".toList "d".toList 0 = some MRB_FNM_NOMATCH) ∧
      (mrb_file_fnmatch "[a-c]".toList "d".toList 0 = some 0 ↔
        mrb_file_fnmatch "[!a-c]".toList "d".toList 0 = some MRB_FNM_NOMATCH) ∧
      mrb_file_fnmatch "[^a-c]".toList "d".toList 0 =
        mrb_file_fnmatch "[!a-c]".toList "d".toList 0) ∧
    mrb_file_fnmatch "[!a-c]".toList "d".toList 0 = some 0 :=
  ⟨bracket_negation_complement "a-c".toList 'd' (by simp [plain_class_body]) (by decide)
    (by decide), by decide⟩

/-! ## The leading-dot rule, the pattern `*` and the path separator: C5, C3, C6 -/

theorem is_recursive_iff (p : List Char) :
    is_recursive p = true ↔ ['*', '*', '/'] <+: p := by
  rcases p with _ | ⟨a, _ | ⟨b, _ | ⟨c, rest⟩⟩⟩
  · simp [is_recursive]
  · simp [is_recursive, List.prefix_iff_eq_take]
  · simp [is_recursive, List.prefix_iff_eq_take]
  · simp only [is_recursive, deref_cons, Next_cons, Bool.and_eq_true, beq_iff_eq,
      List.prefix_iff_eq_take]
    simp
    tauto

theorem path_step_nomatch {flags : Nat} {p s : List Char} (hrec : is_recursive p = false)
    {p' s' : List Char} {v : Int} (hv : v ≠ 0)
    (hh : fnmatch_helper flags p s = some (v, p', s')) :
    path_step flags (p, s, none, none) = Sum.inr (some MRB_FNM_NOMATCH) := by
  simp [path_step, hrec, hh, hv, path_failed]

/-- A loop that leaves in its first round. -/
theorem mrb_file_fnmatch_first_round {flags : Nat} {p s : List Char} {v : Int}
    (hp : pathname flags = true)
    (h : path_step flags (p, s, none, none) = Sum.inr (some v)) :
    mrb_file_fnmatch p s flags = some v :=
  mrb_file_fnmatch_path_eq hp (Reaches.done h)

/-- C5: without `DOTMATCH`, a candidate that begins with `.` is not matched by
a pattern that does not begin with `**/` and whose first byte (after one
escaping backslash, unless `NOESCAPE`) is not `.`: the call returns
`MRB_FNM_NOMATCH`.  So `*` does not match `.hidden` with flags `0`, while `.*`
does, and `*` does with `DOTMATCH`. -/
theorem leading_dot_rule :
    (∀ (flags : Nat) (p s : List Char), period flags = true → deref s = '.' →
      ¬ (['*', '*', '/'] <+: p) → deref (UNESCAPE flags p) ≠ '.' →
      mrb_file_fnmatch p s flags = some MRB_FNM_NOMATCH) ∧
    mrb_file_fnmatch "*".toList ".hidden".toList 0 = some MRB_FNM_NOMATCH ∧
    mrb_file_fnmatch "?x".toList ".x".toList 0 = some MRB_FNM_NOMATCH ∧
    mrb_file_fnmatch "[.]x".toList ".x".toList 0 = some MRB_FNM_NOMATCH ∧
    mrb_file_fnmatch ".*".toList ".hidden".toList 0 = some 0 ∧
    mrb_file_fnmatch "*".toList ".hidden".toList MRB_FNM_DOTMATCH = some 0 := by
  refine ⟨?_, by decide, by decide, by decide, by decide, by decide⟩
  intro flags p s hper hs hrec hp
  have hh : fnmatch_helper flags p s = some (MRB_FNM_NOMATCH, p, s) := by
    simp [fnmatch_helper, hper, hs, hp]
  by_cases hpath : pathname flags = true
  · refine mrb_file_fnmatch_first_round hpath (path_step_nomatch ?_ (by decide) hh)
    rw [← Bool.not_eq_true, is_recursive_iff]
    exact hrec
  · simp [mrb_file_fnmatch, hpath, hh]

/-- C5 at a concrete input: `[abc]` against the dot-file `.a` with flags
`PATHNAME`. -/
theorem leading_dot_rule_witness :
    mrb_file_fnmatch "[abc]".toList ".a".toList MRB_FNM_PATHNAME = some MRB_FNM_NOMATCH :=
  leading_dot_rule.1 MRB_FNM_PATHNAME "[abc]".toList ".a".toList (by decide) (by decide)
    (by decide) (by decide)

theorem deref_skip_segment {s : List Char} (hs : nul_free s) :
    deref (skip_segment s) = (if '/' ∈ s then '/' else '\x00') := by
  induction s with
  | nil => simp [skip_segment]
  | cons c s ih =>
    unfold nul_free at hs ih
    simp only [List.mem_cons, not_or] at hs
    have hc : c ≠ '\x00' := fun h => hs.1 h.symm
    by_cases h : c = '/'
    · subst h
      simp [skip_segment]
    · have h' : ¬ '/' = c := fun e => h e.symm
      have ih' := ih hs.2
      unfold skip_segment at ih' ⊢
      rw [List.dropWhile_cons, if_pos (by simp [hc, h]), ih']
      simp [h']

theorem star_helper (flags : Nat) (s : List Char)
    (hdot : (period flags && deref s == '.') = false) :
    fnmatch_helper flags ['*'] s = some (0, [], s) := by
  apply fnmatch_helper_eq
  · rw [hdot]
    rfl
  · exact Reaches.done (by simp [helper_step, ISEND, UNESCAPE])

theorem star_helper_dot (flags : Nat) (s : List Char)
    (hdot : (period flags && deref s == '.') = true) :
    fnmatch_helper flags ['*'] s = some (MRB_FNM_NOMATCH, ['*'], s) := by
  simp only [Bool.and_eq_true, beq_iff_eq] at hdot
  simp [fnmatch_helper, hdot.1, hdot.2, UNESCAPE]

/-- The claim C3 fails as stated: `*` does not match the candidate `.hidden`,
which has no `/`, with flags `0` or with `PATHNAME`. -/
theorem star_dotfile_counterexample :
    '/' ∉ ".hidden".toList ∧
    mrb_file_fnmatch "*".toList ".hidden".toList MRB_FNM_PATHNAME = some MRB_FNM_NOMATCH ∧
    mrb_file_fnmatch "*".toList ".hidden".toList 0 = some MRB_FNM_NOMATCH := by
  decide

/-- C3 (amended): for a candidate `s`, the pattern `*` matches with flags
`PATHNAME` exactly when `s` contains no `/` and does not begin with `.`, and
it matches with flags `0` exactly when `s` does not begin with `.`; otherwise
the call returns `MRB_FNM_NOMATCH`. -/
theorem star_pattern (s : List Char) (hs : nul_free s) :
    mrb_file_fnmatch ['*'] s MRB_FNM_PATHNAME =
      some (if '/' ∉ s ∧ deref s ≠ '.' then 0 else MRB_FNM_NOMATCH) ∧
    mrb_file_fnmatch ['*'] s 0 = some (if deref s ≠ '.' then 0 else MRB_FNM_NOMATCH) := by
  have hper : period MRB_FNM_PATHNAME = true := by decide
  have hpath : pathname MRB_FNM_PATHNAME = true := by decide
  by_cases hd : deref s = '.'
  · have h1 := star_helper_dot MRB_FNM_PATHNAME s (by simp [hper, hd])
    have h2 := star_helper_dot 0 s (by simp [hd])
    constructor
    · rw [mrb_file_fnmatch_first_round hpath (path_step_nomatch (by decide) (by decide) h1)]
      simp [hd]
    · simp [mrb_file_fnmatch, h2, hd]
  · have h1 := star_helper MRB_FNM_PATHNAME s (by simp [hd])
    have h2 := star_helper 0 s (by simp [hd])
    constructor
    · by_cases hsl : '/' ∈ s
      · rw [mrb_file_fnmatch_first_round (v := MRB_FNM_NOMATCH) hpath]
        · simp [hsl]
        · simp [path_step, is_recursive, h1, deref_skip_segment hs, hsl, path_failed]
      · rw [mrb_file_fnmatch_first_round (v := 0) hpath]
        · simp [hsl, hd]
        · simp [path_step, is_recursive, h1, deref_skip_segment hs, hsl]
    · simp [mrb_file_fnmatch, h2, hd]

/-- C3 (amended) at a concrete input: the candidate `a/b`. -/
theorem star_pattern_witness :
    mrb_file_fnmatch ['*'] "a/b".toList MRB_FNM_PATHNAME = some MRB_FNM_NOMATCH ∧
    mrb_file_fnmatch ['*'] "a/b".toList 0 = some 0 :=
  star_pattern "a/b".toList (by decide)

theorem not_recursive_of_no_slash {p : List Char} (hp : '/' ∉ p) : is_recursive p = false := by
  rw [← Bool.not_eq_true, is_recursive_iff]
  rintro ⟨t, rfl⟩
  simp at hp

/-- C6: in pathname mode, a pattern without `/` does not match a candidate
that contains a `/`: the call returns `MRB_FNM_NOMATCH`, so no wildcard of the
pattern consumed the separator. -/
theorem wildcard_never_crosses_separator (flags : Nat) (p s : List Char)
    (hpath : pathname flags = true) (hp : '/' ∉ p) (hs0 : nul_free s) (hs : '/' ∈ s) :
    mrb_file_fnmatch p s flags = some MRB_FNM_NOMATCH := by
  have hrec := not_recursive_of_no_slash hp
  obtain ⟨v, p', s', hh, hp', hs', hv, hend⟩ := fnmatch_helper_post flags p s
  by_cases hv0 : v = 0
  · subst hv0
    refine mrb_file_fnmatch_first_round hpath ?_
    -- the pattern cursor is at the terminator
    have hp0 : deref p' = '\x00' := by
      have := hend rfl
      simp only [ISEND, hpath, Bool.true_and, Bool.or_eq_true, beq_iff_eq] at this
      rcases this with h | h
      · exact h
      · exfalso
        apply hp
        apply hp'.subset
        rcases p' with _ | ⟨c, t⟩
        · simp at h
        · simp only [deref_cons] at h
          simp [h]
    -- the candidate cursor still has the separator in front of it
    obtain ⟨a, rfl, ha⟩ := hs'
    have hs'1 : '/' ∈ s' := by
      rcases List.mem_append.mp hs with h | h
      · exact absurd h (ha hpath)
      · exact h
    have hs'0 : nul_free s' := fun h => hs0 (List.mem_append_right a h)
    simp [path_step, hrec, hh, hp0, deref_skip_segment hs'0, hs'1, path_failed]
  · exact mrb_file_fnmatch_first_round hpath (path_step_nomatch hrec hv0 hh)

/-- C6 at a concrete input: `*?*` against `a/b` with `PATHNAME | DOTMATCH`. -/
theorem wildcard_never_crosses_separator_witness :
    mrb_file_fnmatch "*?*".toList "a/b".toList 6 = some MRB_FNM_NOMATCH :=
  wildcard_never_crosses_separator 6 "*?*".toList "a/b".toList (by decide) (by decide)
    (by decide) (by decide)

/-! ## Literal patterns: C1 -/

theorem toNat_ofNat_small (n : Nat) (h : n < 0xd800) : (Char.ofNat n).toNat = n := by
  unfold Char.ofNat
  have hv : n.isValidChar := Or.inl h
  rw [dif_pos hv]
  simp [Char.ofNatAux, Char.toNat, UInt32.toNat]

theorem tolower_toNat {c : Char} (h : isupper c = true) : (tolower c).toNat = c.toNat + 32 := by
  unfold tolower
  rw [if_pos h]
  apply toNat_ofNat_small
  simp only [isupper, Bool.and_eq_true, decide_eq_true_eq] at h
  have : 'Z'.toNat = 90 := by decide
  omega

/-- A byte that is not an ASCII letter is the folded form of itself only. -/
theorem downcase_eq_nonletter (flags : Nat) (c d : Char)
    (hd : ¬ (65 ≤ d.toNat ∧ d.toNat ≤ 90)) (hd' : ¬ (97 ≤ d.toNat ∧ d.toNat ≤ 122)) :
    downcase flags c = d ↔ c = d := by
  have hA : 'A'.toNat = 65 := by decide
  have hZ : 'Z'.toNat = 90 := by decide
  unfold downcase
  split_ifs with h
  · simp only [Bool.and_eq_true] at h
    have h1 := tolower_toNat h.2
    have h2 := h.2
    simp only [isupper, Bool.and_eq_true, decide_eq_true_eq, hA, hZ] at h2
    constructor
    · intro e
      rw [e] at h1
      omega
    · intro e
      subst e
      omega
  · rfl

theorem downcase_eq_slash (flags : Nat) (c : Char) : downcase flags c = '/' ↔ c = '/' :=
  downcase_eq_nonletter flags c '/' (by decide) (by decide)

theorem downcase_eq_dot (flags : Nat) (c : Char) : downcase flags c = '.' ↔ c = '.' :=
  downcase_eq_nonletter flags c '.' (by decide) (by decide)

theorem Compare_cons_eq_zero (flags : Nat) (c d : Char) (p s : List Char) :
    Compare flags (c :: p) (d :: s) = 0 ↔ downcase flags c = downcase flags d := by
  simp [Compare, compare_eq_zero_iff]

theorem ISEND_cons (flags : Nat) (c : Char) (p : List Char) (hc : c ≠ '\x00') :
    ISEND flags (c :: p) = (pathname flags && c == '/') := by
  simp [ISEND, hc]

theorem StartsWithFolded.tail {flags : Nat} {c d : Char} {lit s : List Char}
    (h : StartsWithFolded flags (c :: lit) (d :: s)) :
    downcase flags d = downcase flags c ∧ StartsWithFolded flags lit s := by
  obtain ⟨b, s'', h1, h2⟩ := h
  rcases b with _ | ⟨e, b⟩
  · simp at h2
  · simp only [List.cons_append, List.cons.injEq] at h1
    simp only [List.map_cons, List.cons.injEq] at h2
    obtain ⟨rfl, rfl⟩ := h1
    exact ⟨h2.1, b, s'', rfl, h2.2⟩

theorem literal_cons {c : Char} {p : List Char} (h : literal (c :: p)) :
    (c ≠ '*' ∧ c ≠ '?' ∧ c ≠ '[' ∧ c ≠ '\\' ∧ c ≠ '\x00') ∧ literal p :=
  ⟨h c (List.mem_cons_self c p), fun d hd => h d (List.mem_cons_of_mem c hd)⟩

theorem nul_free_cons {c : Char} {s : List Char} (h : nul_free (c :: s)) :
    c ≠ '\x00' ∧ nul_free s := by
  unfold nul_free at h ⊢
  simp only [List.mem_cons, not_or] at h
  exact ⟨fun e => h.1 e.symm, h.2⟩

/-- One round of the loop of `fnmatch_helper` on a literal pattern byte. -/
theorem helper_step_literal (flags : Nat) (c : Char) (p s : List Char)
    (ptmp stmp : Option (List Char))
    (hc : c ≠ '*' ∧ c ≠ '?' ∧ c ≠ '[' ∧ c ≠ '\\' ∧ c ≠ '\x00') :
    helper_step flags (c :: p, s, ptmp, stmp) =
      if ISEND flags s then
        Sum.inr (some (if ISEND flags (c :: p) then 0 else MRB_FNM_NOMATCH, c :: p, s))
      else if ISEND flags (c :: p) then helper_failed (c :: p) s ptmp stmp
      else if Compare flags (c :: p) s != 0 then helper_failed (c :: p) s ptmp stmp
      else Sum.inl (p, Next s, ptmp, stmp) := by
  obtain ⟨h1, h2, h3, h4, h5⟩ := hc
  simp [helper_step, h1, h2, h3, h4, UNESCAPE]

theorem lit_walk (flags : Nat) (rest : List Char) :
    ∀ (lit s : List Char), literal lit → nul_free s → LitWalk flags lit rest s := by
  intro lit
  induction lit with
  | nil =>
    intro s _ _
    exact LitWalk.through [] s rfl rfl (fun _ => ⟨by simp, by simp⟩) (fun r h => h)
  | cons c l1 ih =>
    intro s hlit hs
    obtain ⟨hc, hl1⟩ := literal_cons hlit
    have hstep := helper_step_literal flags c (l1 ++ rest) s none none hc
    have hc0 : c ≠ '\x00' := hc.2.2.2.2
    rw [ISEND_cons flags c _ hc0] at hstep
    rcases s with _ | ⟨d, s1⟩
    · -- the candidate is exhausted
      by_cases hpc : (pathname flags && c == '/') = true
      · simp only [Bool.and_eq_true, beq_iff_eq] at hpc
        obtain ⟨hp, rfl⟩ := hpc
        refine LitWalk.segment [] l1 [] [] hp rfl rfl rfl (by simp) (by simp)
          (by simp [ISEND]) (Reaches.done ?_)
        simp [hstep, ISEND, hp]
      · refine LitWalk.fail (c :: (l1 ++ rest)) [] (Reaches.done ?_) ?_
        · rw [List.cons_append, hstep]
          simp [ISEND, hpc]
        · rintro ⟨b, s'', h1, h2⟩
          have : b = [] := by
            rcases b with _ | ⟨e, b⟩
            · rfl
            · simp at h1
          subst this
          simp at h2
    · obtain ⟨hd0, hs1⟩ := nul_free_cons hs
      rw [ISEND_cons flags d _ hd0] at hstep
      by_cases hpd : (pathname flags && d == '/') = true
      · -- the candidate is at a segment end
        simp only [Bool.and_eq_true, beq_iff_eq] at hpd
        obtain ⟨hp, rfl⟩ := hpd
        by_cases hcs : c = '/'
        · subst hcs
          refine LitWalk.segment [] l1 [] ('/' :: s1) hp rfl rfl rfl (by simp) (by simp)
            (by simp [ISEND, hp]) (Reaches.done ?_)
          simp [hstep, hp]
        · refine LitWalk.fail (c :: (l1 ++ rest)) ('/' :: s1) (Reaches.done ?_) ?_
          · rw [List.cons_append, hstep]
            simp [hp, hcs]
          · intro h
            have := h.tail.1
            rw [eq_comm, downcase_eq_nonletter flags '/' '/' (by decide) (by decide) |>.mpr rfl,
              downcase_eq_slash] at this
            exact hcs this
      · by_cases hpc : (pathname flags && c == '/') = true
        · -- the pattern is at a segment end, the candidate is not
          simp only [Bool.and_eq_true, beq_iff_eq] at hpc
          obtain ⟨hp, rfl⟩ := hpc
          have hds : d ≠ '/' := by
            intro e
            apply hpd
            simp [hp, e]
          refine LitWalk.fail ('/' :: (l1 ++ rest)) (d :: s1) (Reaches.done ?_) ?_
          · rw [List.cons_append, hstep]
            simp [hp, hds, helper_failed]
          · intro h
            have := h.tail.1
            rw [downcase_eq_nonletter flags '/' '/' (by decide) (by decide) |>.mpr rfl,
              downcase_eq_slash] at this
            exact hds this
        · by_cases hcmp : downcase flags c = downcase flags d
          · -- the bytes agree: go on
            have hnext : helper_step flags (c :: l1 ++ rest, d :: s1, none, none)
                = Sum.inl (l1 ++ rest, s1, none, none) := by
              rw [List.cons_append, hstep]
              simp [hpd, hpc, Compare_cons_eq_zero, hcmp]
            have hcs : pathname flags = true → c ≠ '/' := by
              intro hp e
              apply hpc
              simp [hp, e]
            have hds : pathname flags = true → d ≠ '/' := by
              intro hp e
              apply hpd
              simp [hp, e]
            rcases ih s1 hl1 hs1 with ⟨p', s', hr, hn⟩ | ⟨a, lit2, b, s', hp, hl, hs', hab, ha, hb, hend, hr⟩
                | ⟨b, s'', hs', hb, hsl, hr⟩
            · refine LitWalk.fail p' s' (Reaches.next hnext hr) ?_
              intro h
              exact hn h.tail.2
            · subst hl hs'
              refine LitWalk.segment (c :: a) lit2 (d :: b) s' hp rfl rfl ?_ ?_ ?_ hend
                (Reaches.next hnext hr)
              · simp [hab, hcmp]
              · simp [ha, (hcs hp).symm]
              · simp [hb, (hds hp).symm]
            · subst hs'
              refine LitWalk.through (d :: b) s'' rfl (by simp [hb, hcmp]) ?_
                (fun r h => Reaches.next hnext (hr r h))
              intro hp
              obtain ⟨h1, h2⟩ := hsl hp
              exact ⟨by simp [h1, (hcs hp).symm], by simp [h2, (hds hp).symm]⟩
          · refine LitWalk.fail (c :: (l1 ++ rest)) (d :: s1) (Reaches.done ?_) ?_
            · rw [List.cons_append, hstep]
              simp [hpd, hpc, Compare_cons_eq_zero, hcmp, helper_failed]
            · intro h
              exact hcmp h.tail.1.symm

theorem literal_suffix {p q : List Char} (h : literal p) (hq : q <:+ p) : literal q :=
  fun c hc => h c (hq.subset hc)

theorem nul_free_suffix {p q : List Char} (h : nul_free p) (hq : q <:+ p) : nul_free q :=
  fun hc => h (hq.subset hc)

theorem literal_nul_free {p : List Char} (h : literal p) : nul_free p :=
  fun hc => (h _ hc).2.2.2.2 rfl

/-- The end of the loop of `fnmatch_helper` on an exhausted pattern. -/
theorem helper_step_nil (flags : Nat) (s : List Char) :
    helper_step flags ([], s, none, none) =
      Sum.inr (some (if ISEND flags s then 0 else MRB_FNM_NOMATCH, [], s)) := by
  have e1 : UNESCAPE flags [] = [] := by simp [UNESCAPE]
  have e2 : ISEND flags [] = true := by simp [ISEND]
  simp only [helper_step, deref_nil, e1, e2, if_true]
  by_cases h : ISEND flags s = true
  · simp [h]
  · simp [h, helper_failed]

/-- What `fnmatch_helper` returns on a literal pattern. -/
theorem helper_literal (flags : Nat) (p s : List Char) (hp : literal p) (hs : nul_free s) :
    ∃ v p' s', fnmatch_helper flags p s = some (v, p', s') ∧
      ((v = MRB_FNM_NOMATCH ∧ p.map (downcase flags) ≠ s.map (downcase flags)) ∨
       (v = 0 ∧ ∃ a b, p = a ++ p' ∧ s = b ++ s' ∧
          b.map (downcase flags) = a.map (downcase flags) ∧ ISEND flags p' = true ∧
          ISEND flags s' = true ∧ (pathname flags = true → '/' ∉ a ∧ '/' ∉ b))) := by
  by_cases hdot : (period flags && deref s == '.' && deref (UNESCAPE flags p) != '.') = true
  · refine ⟨MRB_FNM_NOMATCH, p, s, by simp [fnmatch_helper, hdot], Or.inl ⟨rfl, ?_⟩⟩
    simp only [Bool.and_eq_true, beq_iff_eq, bne_iff_ne, ne_eq] at hdot
    obtain ⟨⟨-, h1⟩, h2⟩ := hdot
    rcases s with _ | ⟨d, s1⟩
    · simp at h1
    · simp only [deref_cons] at h1
      subst h1
      rcases p with _ | ⟨c, p1⟩
      · simp
      · have hc := (literal_cons hp).1
        have hu : UNESCAPE flags (c :: p1) = c :: p1 := by simp [UNESCAPE, hc.2.2.2.1]
        rw [hu, deref_cons] at h2
        simp only [List.map_cons, ne_eq, List.cons.injEq, not_and]
        intro e
        rw [downcase_eq_nonletter flags '.' '.' (by decide) (by decide) |>.mpr rfl,
          downcase_eq_dot] at e
        exact absurd e h2
  · have hdot' : (period flags && deref s == '.' && deref (UNESCAPE flags p) != '.') = false := by
      simpa using hdot
    rcases lit_walk flags [] p s hp hs with ⟨p', s', hr, hn⟩
        | ⟨a, lit2, b, s', hpath, hl, hs', hab, ha, hb, hend, hr⟩ | ⟨b, s'', hs', hb, hsl, hr⟩
    · rw [List.append_nil] at hr
      exact ⟨_, _, _, fnmatch_helper_eq hdot' hr, Or.inl ⟨rfl, fun e => hn ⟨s, [], by simp, e.symm⟩⟩⟩
    · rw [List.append_nil] at hr
      refine ⟨_, _, _, fnmatch_helper_eq hdot' hr, Or.inr ⟨rfl, a, b, by simp [hl], hs', hab, ?_,
        hend, fun _ => ⟨ha, hb⟩⟩⟩
      simp [ISEND, hpath]
    · rw [List.append_nil] at hr
      have h1 := hr _ (Reaches.done (helper_step_nil flags s''))
      refine ⟨_, _, _, fnmatch_helper_eq hdot' h1, ?_⟩
      by_cases he : ISEND flags s'' = true
      · rw [if_pos he]
        exact Or.inr ⟨rfl, p, b, by simp, hs', hb, by simp [ISEND], he, hsl⟩
      · rw [if_neg he]
        refine Or.inl ⟨rfl, ?_⟩
        intro e
        have h2 := congrArg List.length e
        have h3 := congrArg List.length hb
        rw [hs'] at h2
        simp only [List.length_map, List.length_append] at h2 h3
        have : s'' = [] := List.length_eq_zero.mp (by omega)
        subst this
        simp [ISEND] at he

theorem literal_not_recursive {p : List Char} (hp : literal p) : is_recursive p = false := by
  rcases p with _ | ⟨c, p⟩
  · rfl
  · have := (literal_cons hp).1.1
    simp [is_recursive, this]

/-- A cursor at a segment end of a C string (pathname mode): the terminator
or a `/`. -/
theorem ISEND_cases {flags : Nat} {s : List Char} (hs : nul_free s)
    (he : ISEND flags s = true) : s = [] ∨ (pathname flags = true ∧ ∃ t, s = '/' :: t) := by
  rcases s with _ | ⟨c, t⟩
  · exact Or.inl rfl
  · rw [ISEND_cons flags c t (nul_free_cons hs).1] at he
    simp only [Bool.and_eq_true, beq_iff_eq] at he
    exact Or.inr ⟨he.1, t, by rw [he.2]⟩

/-- In pathname mode the loop of `mrb_file_fnmatch` on a literal pattern
compares pattern and candidate up to case folding. -/
theorem path_literal (flags : Nat) :
    ∀ (n : Nat) (p s : List Char), p.length ≤ n → literal p → nul_free s →
      Reaches (path_step flags) (p, s, none, none)
        (some (if p.map (downcase flags) = s.map (downcase flags) then 0
          else MRB_FNM_NOMATCH)) := by
  intro n
  induction n with
  | zero =>
    intro p s hlen _ hs
    have : p = [] := List.length_eq_zero.mp (Nat.le_zero.mp hlen)
    subst this
    obtain ⟨v, p', s', hh, hcase⟩ := helper_literal flags [] s (by intro c hc; simp at hc) hs
    rcases hcase with ⟨rfl, hne⟩ | ⟨rfl, a, b, h1, h2, h3, h4, h5, h6⟩
    · rw [if_neg hne]
      exact Reaches.done (path_step_nomatch rfl (by decide) hh)
    · have ha : a = [] := by
        rcases a with _ | ⟨x, a⟩
        · rfl
        · simp at h1
      subst ha
      have hb : b = [] := by simpa using h3
      subst hb
      simp only [List.nil_append] at h1 h2
      subst h1 h2
      refine Reaches.done ?_
      rcases ISEND_cases hs h5 with rfl | ⟨-, t, rfl⟩
      · simp [path_step, is_recursive, hh, skip_segment]
      · simp [path_step, is_recursive, hh, skip_segment, path_failed]
  | succ n ih =>
    intro p s hlen hp hs
    have hrec := literal_not_recursive hp
    obtain ⟨v, p', s', hh, hcase⟩ := helper_literal flags p s hp hs
    rcases hcase with ⟨rfl, hne⟩ | ⟨rfl, a, b, h1, h2, h3, h4, h5, h6⟩
    · rw [if_neg hne]
      exact Reaches.done (path_step_nomatch hrec (by decide) hh)
    · have hp' : literal p' := literal_suffix hp (h1 ▸ List.suffix_append a p')
      have hs' : nul_free s' := nul_free_suffix hs (h2 ▸ List.suffix_append b s')
      have hfold : p.map (downcase flags) = s.map (downcase flags) ↔
          p'.map (downcase flags) = s'.map (downcase flags) := by
        rw [h1, h2, List.map_append, List.map_append, h3]
        exact List.append_right_inj _
      simp only [hfold]
      rcases ISEND_cases (literal_nul_free hp') h4 with rfl | ⟨-, p2, rfl⟩
      · rcases ISEND_cases hs' h5 with rfl | ⟨-, s2, rfl⟩
        · exact Reaches.done (by simp [path_step, hrec, hh, skip_segment])
        · exact Reaches.done (by simp [path_step, hrec, hh, skip_segment, path_failed])
      · rcases ISEND_cases hs' h5 with rfl | ⟨-, s2, rfl⟩
        · exact Reaches.done (by simp [path_step, hrec, hh, skip_segment, path_failed])
        · have hstep : path_step flags (p, s, none, none) = Sum.inl (p2, s2, none, none) := by
            simp [path_step, hrec, hh, skip_segment]
          have hlen2 : p2.length ≤ n := by
            have := congrArg List.length h1
            simp only [List.length_append, List.length_cons] at this
            omega
          have := ih p2 s2 hlen2 (literal_cons hp').2 (nul_free_cons hs').2
          have e : (List.map (downcase flags) ('/' :: p2) = List.map (downcase flags) ('/' :: s2))
              ↔ (p2.map (downcase flags) = s2.map (downcase flags)) := by
            simp
          simp only [e]
          exact Reaches.next hstep this

/-- The folding of the comparison is the identity without `CASEFOLD` and
`tolower` with it. -/
theorem map_downcase (flags : Nat) (p : List Char) :
    p.map (downcase flags) = if nocase flags = true then p.map tolower else p := by
  split_ifs with h
  · congr 1
    funext c
    simp only [downcase, h, Bool.true_and]
    split_ifs with hu
    · rfl
    · simp [tolower, hu]
  · have : downcase flags = id := by
      funext c
      simp [downcase, h]
    rw [this, List.map_id]

/-- C1: a literal pattern `p` (no `*`, `?`, `[`, backslash) matches a
candidate `s` exactly when the two are equal, compared after ASCII
lower-casing both when `CASEFOLD` is set and byte for byte otherwise; in the
other case the call returns `MRB_FNM_NOMATCH`.  This holds for every flag
set. -/
theorem literal_match_is_equality (flags : Nat) (p s : List Char) (hp : literal p)
    (hs : nul_free s) :
    mrb_file_fnmatch p s flags =
      some (if (if nocase flags = true then p.map tolower = s.map tolower else p = s)
        then 0 else MRB_FNM_NOMATCH) := by
  have key : mrb_file_fnmatch p s flags =
      some (if p.map (downcase flags) = s.map (downcase flags) then 0 else MRB_FNM_NOMATCH) := by
    by_cases hpath : pathname flags = true
    · exact mrb_file_fnmatch_path_eq hpath (path_literal flags _ p s (le_refl _) hp hs)
    · obtain ⟨v, p', s', hh, hcase⟩ := helper_literal flags p s hp hs
      simp only [mrb_file_fnmatch, hpath, Bool.false_eq_true, if_false, hh, Option.map_some']
      rcases hcase with ⟨rfl, hne⟩ | ⟨rfl, a, b, h1, h2, h3, h4, h5, -⟩
      · rw [if_neg hne]
      · have hp' : nul_free p' :=
          literal_nul_free (literal_suffix hp (h1 ▸ List.suffix_append a p'))
        have hs' : nul_free s' := nul_free_suffix hs (h2 ▸ List.suffix_append b s')
        rcases ISEND_cases hp' h4 with rfl | ⟨h, -⟩
        · rcases ISEND_cases hs' h5 with rfl | ⟨h, -⟩
          · rw [if_pos]
            rw [h1, h2, List.append_nil, List.append_nil, h3]
          · exact absurd h hpath
        · exact absurd h hpath
  rw [key, map_downcase, map_downcase]
  by_cases hn : nocase flags = true <;> simp [hn]

/-- C1 at concrete inputs: `ABC` matches `abc` under `CASEFOLD` and does not
under flags `0`; `a/b` matches `a/b` under `PATHNAME`. -/
theorem literal_match_is_equality_witness :
    mrb_file_fnmatch "ABC".toList "abc".toList MRB_FNM_CASEFOLD = some 0 ∧
    mrb_file_fnmatch "ABC".toList "abc".toList 0 = some MRB_FNM_NOMATCH ∧
    mrb_file_fnmatch "a/b".toList "a/b".toList MRB_FNM_PATHNAME = some 0 :=
  ⟨literal_match_is_equality MRB_FNM_CASEFOLD "ABC".toList "abc".toList (by decide) (by decide),
   literal_match_is_equality 0 "ABC".toList "abc".toList (by decide) (by decide),
   literal_match_is_equality MRB_FNM_PATHNAME "a/b".toList "a/b".toList (by decide) (by decide)⟩

/-! ## Unterminated bracket expressions: C10 -/

/-- The loop of `bracket` returns a pointer only after it has seen a `]`. -/
theorem bracket_loop_needs_close {flags : Nat} {s : List Char} {nope : Bool}
    {st : List Char × Bool} {t : List Char}
    (h : Reaches (bracket_step flags s nope) st (some t)) : ']' ∈ st.1 := by
  generalize hr : some t = r at h
  induction h with
  | @done st r hs =>
    subst hr
    obtain ⟨p, ok⟩ := st
    obtain ⟨h1, -, -⟩ := bracket_step_inr hs
    rcases p with _ | ⟨c, p⟩
    · simp at h1
    · simp only [deref_cons] at h1
      simp [h1]
  | @next st st' r hs _ ih =>
    obtain ⟨p, ok⟩ := st
    obtain ⟨p', ok'⟩ := st'
    exact (bracket_step_inl hs).1.subset (ih hr)

/-- An unterminated bracket expression: `bracket` returns `NULL`. -/
theorem bracket_unterminated (flags : Nat) (body s : List Char) (hbody : ']' ∉ body) :
    bracket flags body s = some none := by
  obtain ⟨r, hr⟩ := bracket_total flags body s
  rcases r with _ | t
  · exact hr
  · exfalso
    have := bracket_loop_needs_close (reaches_of_iterate _ _ _ hr)
    simp only at this
    split_ifs at this
    · exact hbody ((Next_suffix body).subset this)
    · exact hbody this

theorem helper_step_unterminated (flags : Nat) (body s : List Char) (hbody : ']' ∉ body) :
    helper_step flags ('[' :: body, s, none, none)
      = Sum.inr (some (MRB_FNM_NOMATCH, '[' :: body, s)) := by
  by_cases he : ISEND flags s = true
  · simp [helper_step, he]
  · simp [helper_step, he, bracket_unterminated flags body s hbody, helper_failed]

/-- What `fnmatch_helper` returns on a literal text followed by an
unterminated bracket expression: "no match", or (pathname mode) a match of the
first segment, which lies inside the literal text. -/
theorem helper_unterminated (flags : Nat) (pre body s : List Char) (hpre : literal pre)
    (hbody : ']' ∉ body) (hs : nul_free s) :
    ∃ v p' s', fnmatch_helper flags (pre ++ '[' :: body) s = some (v, p', s') ∧
      (v = MRB_FNM_NOMATCH ∨
       (v = 0 ∧ pathname flags = true ∧ ISEND flags s' = true ∧ s' <:+ s ∧
         ∃ a lit2, pre = a ++ '/' :: lit2 ∧ p' = '/' :: lit2 ++ '[' :: body)) := by
  by_cases hdot : (period flags && deref s == '.' &&
      deref (UNESCAPE flags (pre ++ '[' :: body)) != '.') = true
  · exact ⟨MRB_FNM_NOMATCH, pre ++ '[' :: body, s, by simp [fnmatch_helper, hdot], Or.inl rfl⟩
  · have hdot' : (period flags && deref s == '.' &&
        deref (UNESCAPE flags (pre ++ '[' :: body)) != '.') = false := by simpa using hdot
    rcases lit_walk flags ('[' :: body) pre s hpre hs with ⟨p', s', hr, -⟩
        | ⟨a, lit2, b, s', hpath, hl, hs', -, -, -, hend, hr⟩ | ⟨b, s'', -, -, -, hr⟩
    · exact ⟨_, _, _, fnmatch_helper_eq hdot' hr, Or.inl rfl⟩
    · exact ⟨_, _, _, fnmatch_helper_eq hdot' hr, Or.inr ⟨rfl, hpath, hend,
        hs' ▸ List.suffix_append b s', a, lit2, hl, by simp⟩⟩
    · have := hr _ (Reaches.done (helper_step_unterminated flags body s'' hbody))
      exact ⟨_, _, _, fnmatch_helper_eq hdot' this, Or.inl rfl⟩

theorem unterminated_not_recursive (pre body : List Char) (hpre : literal pre) :
    is_recursive (pre ++ '[' :: body) = false := by
  rcases pre with _ | ⟨c, pre⟩
  · simp [is_recursive]
  · have := (literal_cons hpre).1.1
    simp [is_recursive, this]

theorem path_unterminated (flags : Nat) (body : List Char) (hbody : ']' ∉ body) :
    ∀ (n : Nat) (pre s : List Char), pre.length ≤ n → literal pre → nul_free s →
      Reaches (path_step flags) (pre ++ '[' :: body, s, none, none)
        (some MRB_FNM_NOMATCH) := by
  intro n
  induction n with
  | zero =>
    intro pre s hlen hpre hs
    have hrec := unterminated_not_recursive pre body hpre
    obtain ⟨v, p', s', hh, hcase⟩ := helper_unterminated flags pre body s hpre hbody hs
    rcases hcase with rfl | ⟨-, -, -, -, a, lit2, hl, -⟩
    · exact Reaches.done (path_step_nomatch hrec (by decide) hh)
    · subst hl
      simp at hlen
  | succ n ih =>
    intro pre s hlen hpre hs
    have hrec := unterminated_not_recursive pre body hpre
    obtain ⟨v, p', s', hh, hcase⟩ := helper_unterminated flags pre body s hpre hbody hs
    rcases hcase with rfl | ⟨rfl, hpath, hend, hsuf, a, lit2, hl, rfl⟩
    · exact Reaches.done (path_step_nomatch hrec (by decide) hh)
    · have hs' := nul_free_suffix hs hsuf
      rcases ISEND_cases hs' hend with rfl | ⟨-, s2, rfl⟩
      · exact Reaches.done (by simp [path_step, hrec, hh, skip_segment, path_failed])
      · have hstep : path_step flags (pre ++ '[' :: body, s, none, none)
            = Sum.inl (lit2 ++ '[' :: body, s2, none, none) := by
          simp [path_step, hrec, hh, skip_segment]
        refine Reaches.next hstep (ih lit2 s2 ?_ ?_ (nul_free_cons hs').2)
        · subst hl
          simp only [List.length_append, List.length_cons] at hlen
          omega
        · subst hl
          exact literal_suffix hpre ((List.suffix_cons '/' lit2).trans (List.suffix_append a _))

/-- C10: a pattern made of a literal text `pre` (no `*`, `?`, `[`, backslash)
followed by `[` and a body without `]` matches no candidate, whatever the
flags: the call returns `MRB_FNM_NOMATCH`. -/
theorem unterminated_bracket_no_match (flags : Nat) (pre body s : List Char)
    (hpre : literal pre) (hbody : ']' ∉ body) (hs : nul_free s) :
    mrb_file_fnmatch (pre ++ '[' :: body) s flags = some MRB_FNM_NOMATCH := by
  by_cases hpath : pathname flags = true
  · exact mrb_file_fnmatch_path_eq hpath
      (path_unterminated flags body hbody _ pre s (le_refl _) hpre hs)
  · obtain ⟨v, p', s', hh, hcase⟩ := helper_unterminated flags pre body s hpre hbody hs
    rcases hcase with rfl | ⟨-, h, -⟩
    · simp [mrb_file_fnmatch, hpath, hh]
    · exact absurd h hpath

/-- C10 at concrete inputs: `[abc` against `a` with flags `0`, and `x/[a`
against `x/a` with `PATHNAME`. -/
theorem unterminated_bracket_no_match_witness :
    mrb_file_fnmatch "[abc".toList "a".toList 0 = some MRB_FNM_NOMATCH ∧
    mrb_file_fnmatch "x/[a".toList "x/a".toList MRB_FNM_PATHNAME = some MRB_FNM_NOMATCH :=
  ⟨unterminated_bracket_no_match 0 [] "abc".toList "a".toList (by decide) (by decide)
    (by decide),
   unterminated_bracket_no_match MRB_FNM_PATHNAME "x/".toList "a".toList "x/a".toList
    (by decide) (by decide) (by decide)⟩

/-! ## Brace expansion: C2 -/

theorem scan_step_inl {flags : Nat} {p p' : List Char} {lb lb' : Option (List Char)}
    {nest nest' : Int} (h : scan_step flags (p, lb, nest) = Sum.inl (p', lb', nest')) :
    p'.length < p.length := by
  simp only [scan_step] at h
  split_ifs at h
  all_goals simp only [Sum.inl.injEq, Prod.mk.injEq] at h
  all_goals obtain ⟨rfl, -, -⟩ := h
  all_goals rcases p with _ | ⟨a, _ | ⟨b, t⟩⟩ <;> simp_all <;> omega

theorem scan_loop_total (flags : Nat) (p : List Char) :
    ∃ r, iterate (scan_step flags) (p.length + 1) (p, none, 0) = some r :=
  iterate_total (fun st => st.1.length) (fun _ => True)
    (fun st st' _ hs => ⟨trivial, @scan_step_inl flags st.1 st'.1 st.2.1 st'.2.1 st.2.2 st'.2.2 hs⟩)
    _ _ trivial (Nat.lt_succ_self _)

theorem scan_walk (flags : Nat) (rest : List Char) (lb : Option (List Char)) (nest : Int)
    (r : Option (List Char) × Option (List Char)) :
    ∀ (q : List Char), brace_free q →
      Reaches (scan_step flags) (rest, lb, nest) r →
      Reaches (scan_step flags) (q ++ rest, lb, nest) r := by
  intro q
  induction q with
  | nil => intro _ h; exact h
  | cons c q ih =>
    intro hq h
    obtain ⟨h1, h2, h3, h4⟩ := hq c (List.mem_cons_self c q)
    refine Reaches.next ?_ (ih (fun d hd => hq d (List.mem_cons_of_mem c hd)) h)
    simp [scan_step, h1, h2, h3, h4]

/-- The scan finds the group: `lbrace` at the first `{`, `rbrace` at the `}`
that closes it. -/
theorem scan_finds_group (flags : Nat) (pre body suf : List Char) (hpre : brace_free pre)
    (hbody : brace_free body) :
    iterate (scan_step flags) ((pre ++ '{' :: body ++ '}' :: suf).length + 1)
      (pre ++ '{' :: body ++ '}' :: suf, none, 0)
      = some (some ('{' :: body ++ '}' :: suf), some ('}' :: suf)) := by
  apply iterate_eq_of_reaches _ (scan_loop_total flags _)
  rw [List.append_assoc]
  apply scan_walk flags _ none 0 _ pre hpre
  refine reaches_next (body ++ '}' :: suf, some ('{' :: body ++ '}' :: suf), 1) ?_ ?_
  · simp [scan_step]
  · apply scan_walk flags _ _ 1 _ body hbody
    exact Reaches.done (by simp [scan_step])

theorem alt_step_inl {flags : Nat} {rb p p' : List Char} {n n' : Int}
    (h : alt_step flags rb (p, n) = Sum.inl (p', n')) : p' <:+ p ∧ p'.length < p.length := by
  simp only [alt_step] at h
  split_ifs at h with h1
  all_goals simp only [Sum.inl.injEq, Prod.mk.injEq] at h
  all_goals obtain ⟨rfl, -⟩ := h
  all_goals
    refine ⟨by repeat (first | exact Next_suffix _ | apply List.IsSuffix.trans (Next_suffix _)), ?_⟩
  all_goals
    simp only [ptr_lt, Bool.and_eq_true, decide_eq_true_eq] at h1
    rcases p with _ | ⟨a, _ | ⟨b, t⟩⟩ <;> simp_all <;> omega

theorem alt_step_inr {flags : Nat} {rb p q : List Char} {n : Int}
    (h : alt_step flags rb (p, n) = Sum.inr q) : q <:+ p := by
  simp only [alt_step] at h
  split_ifs at h
  all_goals simp only [Sum.inr.injEq] at h
  all_goals subst h
  · exact Next_suffix p
  · exact List.suffix_refl p

theorem alt_loop_suffix {flags : Nat} {rb q : List Char} {st : List Char × Int}
    (h : Reaches (alt_step flags rb) st q) : q <:+ st.1 := by
  induction h with
  | @done st r hs =>
    obtain ⟨p, n⟩ := st
    exact alt_step_inr hs
  | @next st st' r hs _ ih =>
    obtain ⟨p, n⟩ := st
    obtain ⟨p', n'⟩ := st'
    exact ih.trans (alt_step_inl hs).1

theorem alt_loop_total (flags : Nat) (rb t : List Char) :
    ∃ q, iterate (alt_step flags rb) (t.length + 1) (t, 0) = some q :=
  iterate_total (fun st => st.1.length) (fun _ => True)
    (fun st st' _ hs => ⟨trivial, (@alt_step_inl flags rb st.1 st'.1 st.2 st'.2 hs).2⟩)
    _ _ trivial (Nat.lt_succ_self _)

/-- The inner loop runs over the text of an alternative and stops on the byte
`T` after it, which is a comma or the closing brace. -/
theorem alt_walk (flags : Nat) (rb T : List Char) (hT : rb.length ≤ T.length)
    (hstop : T = rb ∨ deref T = ',') :
    ∀ (a : List Char), alt_text a → Reaches (alt_step flags rb) (a ++ T, 0) T := by
  intro a
  induction a with
  | nil =>
    intro _
    refine Reaches.done ?_
    rcases hstop with rfl | h
    · simp [alt_step, ptr_lt]
    · simp [alt_step, h]
  | cons c a ih =>
    intro ha
    obtain ⟨h1, h2, h3, h4, h5⟩ := ha c (List.mem_cons_self c a)
    refine Reaches.next ?_ (ih (fun d hd => ha d (List.mem_cons_of_mem c hd)))
    have : rb.length < a.length + T.length + 1 := by omega
    simp [alt_step, ptr_lt, this, h1, h2, h3, h4]

theorem strlcpy_copy_fits :
    ∀ (src : List Char) (n : Nat), nul_free src → src.length + 1 ≤ n →
      ((strlcpy_copy n src).2.2 = 0 ∧ (strlcpy_copy n src).1 = src) ∨
      ((strlcpy_copy n src).2.2 ≠ 0 ∧ (strlcpy_copy n src).1 = src ++ ['\x00']) := by
  intro src
  induction src with
  | nil =>
    intro n _ hn
    obtain ⟨m, rfl⟩ : ∃ m, n = m + 1 := ⟨n - 1, by omega⟩
    by_cases hm : m = 0
    · subst hm
      exact Or.inl ⟨rfl, rfl⟩
    · right
      simp [strlcpy_copy, hm]
  | cons c t ih =>
    intro n hs hn
    obtain ⟨m, rfl⟩ : ∃ m, n = m + 1 := ⟨n - 1, by omega⟩
    obtain ⟨hc, ht⟩ := nul_free_cons hs
    have hm : m ≠ 0 := by
      simp only [List.length_cons] at hn
      omega
    have e : strlcpy_copy (m + 1) (c :: t) =
        (c :: (strlcpy_copy m t).1, (strlcpy_copy m t).2.1 + 1, (strlcpy_copy m t).2.2) := by
      simp [strlcpy_copy, hm, hc]
    rw [e]
    rcases ih m ht (by simp only [List.length_cons] at hn; omega) with ⟨h1, h2⟩ | ⟨h1, h2⟩
    · exact Or.inl ⟨h1, by simp [h2]⟩
    · exact Or.inr ⟨h1, by simp [h2]⟩

/-- The copy is not truncated when `dsize` has room for the source and its
terminator. -/
theorem strlcpy_fits (src : List Char) (dsize : Nat) (hs : nul_free src)
    (hn : src.length + 1 ≤ dsize) : (_strlcpy_ src dsize).1 = src ++ ['\x00'] := by
  have hd : dsize ≠ 0 := by omega
  rcases strlcpy_copy_fits src dsize hs hn with ⟨h1, h2⟩ | ⟨h1, h2⟩
  · simp [_strlcpy_, hd, h1, h2]
  · simp [_strlcpy_, hd, h1, h2]

theorem cstr_append_nul (x y : List Char) (hx : nul_free x) : cstr (x ++ '\x00' :: y) = x := by
  induction x with
  | nil => simp [cstr]
  | cons c x ih =>
    obtain ⟨hc, hx'⟩ := nul_free_cons hx
    have := ih hx'
    unfold cstr at this ⊢
    simp [List.takeWhile_cons, hc, this]

theorem ex_step_inl {flags : Nat} {P path rb : List Char} {shift len : Nat}
    {p p' : List Char} {st st' : Int}
    (h : ex_step flags P path rb shift len (p, st) = Sum.inl (p', st')) :
    p'.length < p.length := by
  simp only [ex_step] at h
  split_ifs at h with h1
  simp only [ptr_lt, decide_eq_true_eq] at h1
  split at h
  · cases h
  · next q hq =>
    have hsuf := (alt_loop_suffix (reaches_of_iterate _ _ _ hq)).length_le
    simp only at hsuf
    split at h
    · cases h
    · split_ifs at h
      cases h
      rcases p with _ | ⟨c, t⟩
      · simp at h1
      · simp only [Next_cons] at hsuf
        simp only [List.length_cons]
        omega

theorem ex_loop_total (flags : Nat) (P path rb : List Char) (shift len : Nat) (lb : List Char) :
    ∃ r, iterate (ex_step flags P path rb shift len) (lb.length + 1) (lb, 0) = some r :=
  iterate_total (fun st => st.1.length) (fun _ => True)
    (fun st st' _ hs =>
      ⟨trivial, @ex_step_inl flags P path rb shift len st.1 st'.1 st.2 st'.2 hs⟩)
    _ _ trivial (Nat.lt_succ_self _)

/-- One round of the loop over the alternatives: the alternative `a` between
the cursor and the stop byte `T` is spliced between prefix and suffix, and the
rewritten pattern is handed to `mrb_file_fnmatch`. -/
theorem ex_step_alt (flags : Nat) (P path pre suf a T : List Char) (shift len : Nat)
    (c : Char) (st : Int) (hP : P.take shift = pre) (hpre : nul_free pre)
    (hsuf : nul_free suf) (ha : alt_text a) (hlen : shift + a.length + suf.length + 1 ≤ len)
    (hT : ('}' :: suf).length ≤ T.length) (hstop : T = '}' :: suf ∨ deref T = ',') :
    ex_step flags P path ('}' :: suf) shift len (c :: a ++ T, st) =
      match mrb_file_fnmatch (pre ++ a ++ suf) path flags with
      | none => Sum.inr none
      | some r => if r == 0 then Sum.inr (some 1) else Sum.inl (T, 0) := by
  have h1 : ptr_lt (c :: a ++ T) ('}' :: suf) = true := by
    simp only [ptr_lt, decide_eq_true_eq, List.cons_append, List.length_cons,
      List.length_append] at hT ⊢
    omega
  have h2 : iterate (alt_step flags ('}' :: suf)) ((a ++ T).length + 1) (a ++ T, 0) = some T :=
    iterate_eq_of_reaches (alt_walk flags _ T hT hstop a ha) (alt_loop_total flags _ _)
  have h3 : ptr_diff T (a ++ T) = a.length := by simp [ptr_diff]
  have h4 : size_sub len (shift + a.length) = len - (shift + a.length) := by
    unfold size_sub
    rw [if_pos (by omega)]
  have h5 : (_strlcpy_ suf (len - (shift + a.length))).1 = suf ++ ['\x00'] :=
    strlcpy_fits suf _ hsuf (by omega)
  have h6 : nul_free (pre ++ a ++ suf) := by
    intro h
    simp only [List.mem_append] at h
    rcases h with (h | h) | h
    · exact hpre h
    · exact (ha _ h).2.2.2.2 rfl
    · exact hsuf h
  have h7 : cstr (pre ++ a ++ (suf ++ ['\x00'])) = pre ++ a ++ suf := by
    have := cstr_append_nul (pre ++ a ++ suf) [] h6
    simpa using this
  simp only [ex_step, List.cons_append, Next_cons, h2, h3, hP, h4, h5,
    List.take_left', h7]
  rw [← List.cons_append, h1]
  simp only [if_true, List.append_assoc, beq_iff_eq]

/-- The loop over the alternatives of a flat group returns `1` when one of the
rewritten patterns matches and `0` when none does. -/
theorem ex_loop_alternatives (flags : Nat) (P path pre suf : List Char) (shift len : Nat)
    (hP : P.take shift = pre) (hpre : nul_free pre) (hsuf : nul_free suf) :
    ∀ (rest : List (List Char)) (a : List Char) (c : Char),
      (∀ x ∈ a :: rest, alt_text x ∧ shift + x.length + suf.length + 1 ≤ len) →
      Reaches (ex_step flags P path ('}' :: suf) shift len)
        (c :: brace_body (a :: rest) ++ '}' :: suf, 0)
        (some (if ∃ x ∈ a :: rest, mrb_file_fnmatch (pre ++ x ++ suf) path flags = some 0
          then 1 else 0)) := by
  intro rest
  induction rest with
  | nil =>
    intro a c h
    obtain ⟨ha, hlen⟩ := h a (List.mem_cons_self a [])
    have hstep := ex_step_alt flags P path pre suf a ('}' :: suf) shift len c 0 hP hpre hsuf
      ha hlen (le_refl _) (Or.inl rfl)
    simp only [brace_body, List.cons_append] at hstep ⊢
    rcases mrb_file_fnmatch_total (pre ++ a ++ suf) path flags with h0 | h1
    · rw [h0] at hstep
      rw [if_pos ⟨a, List.mem_cons_self a [], h0⟩]
      exact Reaches.done hstep
    · rw [h1] at hstep
      rw [if_neg]
      · refine Reaches.next hstep (Reaches.done ?_)
        simp [ex_step, ptr_lt]
      · rintro ⟨x, hx, hx0⟩
        simp only [List.mem_singleton] at hx
        subst hx
        rw [h1] at hx0
        cases hx0
  | cons b rest' ih =>
    intro a c h
    obtain ⟨ha, hlen⟩ := h a (List.mem_cons_self a _)
    have hT1 : brace_body (a :: b :: rest') ++ '}' :: suf
        = a ++ (',' :: brace_body (b :: rest') ++ '}' :: suf) := by
      simp [brace_body]
    have hstep := ex_step_alt flags P path pre suf a
      (',' :: brace_body (b :: rest') ++ '}' :: suf) shift len c 0 hP hpre hsuf ha hlen
      (by simp only [List.cons_append, List.length_cons, List.length_append]; omega)
      (Or.inr rfl)
    rw [List.cons_append, hT1]
    simp only [List.cons_append] at hstep
    rcases mrb_file_fnmatch_total (pre ++ a ++ suf) path flags with h0 | h1
    · rw [h0] at hstep
      rw [if_pos ⟨a, List.mem_cons_self a _, h0⟩]
      exact Reaches.done hstep
    · rw [h1] at hstep
      have hrec := ih b ',' (fun x hx => h x (List.mem_cons_of_mem a hx))
      have e : (∃ x ∈ a :: b :: rest', mrb_file_fnmatch (pre ++ x ++ suf) path flags = some 0) ↔
          (∃ x ∈ b :: rest', mrb_file_fnmatch (pre ++ x ++ suf) path flags = some 0) := by
        constructor
        · rintro ⟨x, hx, hx0⟩
          rcases List.mem_cons.mp hx with rfl | hx'
          · rw [h1] at hx0
            cases hx0
          · exact ⟨x, hx', hx0⟩
        · rintro ⟨x, hx, hx0⟩
          exact ⟨x, List.mem_cons_of_mem a hx, hx0⟩
      simp only [e]
      exact Reaches.next hstep hrec

theorem strlen_nul_free {p : List Char} (hp : nul_free p) : strlen p = p.length := by
  unfold strlen
  rw [List.takeWhile_eq_self_iff.mpr]
  intro c hc
  simp only [bne_iff_ne, ne_eq]
  rintro rfl
  exact hp hc

theorem mem_brace_body {c : Char} :
    ∀ (alts : List (List Char)), c ∈ brace_body alts → c = ',' ∨ ∃ a ∈ alts, c ∈ a
  | [], h => by simp [brace_body] at h
  | [a], h => Or.inr ⟨a, by simp, by simpa [brace_body] using h⟩
  | a :: b :: rest, h => by
    simp only [brace_body, List.mem_append, List.mem_cons] at h
    rcases h with h | h | h
    · exact Or.inr ⟨a, by simp, h⟩
    · exact Or.inl h
    · rcases mem_brace_body (b :: rest) h with h' | ⟨x, hx, hcx⟩
      · exact Or.inl h'
      · exact Or.inr ⟨x, List.mem_cons_of_mem a hx, hcx⟩

theorem length_le_brace_body {x : List Char} :
    ∀ (alts : List (List Char)), x ∈ alts → x.length ≤ (brace_body alts).length
  | [], h => by simp at h
  | [a], h => by
    simp only [List.mem_singleton] at h
    subst h
    simp [brace_body]
  | a :: b :: rest, h => by
    simp only [brace_body, List.length_append, List.length_cons]
    rcases List.mem_cons.mp h with rfl | h'
    · omega
    · have := length_le_brace_body (b :: rest) h'
      omega

/-- C2: for a prefix `pre` without `{`, `}` and backslash, a non-empty list of
alternatives without `{`, `}`, `,` and backslash, any suffix `suf` and any
candidate, `mrb_file_fnmatch_ex` on `pre{a1,...,an}suf` returns `1` when
`mrb_file_fnmatch` matches `pre ai suf` for at least one `i`, and `0`
otherwise (the buffer allocation succeeding).  This holds for every flag
set. -/
theorem brace_expansion_disjunction (flags : Nat) (pre suf path : List Char)
    (alts : List (List Char)) (halts : alts ≠ []) (hpre : brace_free pre)
    (halt : ∀ a ∈ alts, alt_text a) (hsuf : nul_free suf) :
    mrb_file_fnmatch_ex (fun _ => true) (pre ++ '{' :: brace_body alts ++ '}' :: suf)
      path flags =
      some (if ∃ a ∈ alts, mrb_file_fnmatch (pre ++ a ++ suf) path flags = some 0
        then 1 else 0) := by
  have hbody : brace_free (brace_body alts) := by
    intro c hc
    rcases mem_brace_body _ hc with rfl | ⟨a, ha, hca⟩
    · decide
    · obtain ⟨h1, h2, -, h4, h5⟩ := halt a ha c hca
      exact ⟨h1, h2, h4, h5⟩
  have hpre0 : nul_free pre := fun h => (hpre _ h).2.2.2 rfl
  have hP0 : nul_free (pre ++ '{' :: brace_body alts ++ '}' :: suf) := by
    intro h
    simp only [List.mem_append, List.mem_cons] at h
    rcases h with (h | h | h) | h | h
    · exact hpre0 h
    · cases h
    · exact (hbody _ h).2.2.2 rfl
    · cases h
    · exact hsuf h
  obtain ⟨a, rest, rfl⟩ : ∃ a rest, alts = a :: rest := by
    rcases alts with _ | ⟨a, rest⟩
    · exact absurd rfl halts
    · exact ⟨a, rest, rfl⟩
  have hshift : ptr_diff ('{' :: brace_body (a :: rest) ++ '}' :: suf)
      (pre ++ '{' :: brace_body (a :: rest) ++ '}' :: suf) = pre.length := by
    simp [ptr_diff]
  have hloop := ex_loop_alternatives flags (pre ++ '{' :: brace_body (a :: rest) ++ '}' :: suf)
    path pre suf pre.length
    ((pre ++ '{' :: brace_body (a :: rest) ++ '}' :: suf).length + 1)
    (by simp) hpre0 hsuf rest a '{'
    (by
      intro x hx
      refine ⟨halt x hx, ?_⟩
      have := length_le_brace_body _ hx
      simp only [List.length_append, List.length_cons]
      omega)
  have hiter := iterate_eq_of_reaches hloop (ex_loop_total flags _ path ('}' :: suf) _ _ _)
  unfold mrb_file_fnmatch_ex
  simp only [scan_finds_group flags pre (brace_body (a :: rest)) suf hpre hbody,
    strlen_nul_free hP0, hshift, Bool.not_true, Bool.false_eq_true, if_false, hiter]
  rfl

/-- C2 at concrete inputs: `{cat,dog}.txt` matches `dog.txt`, `{a,ab}c`
matches `abc` through its second alternative, and `{a,ab}c` does not match
`abd`. -/
theorem brace_expansion_disjunction_witness :
    mrb_file_fnmatch_ex (fun _ => true) "{cat,dog}.txt".toList "dog.txt".toList
      MRB_FNM_EXTGLOB = some 1 ∧
    mrb_file_fnmatch_ex (fun _ => true) "{a,ab}c".toList "abc".toList MRB_FNM_EXTGLOB = some 1 ∧
    mrb_file_fnmatch "ac".toList "abc".toList MRB_FNM_EXTGLOB = some MRB_FNM_NOMATCH ∧
    mrb_file_fnmatch_ex (fun _ => true) "{a,ab}c".toList "abd".toList MRB_FNM_EXTGLOB = some 0 :=
  ⟨brace_expansion_disjunction MRB_FNM_EXTGLOB [] ".txt".toList "dog.txt".toList
      ["cat".toList, "dog".toList] (by decide) (by decide) (by decide) (by decide),
   brace_expansion_disjunction MRB_FNM_EXTGLOB [] "c".toList "abc".toList
      ["a".toList, "ab".toList] (by decide) (by decide) (by decide) (by decide),
   by decide,
   brace_expansion_disjunction MRB_FNM_EXTGLOB [] "c".toList "abd".toList
      ["a".toList, "ab".toList] (by decide) (by decide) (by decide) (by decide)⟩

/-! ## The recursive wildcard `**/`: C4 -/

theorem bracket_step_ptr {flags : Nat} {s1 s2 : List Char} {n1 n2 : Bool} {p p1 p2 : List Char}
    {ok1 ok2 o1 o2 : Bool}
    (h1 : bracket_step flags s1 n1 (p, ok1) = Sum.inl (p1, o1))
    (h2 : bracket_step flags s2 n2 (p, ok2) = Sum.inl (p2, o2)) : p1 = p2 := by
  simp only [bracket_step] at h1 h2
  split_ifs at h1 h2 <;> simp_all

theorem bracket_step_close {flags : Nat} {s : List Char} {nope : Bool} {p : List Char} {ok : Bool}
    (h : deref p = ']') :
    bracket_step flags s nope (p, ok) = Sum.inr (if ok == nope then none else some (Next p)) := by
  simp [bracket_step, h]

theorem bracket_step_inl_open {flags : Nat} {s : List Char} {nope : Bool} {p p' : List Char}
    {ok ok' : Bool} (h : bracket_step flags s nope (p, ok) = Sum.inl (p', ok')) :
    deref p ≠ ']' := by
  intro hc
  rw [bracket_step_close hc] at h
  cases h

/-- The pointer that the loop of `bracket` returns does not depend on the
candidate byte or on the negation flag. -/
theorem bracket_loop_ptr {flags : Nat} {s1 s2 : List Char} {n1 n2 : Bool}
    {st1 : List Char × Bool} {t1 : List Char}
    (h1 : Reaches (bracket_step flags s1 n1) st1 (some t1)) :
    ∀ {st2 : List Char × Bool} {t2 : List Char}, st2.1 = st1.1 →
      Reaches (bracket_step flags s2 n2) st2 (some t2) → t1 = t2 := by
  generalize hr : some t1 = r at h1
  induction h1 with
  | @done st r hs =>
    subst hr
    intro st2 t2 he h2
    obtain ⟨p, ok⟩ := st
    obtain ⟨p2, ok2⟩ := st2
    simp only at he
    subst he
    obtain ⟨hc, rfl, -⟩ := bracket_step_inr hs
    cases h2 with
    | done hs2 => exact ((bracket_step_inr hs2).2.1).symm
    | next hs2 _ => exact absurd hc (bracket_step_inl_open hs2)
  | @next st st' r hs _ ih =>
    subst hr
    intro st2 t2 he h2
    obtain ⟨p, ok⟩ := st
    obtain ⟨p', ok'⟩ := st'
    obtain ⟨p2, ok2⟩ := st2
    simp only at he
    subst he
    cases h2 with
    | done hs2 => exact absurd (bracket_step_inr hs2).1 (bracket_step_inl_open hs)
    | @next _ st2' _ hs2 hr2 =>
      obtain ⟨p2', ok2'⟩ := st2'
      exact ih rfl (bracket_step_ptr hs2 hs) hr2

theorem bracket_ptr {flags : Nat} {p s1 s2 t1 t2 : List Char}
    (h1 : bracket flags p s1 = some (some t1)) (h2 : bracket flags p s2 = some (some t2)) :
    t1 = t2 :=
  bracket_loop_ptr (reaches_of_iterate _ _ _ h1) rfl (reaches_of_iterate _ _ _ h2)

theorem PEnd.det {flags : Nat} {p e1 e2 : List Char} (h1 : PEnd flags p e1)
    (h2 : PEnd flags p e2) : e1 = e2 := by
  induction h1 with
  | star_end a1 a2 =>
    cases h2 with
    | star_end b1 b2 => rfl
    | star_go b1 b2 b3 => rw [a2] at b2; cases b2
    | quest b1 b3 => rw [a1] at b1; cases b1
    | brack b1 b2 b3 => rw [a1] at b1; cases b1
    | ord_end b1 b2 => exact absurd a1 b1.1
    | ord_go b1 b2 b3 => exact absurd a1 b1.1
  | star_go a1 a2 a3 ih =>
    cases h2 with
    | star_end b1 b2 => rw [a2] at b2; cases b2
    | star_go b1 b2 b3 => exact ih b3
    | quest b1 b3 => rw [a1] at b1; cases b1
    | brack b1 b2 b3 => rw [a1] at b1; cases b1
    | ord_end b1 b2 => exact absurd a1 b1.1
    | ord_go b1 b2 b3 => exact absurd a1 b1.1
  | quest a1 a3 ih =>
    cases h2 with
    | star_end b1 b2 => rw [a1] at b1; cases b1
    | star_go b1 b2 b3 => rw [a1] at b1; cases b1
    | quest b1 b3 => exact ih b3
    | brack b1 b2 b3 => rw [a1] at b1; cases b1
    | ord_end b1 b2 => exact absurd a1 b1.2.1
    | ord_go b1 b2 b3 => exact absurd a1 b1.2.1
  | brack a1 a2 a3 ih =>
    cases h2 with
    | star_end b1 b2 => rw [a1] at b1; cases b1
    | star_go b1 b2 b3 => rw [a1] at b1; cases b1
    | quest b1 b3 => rw [a1] at b1; cases b1
    | brack b1 b2 b3 =>
      obtain ⟨s1, hs1⟩ := a2
      obtain ⟨s2, hs2⟩ := b2
      have := bracket_ptr hs1 hs2
      subst this
      exact ih b3
    | ord_end b1 b2 => exact absurd a1 b1.2.2
    | ord_go b1 b2 b3 => exact absurd a1 b1.2.2
  | ord_end a1 a2 =>
    cases h2 with
    | star_end b1 b2 => exact absurd b1 a1.1
    | star_go b1 b2 b3 => exact absurd b1 a1.1
    | quest b1 b3 => exact absurd b1 a1.2.1
    | brack b1 b2 b3 => exact absurd b1 a1.2.2
    | ord_end b1 b2 => rfl
    | ord_go b1 b2 b3 => rw [a2] at b2; cases b2
  | ord_go a1 a2 a3 ih =>
    cases h2 with
    | star_end b1 b2 => exact absurd b1 a1.1
    | star_go b1 b2 b3 => exact absurd b1 a1.1
    | quest b1 b3 => exact absurd b1 a1.2.1
    | brack b1 b2 b3 => exact absurd b1 a1.2.2
    | ord_end b1 b2 => rw [a2] at b2; cases b2
    | ord_go b1 b2 b3 => exact ih b3

theorem helper_failed_inl_eq {p s : List Char} {ptmp stmp : Option (List Char)}
    {st' : List Char × List Char × Option (List Char) × Option (List Char)}
    (h : helper_failed p s ptmp stmp = Sum.inl st') :
    ∃ pt sx, ptmp = some pt ∧ stmp = some sx ∧ st' = (pt, Next sx, some pt, some (Next sx)) := by
  unfold helper_failed at h
  split at h
  · next pt sx =>
    cases h
    exact ⟨pt, sx, rfl, rfl, rfl⟩
  · cases h

theorem helper_failed_inr_eq {p s : List Char} {ptmp stmp : Option (List Char)}
    {r : Option (Int × List Char × List Char)}
    (h : helper_failed p s ptmp stmp = Sum.inr r) : r = some (MRB_FNM_NOMATCH, p, s) := by
  unfold helper_failed at h
  split at h
  · cases h
  · cases h
    rfl

/-- When the loop of `fnmatch_helper` leaves with a match, the pattern cursor
it stores is the segment end of the current pattern cursor or of the saved
one. -/
theorem helper_loop_pend {flags : Nat}
    {st : List Char × List Char × Option (List Char) × Option (List Char)}
    {r : Option (Int × List Char × List Char)} (h : Reaches (helper_step flags) st r) :
    ∀ {p' s' : List Char}, r = some (0, p', s') →
      PEnd flags st.1 p' ∨ ∃ pt, st.2.2.1 = some pt ∧ PEnd flags pt p' := by
  induction h with
  | @done st r hs =>
    intro p' s' hr
    subst hr
    obtain ⟨p, s, ptmp, stmp⟩ := st
    left
    simp only [helper_step] at hs
    split_ifs at hs with h1 h2 h3 h4 h5 h6 h7 h8 h9 h10
    · simp only [Sum.inr.injEq, Option.some.injEq, Prod.mk.injEq, true_and] at hs
      obtain ⟨rfl, -⟩ := hs
      exact PEnd.star_end (beq_iff_eq.mp h1) h2
    · cases hs
    · cases hs
    · cases hs
    · split at hs
      · cases hs
      · cases hs
      · cases helper_failed_inr_eq hs
    · simp only [Sum.inr.injEq, Option.some.injEq, Prod.mk.injEq, true_and] at hs
      obtain ⟨rfl, -⟩ := hs
      exact PEnd.ord_end ⟨by simpa using h1, by simpa using h4, by simpa using h6⟩ h9
    · cases hs
    · cases helper_failed_inr_eq hs
    · cases helper_failed_inr_eq hs
  | @next st st2 r hs _ ih =>
    intro p' s' hr
    obtain ⟨p, s, ptmp, stmp⟩ := st
    have ih' := ih hr
    simp only [helper_step] at hs
    split_ifs at hs with h1 h2 h3 h4 h5 h6 h7 h8 h9 h10
    · cases hs
      left
      refine PEnd.star_go (beq_iff_eq.mp h1) (by simpa using h2) ?_
      rcases ih' with h | ⟨pt, hpt, h⟩
      · exact h
      · cases hpt
        exact h
    · cases hs
      rcases ih' with h | ⟨pt, hpt, h⟩
      · exact Or.inl (PEnd.quest (beq_iff_eq.mp h4) h)
      · exact Or.inr ⟨pt, hpt, h⟩
    · split at hs
      · cases hs
      · next t hb =>
        cases hs
        rcases ih' with h | ⟨pt, hpt, h⟩
        · exact Or.inl (PEnd.brack (beq_iff_eq.mp h6) ⟨s, hb⟩ h)
        · exact Or.inr ⟨pt, hpt, h⟩
      · obtain ⟨pt, sx, rfl, rfl, rfl⟩ := helper_failed_inl_eq hs
        rcases ih' with h | ⟨pt', hpt, h⟩
        · exact Or.inr ⟨pt, rfl, h⟩
        · exact Or.inr ⟨pt', hpt, h⟩
    · obtain ⟨pt, sx, rfl, rfl, rfl⟩ := helper_failed_inl_eq hs
      rcases ih' with h | ⟨pt', hpt, h⟩
      · exact Or.inr ⟨pt, rfl, h⟩
      · exact Or.inr ⟨pt', hpt, h⟩
    · obtain ⟨pt, sx, rfl, rfl, rfl⟩ := helper_failed_inl_eq hs
      rcases ih' with h | ⟨pt', hpt, h⟩
      · exact Or.inr ⟨pt, rfl, h⟩
      · exact Or.inr ⟨pt', hpt, h⟩
    · cases hs
      rcases ih' with h | ⟨pt, hpt, h⟩
      · exact Or.inl (PEnd.ord_go ⟨by simpa using h1, by simpa using h4, by simpa using h6⟩
          (by simpa using h9) h)
      · exact Or.inr ⟨pt, hpt, h⟩

theorem fnmatch_helper_zero {flags : Nat} {p s p' s' : List Char}
    (h : fnmatch_helper flags p s = some (0, p', s')) :
    (period flags && deref s == '.' && deref (UNESCAPE flags p) != '.') = false ∧
    Reaches (helper_step flags) (p, s, none, none) (some (0, p', s')) := by
  unfold fnmatch_helper at h
  split_ifs at h with hd
  · cases h
  · refine ⟨by simpa using hd, ?_⟩
    obtain ⟨r, hr⟩ := helper_loop_total flags p s
    rw [hr] at h
    have : r = some (0, p', s') := by
      rcases r with _ | r
      · cases h
      · simpa using h
    subst this
    exact reaches_of_iterate _ _ _ hr

/-- After a matched segment the pattern cursor stands at a place that depends
on the pattern only. -/
theorem fnmatch_helper_ptr {flags : Nat} {p s1 s2 p1 p2 s1' s2' : List Char}
    (h1 : fnmatch_helper flags p s1 = some (0, p1, s1'))
    (h2 : fnmatch_helper flags p s2 = some (0, p2, s2')) : p1 = p2 := by
  have e1 := helper_loop_pend (fnmatch_helper_zero h1).2 rfl
  have e2 := helper_loop_pend (fnmatch_helper_zero h2).2 rfl
  simp only [reduceCtorEq, false_and, exists_false, or_false] at e1 e2
  exact e1.det e2

theorem reaches_iff_from {σ ρ : Type} (step : σ → σ ⊕ ρ) (st : σ) (r : ρ) :
    Reaches step st r ↔ ReachesFrom step (step st) r := by
  constructor
  · intro h
    cases h with
    | done hs => rw [hs]; rfl
    | next hs hr => rw [hs]; exact hr
  · intro h
    cases hs : step st with
    | inl st' => rw [hs] at h; exact Reaches.next hs h
    | inr r' =>
      rw [hs] at h
      have : r = r' := h
      subst this
      exact Reaches.done hs

theorem straight_total (flags : Nat) :
    ∀ (n : Nat) (p s : List Char), p.length ≤ n → ∃ o, Straight flags p s o := by
  intro n
  induction n with
  | zero =>
    intro p s hlen
    have : p = [] := List.length_eq_zero.mp (Nat.le_zero.mp hlen)
    subst this
    obtain ⟨v, p', s', hh, hp', -, -, -⟩ := fnmatch_helper_post flags [] s
    have hp'0 : p' = [] := List.eq_nil_of_suffix_nil hp'
    subst hp'0
    by_cases hv : v = 0
    · subst hv
      by_cases h2 : deref (skip_segment s') = '\x00'
      · exact ⟨_, Straight.matched rfl hh rfl h2⟩
      · exact ⟨_, Straight.failed rfl hh (Or.inr (Or.inl ⟨rfl, h2⟩))⟩
    · exact ⟨_, Straight.failed rfl hh (Or.inl hv)⟩
  | succ n ih =>
    intro p s hlen
    by_cases hrec : is_recursive p = true
    · exact ⟨_, Straight.jump hrec⟩
    · have hrec' : is_recursive p = false := by simpa using hrec
      obtain ⟨v, p', s', hh, hp', -, -, -⟩ := fnmatch_helper_post flags p s
      by_cases hv : v = 0
      · subst hv
        by_cases h1 : deref p' = '\x00'
        · by_cases h2 : deref (skip_segment s') = '\x00'
          · exact ⟨_, Straight.matched hrec' hh h1 h2⟩
          · exact ⟨_, Straight.failed hrec' hh (Or.inr (Or.inl ⟨h1, h2⟩))⟩
        · by_cases h2 : deref (skip_segment s') = '\x00'
          · exact ⟨_, Straight.failed hrec' hh (Or.inr (Or.inr ⟨h1, h2⟩))⟩
          · have hl := deref_ne_length (s := p') rfl h1
            have := hp'.length_le
            obtain ⟨o, ho⟩ := ih (Next p') (Next (skip_segment s')) (by omega)
            exact ⟨o, Straight.adv hrec' hh h1 h2 ho⟩
      · exact ⟨_, Straight.failed hrec' hh (Or.inl hv)⟩

/-- The loop of `mrb_file_fnmatch`, started with any checkpoint, follows the
straight run: it returns `0` when the run matches, takes the failure path with
its checkpoint when the run fails, and arrives at the next recursive wildcard
with its checkpoint untouched otherwise. -/
theorem straight_reaches {flags : Nat} {p s : List Char} {o : SOut}
    (h : Straight flags p s o) (pt st : Option (List Char)) (r : Option Int) :
    Reaches (path_step flags) (p, s, pt, st) r ↔ StraightPost flags pt st r o := by
  induction h with
  | jump h => exact Iff.rfl
  | @matched p s p' s' h hh h1 h2 =>
    rw [reaches_iff_from]
    have : path_step flags (p, s, pt, st) = Sum.inr (some 0) := by
      simp [path_step, h, hh, h1, h2]
    rw [this]
    exact Iff.rfl
  | @failed p s p' s' v h hh hf =>
    rw [reaches_iff_from]
    have : path_step flags (p, s, pt, st) = path_failed flags pt st := by
      rcases hf with hv | ⟨h1, h2⟩ | ⟨h1, h2⟩
      · simp [path_step, h, hh, hv]
      · simp [path_step, h, hh, h1, h2]
      · simp [path_step, h, hh, h1, h2]
    rw [this]
    exact Iff.rfl
  | @adv p s p' s' o h hh h1 h2 hr ih =>
    rw [reaches_iff_from]
    have : path_step flags (p, s, pt, st)
        = Sum.inl (Next p', Next (skip_segment s'), pt, st) := by
      simp [path_step, h, hh, h1, h2]
    rw [this]
    exact ih

theorem skip_recursive_not_recursive : ∀ p : List Char, is_recursive (skip_recursive p) = false
  | [] => by simp [skip_recursive, is_recursive]
  | [_] => by simp [skip_recursive, is_recursive]
  | [_, _] => by simp [skip_recursive, is_recursive]
  | a :: b :: c :: rest => by
    unfold skip_recursive
    split_ifs with h
    · exact skip_recursive_not_recursive rest
    · simp only [is_recursive, deref_cons, Next_cons]
      simpa using h

theorem skip_recursive_length_lt {p : List Char} (h : is_recursive p = true) :
    (skip_recursive p).length < p.length := by
  rcases p with _ | ⟨a, _ | ⟨b, _ | ⟨c, rest⟩⟩⟩
  · simp [is_recursive] at h
  · simp [is_recursive] at h
  · simp [is_recursive] at h
  · simp only [is_recursive, deref_cons, Next_cons] at h
    unfold skip_recursive
    rw [if_pos h]
    have := (skip_recursive_suffix rest).length_le
    simp only [List.length_cons]
    omega

theorem skip_recursive_of_not {p : List Char} (h : is_recursive p = false) :
    skip_recursive p = p := by
  rcases p with _ | ⟨a, _ | ⟨b, _ | ⟨c, rest⟩⟩⟩
  · rfl
  · rfl
  · rfl
  · simp only [is_recursive, deref_cons, Next_cons] at h
    unfold skip_recursive
    rw [if_neg (by simp [h])]

/-- At a recursive wildcard the loop of `mrb_file_fnmatch` forgets its
checkpoint and sets a new one behind the wildcard. -/
theorem path_step_recursive {flags : Nat} {p : List Char} (h : is_recursive p = true)
    (s : List Char) (pt st : Option (List Char)) :
    path_step flags (p, s, pt, st) =
      path_step flags (skip_recursive p, s, some (skip_recursive p), some s) := by
  simp [path_step, h, skip_recursive_not_recursive]

theorem reaches_recursive {flags : Nat} {p : List Char} (h : is_recursive p = true)
    (s : List Char) (pt st : Option (List Char)) (r : Option Int) :
    Reaches (path_step flags) (p, s, pt, st) r ↔
      Reaches (path_step flags) (skip_recursive p, s, some (skip_recursive p), some s) r := by
  rw [reaches_iff_from, reaches_iff_from (path_step flags) (skip_recursive p, _, _, _),
    path_step_recursive h]

theorem Skippable.comp {flags : Nat} {x y z : List Char} (h1 : Skippable flags x y)
    (h2 : Skippable flags y z) : Skippable flags x z := by
  induction h1 with
  | refl => exact h2
  | cons hc1 hc2 hc3 _ ih => exact Skippable.cons hc1 hc2 hc3 (ih h2)

theorem Skippable.nul_free_left {flags : Nat} {x y : List Char} (h : Skippable flags x y)
    (hy : nul_free y) : nul_free x := by
  induction h with
  | refl => exact hy
  | cons hc1 hc2 hc3 _ ih =>
    intro hm
    simp only [List.mem_append, List.mem_cons] at hm
    rcases hm with hm | hm | hm
    · exact hc2 hm
    · cases hm
    · exact ih hy hm

theorem skip_segment_append {c x : List Char} (hc1 : '/' ∉ c) (hc2 : nul_free c) :
    skip_segment (c ++ '/' :: x) = '/' :: x := by
  induction c with
  | nil => simp [skip_segment]
  | cons a c ih =>
    obtain ⟨ha0, hc0⟩ := nul_free_cons hc2
    simp only [List.mem_cons, not_or] at hc1
    have ih' := ih hc1.2 hc0
    unfold skip_segment at ih' ⊢
    rw [List.cons_append, List.dropWhile_cons, if_pos, ih']
    simp [ha0, Ne.symm hc1.1]

/-- A candidate cursor that `skip_segment` leaves before the terminator stands
in front of a `/`. -/
theorem split_segment {y : List Char} (hy : nul_free y)
    (h : deref (skip_segment y) ≠ '\x00') :
    ∃ c y2, y = c ++ '/' :: y2 ∧ '/' ∉ c ∧ nul_free c ∧ skip_segment y = '/' :: y2 := by
  induction y with
  | nil => simp [skip_segment] at h
  | cons a y ih =>
    obtain ⟨ha0, hy0⟩ := nul_free_cons hy
    by_cases ha : a = '/'
    · subst ha
      exact ⟨[], y, rfl, by simp, by simp [nul_free], by simp [skip_segment]⟩
    · have e : skip_segment (a :: y) = skip_segment y := by
        unfold skip_segment
        rw [List.dropWhile_cons, if_pos]
        simp [ha0, ha]
      rw [e] at h
      obtain ⟨c, y2, h1, h2, h3, h4⟩ := ih hy0 h
      refine ⟨a :: c, y2, by simp [h1], ?_, ?_, by rw [e, h4]⟩
      · simp [h2, Ne.symm ha]
      · intro hm
        simp only [List.mem_cons] at hm
        rcases hm with hm | hm
        · exact ha0 hm.symm
        · exact h3 hm

theorem helper_step_dot {flags : Nat} {p : List Char} (hp : deref (UNESCAPE flags p) = '.')
    (s : List Char) :
    helper_step flags (p, s, none, none) =
      if ISEND flags s then Sum.inr (some (MRB_FNM_NOMATCH, UNESCAPE flags p, s))
      else if Compare flags (UNESCAPE flags p) s != 0 then
        Sum.inr (some (MRB_FNM_NOMATCH, UNESCAPE flags p, s))
      else Sum.inl (Next (UNESCAPE flags p), Next s, none, none) := by
  have hspecial : deref p ≠ '*' ∧ deref p ≠ '?' ∧ deref p ≠ '[' := by
    unfold UNESCAPE at hp
    split_ifs at hp with h
    · simp only [Bool.and_eq_true, beq_iff_eq] at h
      rw [h.2]
      decide
    · rw [hp]
      decide
  have hend : ISEND flags (UNESCAPE flags p) = false := by
    simp [ISEND, hp]
  simp [helper_step, hspecial, hend, helper_failed]

/-- Two candidates whose first segments are matched by the same pattern
segment agree on beginning with `.` when the leading-dot rule is on. -/
theorem helper_dot {flags : Nat} {p s1 s2 p1 p2 s1' s2' : List Char}
    (hper : period flags = true)
    (h1 : fnmatch_helper flags p s1 = some (0, p1, s1'))
    (h2 : fnmatch_helper flags p s2 = some (0, p2, s2'))
    (hd : deref s1 = '.') : deref s2 = '.' := by
  have hp : deref (UNESCAPE flags p) = '.' := by
    have := (fnmatch_helper_zero h1).1
    simpa [hper, hd] using this
  have hr := (fnmatch_helper_zero h2).2
  rw [reaches_iff_from, helper_step_dot hp] at hr
  split_ifs at hr with e1 e2
  · cases hr
  · cases hr
  · simp only [bne_iff_ne, ne_eq, not_not] at e2
    simp only [Compare, hp, compare_eq_zero_iff] at e2
    have : downcase flags '.' = '.' :=
      (downcase_eq_nonletter flags '.' '.' (by decide) (by decide)).mpr rfl
    rw [this, eq_comm, downcase_eq_dot] at e2
    exact e2

/-- The failure path with a checkpoint leads to a match exactly when the
checkpoint segment may be skipped, has a successor, and the next try
matches. -/
theorem path_failed_some (flags : Nat) (q y : List Char) :
    ReachesFrom (path_step flags) (path_failed flags (some q) (some y)) (some 0) ↔
      ¬ (period flags = true ∧ deref y = '.') ∧ deref (skip_segment y) ≠ '\x00' ∧
        TryMatch flags q (Next (skip_segment y)) := by
  unfold path_failed
  simp only []
  by_cases h1 : period flags = true ∧ deref y = '.'
  · simp only [h1.1, h1.2, beq_self_eq_true, Bool.and_self, Bool.not_true, Bool.false_eq_true,
      if_false, and_self, not_true_eq_false, false_and, iff_false]
    intro h
    cases h
  · have e : (!(period flags && deref y == '.')) = true := by
      rw [Bool.not_eq_true', Bool.and_eq_false_iff]
      by_cases hp : period flags = true
      · right
        simpa using fun hd => h1 ⟨hp, hd⟩
      · left
        simpa using hp
    rw [if_pos e]
    by_cases h2 : deref (skip_segment y) = '\x00'
    · simp only [h2, bne_self_eq_false, Bool.false_eq_true, if_false, ne_eq, not_true_eq_false,
        false_and, and_false, iff_false]
      intro h
      cases h
    · rw [if_pos (by simpa using h2)]
      simp only [h1, not_false_eq_true, ne_eq, h2, true_and]
      exact Iff.rfl

theorem straight_jump_rec {flags : Nat} {p s : List Char} {o : SOut}
    (h : Straight flags p s o) :
    ∀ {p2 Y : List Char}, o = SOut.jump p2 Y →
      is_recursive p2 = true ∧ p2.length ≤ p.length := by
  induction h with
  | jump h =>
    intro p2 Y e
    cases e
    exact ⟨h, le_refl _⟩
  | matched h hh h1 h2 => intro p2 Y e; cases e
  | failed h hh hf => intro p2 Y e; cases e
  | @adv p s p' s' o h hh h1 h2 hr ih =>
    intro p2 Y e
    obtain ⟨i1, i2⟩ := ih e
    obtain ⟨v, q', t', hq, hsuf, -⟩ := fnmatch_helper_post flags p s
    rw [hh] at hq
    cases hq
    have := hsuf.length_le
    have := Next_length_le p'
    exact ⟨i1, by omega⟩

/-- A try that matches does so at a candidate reached by skipping segments,
from where the straight run matches or arrives at a recursive wildcard. -/
theorem unroll_try {flags : Nat} (q : List Char) :
    ∀ (n : Nat) (y : List Char), y.length ≤ n → nul_free y → TryMatch flags q y →
      ∃ z o, Skippable flags y z ∧ nul_free z ∧ Straight flags q z o ∧ o ≠ SOut.failed ∧
        StraightPost flags (some q) (some z) (some 0) o := by
  intro n
  induction n with
  | zero =>
    intro y hlen hy ht
    obtain ⟨o, ho⟩ := straight_total flags _ q y (le_refl _)
    have hpost := (straight_reaches ho (some q) (some y) (some 0)).mp ht
    refine ⟨y, o, Skippable.refl y, hy, ho, ?_, hpost⟩
    rintro rfl
    have := (path_failed_some flags q y).mp hpost
    have hy0 : y = [] := List.length_eq_zero.mp (Nat.le_zero.mp hlen)
    subst hy0
    simp [skip_segment] at this
  | succ n ih =>
    intro y hlen hy ht
    obtain ⟨o, ho⟩ := straight_total flags _ q y (le_refl _)
    have hpost := (straight_reaches ho (some q) (some y) (some 0)).mp ht
    by_cases hf : o = SOut.failed
    · subst hf
      obtain ⟨h1, h2, h3⟩ := (path_failed_some flags q y).mp hpost
      obtain ⟨c, y2, e1, e2, e3, e4⟩ := split_segment hy h2
      rw [e4, Next_cons] at h3
      have hy2 : nul_free y2 := by
        intro hm
        apply hy
        rw [e1]
        simp [hm]
      have hlen2 : y2.length ≤ n := by
        rw [e1] at hlen
        simp only [List.length_append, List.length_cons] at hlen
        omega
      obtain ⟨z, o', i1, i2, i3, i4, i5⟩ := ih y2 hlen2 hy2 h3
      refine ⟨z, o', ?_, i2, i3, i4, i5⟩
      rw [e1]
      refine Skippable.cons e2 e3 ?_ i1
      intro hper hc
      apply h1
      refine ⟨hper, ?_⟩
      rw [e1]
      rcases c with _ | ⟨a, c⟩
      · simp at hc
      · simpa using hc
    · exact ⟨y, o, Skippable.refl y, hy, ho, hf, hpost⟩

/-- The cursor that `fnmatch_helper` leaves inside the first segment of
`c/X1` is moved by `skip_segment` to the `/` behind `c`. -/
theorem skip_first_segment {flags : Nat} (hpath : pathname flags = true)
    {c X1 sX : List Char} (hc1 : '/' ∉ c) (hc2 : nul_free c)
    (hs : SegSuffix flags sX (c ++ '/' :: X1)) : skip_segment sX = '/' :: X1 := by
  obtain ⟨a, ha, hsl⟩ := hs
  have hsl' := hsl hpath
  rcases List.append_eq_append_iff.mp ha with ⟨a', e1, e2⟩ | ⟨c', e1, e2⟩
  · -- `a = c ++ a'` and `'/' :: X1 = a' ++ sX`
    rcases a' with _ | ⟨x, a''⟩
    · simp only [List.nil_append] at e2
      rw [← e2]
      simp [skip_segment]
    · simp only [List.cons_append, List.cons.injEq] at e2
      exfalso
      apply hsl'
      rw [e1, ← e2.1]
      simp
  · -- `c = a ++ c'` and `sX = c' ++ '/' :: X1`
    rw [e2]
    apply skip_segment_append
    · intro h
      apply hc1
      rw [e1]
      simp [h]
    · intro h
      apply hc2
      rw [e1]
      simp [h]

/-- One matched segment on both sides keeps the relation `Skippable`. -/
theorem skippable_step {flags : Nat} (hpath : pathname flags = true)
    {p X z p1 p2 sX sz : List Char}
    (hX : fnmatch_helper flags p X = some (0, p1, sX))
    (hz : fnmatch_helper flags p z = some (0, p2, sz))
    (h2z : deref (skip_segment sz) ≠ '\x00')
    (hsk : Skippable flags X z) (hz0 : nul_free z) :
    Skippable flags (Next (skip_segment sX)) (Next (skip_segment sz)) := by
  cases hsk with
  | refl =>
    rw [hX] at hz
    cases hz
    exact Skippable.refl _
  | @cons c X1 _ hc1 hc2 hc3 h =>
    obtain ⟨v, q', t', hq, -, hseg, -⟩ := fnmatch_helper_post flags p (c ++ '/' :: X1)
    rw [hX] at hq
    cases hq
    rw [skip_first_segment hpath hc1 hc2 hseg, Next_cons]
    refine h.comp ?_
    -- the first segment of `z`
    obtain ⟨v, q', t', hq, -, hsegz, -⟩ := fnmatch_helper_post flags p z
    rw [hz] at hq
    cases hq
    obtain ⟨b, hb, hbs⟩ := hsegz
    have hsz0 : nul_free sz := by
      intro hm
      apply hz0
      rw [hb]
      simp [hm]
    obtain ⟨d, z2, e1, e2, e3, e4⟩ := split_segment hsz0 h2z
    rw [e4, Next_cons]
    have hzeq : z = (b ++ d) ++ '/' :: z2 := by
      rw [hb, e1]
      simp
    have hbd0 : nul_free (b ++ d) := by
      intro hm
      apply hz0
      rw [hzeq]
      simp only [List.mem_append] at hm ⊢
      exact Or.inl hm
    rw [hzeq]
    refine Skippable.cons ?_ hbd0 ?_ (Skippable.refl z2)
    · simp only [List.mem_append, not_or]
      exact ⟨hbs hpath, e2⟩
    · intro hper hdot
      have hzdot : deref z = '.' := by
        rw [hzeq]
        rcases hbd : b ++ d with _ | ⟨x, t⟩
        · rw [hbd] at hdot
          simp at hdot
        · rw [hbd] at hdot
          simpa using hdot
      have hXdot := helper_dot hper hz hX hzdot
      apply hc3 hper
      rcases c with _ | ⟨x, t⟩
      · simp at hXdot
      · simpa using hXdot

/-- Two straight runs of the same pattern on candidates related by
`Skippable`: when the first arrives at a recursive wildcard and the second
does not fail, the second arrives at the same wildcard, with candidates that
are again related. -/
theorem straight_parallel {flags : Nat} (hpath : pathname flags = true)
    {p X : List Char} {o : SOut} (hX : Straight flags p X o) :
    ∀ {p2 Y : List Char}, o = SOut.jump p2 Y →
      ∀ {z : List Char} {o' : SOut}, Skippable flags X z → nul_free z →
        Straight flags p z o' → o' ≠ SOut.failed →
        ∃ Y', o' = SOut.jump p2 Y' ∧ Skippable flags Y Y' ∧ nul_free Y' := by
  induction hX with
  | @jump p X h =>
    intro p2 Y e z o' hsk hz0 hz hnf
    cases e
    cases hz with
    | jump _ => exact ⟨z, rfl, hsk, hz0⟩
    | matched h' _ _ _ => rw [h] at h'; cases h'
    | failed h' _ _ => rw [h] at h'; cases h'
    | adv h' _ _ _ _ => rw [h] at h'; cases h'
  | matched h hh h1 h2 => intro p2 Y e; cases e
  | failed h hh hf => intro p2 Y e; cases e
  | @adv p X p' sX o h hh h1 h2 hr ih =>
    intro p2 Y e z o' hsk hz0 hz hnf
    cases hz with
    | jump h' => rw [h] at h'; cases h'
    | matched h' hh' h1' h2' =>
      have := fnmatch_helper_ptr hh hh'
      subst this
      exact absurd h1' h1
    | failed h' _ _ => exact absurd rfl hnf
    | @adv _ _ pz sz _ h' hh' h1' h2' hr' =>
      have := fnmatch_helper_ptr hh hh'
      subst this
      have hsk' := skippable_step hpath hh hh' h2' hsk hz0
      have hz0' : nul_free (Next (skip_segment sz)) := by
        obtain ⟨v, q', t', hq, -, hsegz, -⟩ := fnmatch_helper_post flags p z
        rw [hh'] at hq
        cases hq
        exact nul_free_suffix hz0
          (((Next_suffix _).trans (skip_segment_suffix _)).trans hsegz.suffix)
      exact ih e hsk' hz0' hr' hnf

theorem try_recursive {flags : Nat} {q : List Char} (h : is_recursive q = true)
    (y : List Char) : TryMatch flags q y ↔ TryMatch flags (skip_recursive q) y :=
  reaches_recursive h y _ _ _

/-- A try that matches at `y` also matches at any candidate that has more
skippable segments in front of `y`: the recursive wildcard absorbs them. -/
theorem try_skippable {flags : Nat} (hpath : pathname flags = true) :
    ∀ (n : Nat) (q : List Char), q.length < n → ∀ (x y : List Char),
      Skippable flags x y → nul_free y → TryMatch flags q y → TryMatch flags q x := by
  intro n
  induction n with
  | zero => intro q hq; omega
  | succ n ih =>
    intro q hq x y hsk
    induction hsk with
    | refl => intro _ h; exact h
    | @cons c x y hc1 hc2 hc3 hsk ihsk =>
      intro hy0 hty
      have hx0 : nul_free x := hsk.nul_free_left hy0
      have htx := ihsk hy0 hty
      -- one more segment `c` in front of `x`
      by_cases hrec : is_recursive q = true
      · rw [try_recursive hrec] at htx ⊢
        have := skip_recursive_length_lt hrec
        exact ih (skip_recursive q) (by omega) _ x
          (Skippable.cons hc1 hc2 hc3 (Skippable.refl x)) hx0 htx
      · obtain ⟨o, ho⟩ := straight_total flags _ q (c ++ '/' :: x) (le_refl _)
        unfold TryMatch
        rw [straight_reaches ho]
        rcases o with _ | _ | ⟨p2, Y⟩
        · rfl
        · show ReachesFrom (path_step flags) (path_failed flags (some q) (some (c ++ '/' :: x)))
            (some 0)
          rw [path_failed_some, skip_segment_append hc1 hc2]
          refine ⟨?_, by simp, htx⟩
          rintro ⟨hper, hdot⟩
          apply hc3 hper
          rcases c with _ | ⟨a, t⟩
          · simp at hdot
          · simpa using hdot
        · show Reaches (path_step flags) (p2, Y, some q, some (c ++ '/' :: x)) (some 0)
          obtain ⟨hrec2, hlen2⟩ := straight_jump_rec ho rfl
          rw [reaches_recursive hrec2]
          obtain ⟨z, o', i1, i2, i3, i4, i5⟩ := unroll_try q _ x (le_refl _) hx0 htx
          obtain ⟨Y', rfl, j1, j2⟩ := straight_parallel hpath ho rfl
            (Skippable.cons hc1 hc2 hc3 i1) i2 i3 i4
          have i5' : Reaches (path_step flags) (p2, Y', some q, some z) (some 0) := i5
          rw [reaches_recursive hrec2] at i5'
          have := skip_recursive_length_lt hrec2
          exact ih (skip_recursive p2) (by omega) Y Y' j1 j2 i5'

/-- A match found without a checkpoint is also found with one. -/
theorem try_of_reaches {flags : Nat} {p r : List Char}
    (h : Reaches (path_step flags) (p, r, none, none) (some 0)) : TryMatch flags p r := by
  obtain ⟨o, ho⟩ := straight_total flags _ p r (le_refl _)
  unfold TryMatch
  rw [straight_reaches ho] at h ⊢
  rcases o with _ | _ | ⟨p2, Y⟩
  · exact h
  · have h' : ReachesFrom (path_step flags) (path_failed flags none none) (some 0) := h
    simp only [path_failed, ReachesFrom] at h'
    cases h'
  · have h' : Reaches (path_step flags) (p2, Y, none, none) (some 0) := h
    show Reaches (path_step flags) (p2, Y, some p, some r) (some 0)
    obtain ⟨hrec2, -⟩ := straight_jump_rec ho rfl
    rw [reaches_recursive hrec2] at h' ⊢
    exact h'

theorem skippable_join (flags : Nat) (r : List Char) :
    ∀ segs : List (List Char),
      (∀ g ∈ segs, '/' ∉ g ∧ nul_free g ∧ (period flags = true → deref g ≠ '.')) →
      Skippable flags (join_segments segs r) r
  | [], _ => Skippable.refl r
  | g :: gs, h => by
    obtain ⟨h1, h2, h3⟩ := h g (List.mem_cons_self g gs)
    exact Skippable.cons h1 h2 h3
      (skippable_join flags r gs (fun x hx => h x (List.mem_cons_of_mem g hx)))

theorem reaches_of_fnmatch {flags : Nat} (hpath : pathname flags = true) {p s : List Char}
    {v : Int} (h : mrb_file_fnmatch p s flags = some v) :
    Reaches (path_step flags) (p, s, none, none) (some v) := by
  unfold mrb_file_fnmatch at h
  rw [if_pos hpath] at h
  obtain ⟨r, hr⟩ := path_loop_total flags p s
  rw [hr] at h
  have : r = some v := by simpa using h
  subst this
  exact reaches_of_iterate _ _ _ hr

/-- The recursive wildcard in front of a pattern, in pathname mode with any
other flags: a match of `p` against `r` is kept when `**/` is put in front of
`p` and skippable segments in front of `r`. -/
theorem recursive_prefix_general (flags : Nat) (hpath : pathname flags = true)
    (p r : List Char) (segs : List (List Char)) (hr : nul_free r)
    (hsegs : ∀ g ∈ segs, '/' ∉ g ∧ nul_free g ∧ (period flags = true → deref g ≠ '.'))
    (hm : mrb_file_fnmatch p r flags = some 0) :
    mrb_file_fnmatch ('*' :: '*' :: '/' :: p) (join_segments segs r) flags = some 0 := by
  apply mrb_file_fnmatch_path_eq hpath
  have hP : is_recursive ('*' :: '*' :: '/' :: p) = true := by simp [is_recursive]
  have hskip : skip_recursive ('*' :: '*' :: '/' :: p) = skip_recursive p := by
    simp [skip_recursive]
  rw [reaches_recursive hP, hskip]
  have hreach := reaches_of_fnmatch hpath hm
  have htry : TryMatch flags (skip_recursive p) r := by
    by_cases hrec : is_recursive p = true
    · exact (reaches_recursive hrec _ _ _ _).mp hreach
    · have hrec' : is_recursive p = false := by simpa using hrec
      rw [skip_recursive_of_not hrec']
      exact try_of_reaches hreach
  exact try_skippable hpath _ (skip_recursive p) (Nat.lt_succ_self _) _ r
    (skippable_join flags r segs hsegs) hr htry

/-- The claim C4 fails as stated: `a` matches `a`, but `**/a` does not match
`.git/a` with flags `PATHNAME`, although `.git` is a segment without `/`. -/
theorem recursive_prefix_dot_counterexample :
    mrb_file_fnmatch "a".toList "a".toList MRB_FNM_PATHNAME = some 0 ∧
    '/' ∉ ".git".toList ∧
    mrb_file_fnmatch "**/a".toList (join_segments [".git".toList] "a".toList)
      MRB_FNM_PATHNAME = some MRB_FNM_NOMATCH := by
  decide

/-- C4 (amended): with flags `PATHNAME`, when `p` matches `r`, the pattern
`**/p` matches `seg1/.../segk/r` for every list of `k ≥ 0` segments without
`/` none of which begins with `.` (for `k = 0` the candidate is `r`). -/
theorem recursive_descent_segments (p r : List Char) (segs : List (List Char))
    (hr : nul_free r) (hsegs : ∀ g ∈ segs, '/' ∉ g ∧ nul_free g ∧ deref g ≠ '.')
    (hm : mrb_file_fnmatch p r MRB_FNM_PATHNAME = some 0) :
    mrb_file_fnmatch ('*' :: '*' :: '/' :: p) (join_segments segs r) MRB_FNM_PATHNAME
      = some 0 :=
  recursive_prefix_general MRB_FNM_PATHNAME (by decide) p r segs hr
    (fun g hg => ⟨(hsegs g hg).1, (hsegs g hg).2.1, fun _ => (hsegs g hg).2.2⟩) hm

/-- C4 (amended) at concrete inputs: `**/*.c` matches `src/lib/main.c` and
`main.c`. -/
theorem recursive_descent_segments_witness :
    mrb_file_fnmatch "**/*.c".toList "src/lib/main.c".toList MRB_FNM_PATHNAME = some 0 ∧
    mrb_file_fnmatch "**/*.c".toList "main.c".toList MRB_FNM_PATHNAME = some 0 :=
  ⟨recursive_descent_segments "*.c".toList "main.c".toList ["src".toList, "lib".toList]
      (by decide) (by decide) (by decide),
   recursive_descent_segments "*.c".toList "main.c".toList [] (by decide) (by decide)
      (by decide)⟩

/-! ## Case folding: C11 -/

/-- A run of a loop under a change of representation: when the body commutes
with the maps `f` on states and `g` on results, so does the bounded run. -/
theorem iterate_map {σ ρ : Type} (f : σ → σ) (g : ρ → ρ) (step1 step2 : σ → σ ⊕ ρ)
    (h : ∀ st, step1 (f st) = Sum.map f g (step2 st)) :
    ∀ (n : Nat) (st : σ), iterate step1 n (f st) = (iterate step2 n st).map g := by
  intro n
  induction n with
  | zero => intro st; rfl
  | succ n ih =>
    intro st
    cases hs : step2 st with
    | inl st' =>
      have h1 : step1 (f st) = Sum.inl (f st') := by rw [h, hs]; rfl
      rw [iterate_succ_inl n h1, iterate_succ_inl n hs, ih]
    | inr r =>
      have h1 : step1 (f st) = Sum.inr (g r) := by rw [h, hs]; rfl
      rw [iterate_succ_inr n h1, iterate_succ_inr n hs]
      rfl

theorem tolower_eq_downcase (c : Char) : tolower c = downcase MRB_FNM_CASEFOLD c := by
  have h : nocase MRB_FNM_CASEFOLD = true := by decide
  simp only [downcase, h, Bool.true_and]
  split_ifs with hu
  · rfl
  · simp [tolower, hu]

theorem downcase_eq_tolower {flags : Nat} (h : nocase flags = true) (c : Char) :
    downcase flags c = tolower c := by
  simp only [downcase, h, Bool.true_and]
  split_ifs with hu
  · rfl
  · simp [tolower, hu]

/-- A byte that is not an ASCII letter is the lower-case form of itself
only. -/
theorem tolower_beq (c d : Char)
    (hd : ¬ (65 ≤ d.toNat ∧ d.toNat ≤ 90)) (hd' : ¬ (97 ≤ d.toNat ∧ d.toNat ≤ 122)) :
    (tolower c == d) = (c == d) := by
  rw [tolower_eq_downcase]
  have := downcase_eq_nonletter MRB_FNM_CASEFOLD c d hd hd'
  by_cases e : c = d
  · have e2 := this.mpr e
    rw [e2, e]
  · have e' : ¬ downcase MRB_FNM_CASEFOLD c = d := fun h => e (this.mp h)
    simp [e, e']

theorem tolower_idem (c : Char) : tolower (tolower c) = tolower c := by
  have hA : 'A'.toNat = 65 := by decide
  have hZ : 'Z'.toNat = 90 := by decide
  by_cases hu : isupper c = true
  · have h1 := tolower_toNat hu
    have h2 : isupper (tolower c) = false := by
      simp only [isupper, Bool.and_eq_true, decide_eq_true_eq, hA, hZ] at hu
      simp only [isupper, hA, hZ, Bool.and_eq_false_iff, decide_eq_false_iff_not]
      omega
    generalize tolower c = x at h2 ⊢
    simp [tolower, h2]
  · simp [tolower, hu]

theorem deref_lower (p : List Char) : deref (p.map tolower) = tolower (deref p) := by
  rcases p with _ | ⟨c, p⟩
  · decide
  · rfl

theorem Next_lower (p : List Char) : Next (p.map tolower) = (Next p).map tolower := by
  rcases p with _ | ⟨c, p⟩ <;> rfl

theorem deref_lower_beq (p : List Char) (d : Char)
    (hd : ¬ (65 ≤ d.toNat ∧ d.toNat ≤ 90)) (hd' : ¬ (97 ≤ d.toNat ∧ d.toNat ≤ 122)) :
    (deref (p.map tolower) == d) = (deref p == d) := by
  rw [deref_lower, tolower_beq _ d hd hd']

/-- The tests of the source against its special bytes do not see the
lower-casing of a string. -/
theorem lower_tests (p : List Char) :
    (deref (p.map tolower) == '*') = (deref p == '*') ∧
    (deref (p.map tolower) == '?') = (deref p == '?') ∧
    (deref (p.map tolower) == '[') = (deref p == '[') ∧
    (deref (p.map tolower) == ']') = (deref p == ']') ∧
    (deref (p.map tolower) == '\\') = (deref p == '\\') ∧
    (deref (p.map tolower) == '\x00') = (deref p == '\x00') ∧
    (deref (p.map tolower) == '-') = (deref p == '-') ∧
    (deref (p.map tolower) == '!') = (deref p == '!') ∧
    (deref (p.map tolower) == '^') = (deref p == '^') ∧
    (deref (p.map tolower) == '/') = (deref p == '/') ∧
    (deref (p.map tolower) == '.') = (deref p == '.') :=
  ⟨deref_lower_beq p _ (by decide) (by decide), deref_lower_beq p _ (by decide) (by decide),
   deref_lower_beq p _ (by decide) (by decide), deref_lower_beq p _ (by decide) (by decide),
   deref_lower_beq p _ (by decide) (by decide), deref_lower_beq p _ (by decide) (by decide),
   deref_lower_beq p _ (by decide) (by decide), deref_lower_beq p _ (by decide) (by decide),
   deref_lower_beq p _ (by decide) (by decide), deref_lower_beq p _ (by decide) (by decide),
   deref_lower_beq p _ (by decide) (by decide)⟩

theorem Compare_lower {flags : Nat} (h : nocase flags = true) (p s : List Char) :
    Compare flags (p.map tolower) (s.map tolower) = Compare flags p s := by
  simp only [Compare, deref_lower, downcase_eq_tolower h, tolower_idem]

theorem UNESCAPE_lower (flags : Nat) (p : List Char) :
    UNESCAPE flags (p.map tolower) = (UNESCAPE flags p).map tolower := by
  simp only [UNESCAPE, lower_tests, Next_lower]
  split_ifs <;> rfl

theorem ISEND_lower (flags : Nat) (p : List Char) :
    ISEND flags (p.map tolower) = ISEND flags p := by
  simp only [ISEND, lower_tests]

theorem skip_stars_lower (p : List Char) :
    (p.map tolower).dropWhile (fun c => c == '*') =
      (p.dropWhile (fun c => c == '*')).map tolower := by
  induction p with
  | nil => rfl
  | cons c p ih =>
    simp only [List.map_cons, List.dropWhile_cons, tolower_beq c '*' (by decide) (by decide)]
    split_ifs
    · exact ih
    · rfl

theorem skip_segment_lower (s : List Char) :
    skip_segment (s.map tolower) = (skip_segment s).map tolower := by
  unfold skip_segment
  induction s with
  | nil => rfl
  | cons c s ih =>
    simp only [List.map_cons, List.dropWhile_cons, bne, tolower_beq c '/' (by decide) (by decide),
      tolower_beq c '\x00' (by decide) (by decide)]
    split_ifs
    · exact ih
    · rfl

theorem is_recursive_lower (p : List Char) : is_recursive (p.map tolower) = is_recursive p := by
  simp only [is_recursive, Next_lower, lower_tests]

theorem skip_recursive_lower :
    ∀ p : List Char, skip_recursive (p.map tolower) = (skip_recursive p).map tolower
  | [] => rfl
  | [_] => rfl
  | [_, _] => rfl
  | a :: b :: c :: rest => by
    simp only [List.map_cons, skip_recursive, tolower_beq a '*' (by decide) (by decide),
      tolower_beq b '*' (by decide) (by decide), tolower_beq c '/' (by decide) (by decide)]
    split_ifs
    · exact skip_recursive_lower rest
    · rfl

/-- The body of the loop of `bracket` commutes with lower-casing. -/
theorem bracket_step_lower {flags : Nat} (h : nocase flags = true) (s : List Char)
    (nope : Bool) (st : List Char × Bool) :
    bracket_step flags (s.map tolower) nope (st.1.map tolower, st.2) =
      Sum.map (fun x => (x.1.map tolower, x.2)) (Option.map (List.map tolower))
        (bracket_step flags s nope st) := by
  obtain ⟨p, ok⟩ := st
  have e1 : ∀ (b : Bool) (x y : List Char),
      (if b = true then x.map tolower else y.map tolower) =
        (if b = true then x else y).map tolower := by
    intro b x y; split_ifs <;> rfl
  simp only [bracket_step, bne, lower_tests, Next_lower, e1, Compare_lower h]
  split_ifs <;> rfl

theorem bracket_lower {flags : Nat} (h : nocase flags = true) (p s : List Char) :
    bracket flags (p.map tolower) (s.map tolower) =
      (bracket flags p s).map (Option.map (List.map tolower)) := by
  have e1 : ∀ (b : Bool) (x y : List Char),
      (if b = true then x.map tolower else y.map tolower) =
        (if b = true then x else y).map tolower := by
    intro b x y; split_ifs <;> rfl
  simp only [bracket, lower_tests, Next_lower, e1, List.length_map]
  exact iterate_map (fun x : List Char × Bool => (x.1.map tolower, x.2))
    (Option.map (List.map tolower)) _ _ (bracket_step_lower h s _) _ (_, false)

theorem helper_failed_lower (p s : List Char) (pt st : Option (List Char)) :
    helper_failed (p.map tolower) (s.map tolower) (pt.map (List.map tolower))
        (st.map (List.map tolower)) =
      Sum.map (fun x => (x.1.map tolower, x.2.1.map tolower,
          x.2.2.1.map (List.map tolower), x.2.2.2.map (List.map tolower)))
        (Option.map (fun r => (r.1, r.2.1.map tolower, r.2.2.map tolower)))
        (helper_failed p s pt st) := by
  rcases pt with _ | pt <;> rcases st with _ | st <;>
    simp [helper_failed, Next_lower]

/-- The state of the loops of `fnmatch_helper` and `mrb_file_fnmatch`,
lower-cased. -/
theorem helper_step_lower {flags : Nat} (h : nocase flags = true)
    (st : List Char × List Char × Option (List Char) × Option (List Char)) :
    helper_step flags (st.1.map tolower, st.2.1.map tolower,
        st.2.2.1.map (List.map tolower), st.2.2.2.map (List.map tolower)) =
      Sum.map (fun x => (x.1.map tolower, x.2.1.map tolower,
          x.2.2.1.map (List.map tolower), x.2.2.2.map (List.map tolower)))
        (Option.map (fun r => (r.1, r.2.1.map tolower, r.2.2.map tolower)))
        (helper_step flags st) := by
  obtain ⟨p, s, pt, st⟩ := st
  simp only [helper_step, bne, lower_tests, Next_lower, skip_stars_lower, UNESCAPE_lower,
    ISEND_lower, Compare_lower h, bracket_lower h, helper_failed_lower]
  split_ifs
  any_goals rfl
  rcases hb : bracket flags (Next p) s with _ | _ | t
  · rfl
  · simp only [Option.map_some', Option.map_none', helper_failed_lower]
  · rfl

theorem fnmatch_helper_lower {flags : Nat} (h : nocase flags = true) (p s : List Char) :
    fnmatch_helper flags (p.map tolower) (s.map tolower) =
      (fnmatch_helper flags p s).map (fun r => (r.1, r.2.1.map tolower, r.2.2.map tolower)) := by
  simp only [fnmatch_helper, bne, lower_tests, UNESCAPE_lower, List.length_map]
  split_ifs
  · rfl
  · have := iterate_map
      (fun x : List Char × List Char × Option (List Char) × Option (List Char) =>
        (x.1.map tolower, x.2.1.map tolower,
          x.2.2.1.map (List.map tolower), x.2.2.2.map (List.map tolower)))
      (Option.map (fun r : Int × List Char × List Char =>
        (r.1, r.2.1.map tolower, r.2.2.map tolower)))
      _ _ (helper_step_lower h) (s.length * (p.length + 1) + p.length + 1) (p, s, none, none)
    simp only [Option.map_none'] at this
    rw [this]
    rcases iterate (helper_step flags) (s.length * (p.length + 1) + p.length + 1)
      (p, s, none, none) with _ | _ | r <;> rfl

theorem path_failed_lower (flags : Nat) (pt st : Option (List Char)) :
    path_failed flags (pt.map (List.map tolower)) (st.map (List.map tolower)) =
      Sum.map (fun x => (x.1.map tolower, x.2.1.map tolower,
          x.2.2.1.map (List.map tolower), x.2.2.2.map (List.map tolower))) id
        (path_failed flags pt st) := by
  rcases pt with _ | pt <;> rcases st with _ | st <;> try rfl
  simp only [path_failed, Option.map_some', bne, lower_tests, skip_segment_lower, Next_lower]
  split_ifs <;> rfl

theorem path_step_lower {flags : Nat} (h : nocase flags = true)
    (st : List Char × List Char × Option (List Char) × Option (List Char)) :
    path_step flags (st.1.map tolower, st.2.1.map tolower,
        st.2.2.1.map (List.map tolower), st.2.2.2.map (List.map tolower)) =
      Sum.map (fun x => (x.1.map tolower, x.2.1.map tolower,
          x.2.2.1.map (List.map tolower), x.2.2.2.map (List.map tolower))) id
        (path_step flags st) := by
  obtain ⟨p, s, pt, st⟩ := st
  have e1 : ∀ (b : Bool) (x y : List Char),
      (if b = true then x.map tolower else y.map tolower) =
        (if b = true then x else y).map tolower := by
    intro b x y; split_ifs <;> rfl
  have e2 : ∀ (b : Bool) (x : List Char) (y : Option (List Char)),
      (if b = true then some (x.map tolower) else y.map (List.map tolower)) =
        (if b = true then some x else y).map (List.map tolower) := by
    intro b x y; split_ifs <;> rfl
  simp only [path_step, is_recursive_lower, skip_recursive_lower, e1, e2,
    fnmatch_helper_lower h]
  rcases fnmatch_helper flags (if is_recursive p = true then skip_recursive p else p) s
    with _ | ⟨v, p', s'⟩
  · rfl
  · simp only [Option.map_some', bne, lower_tests, skip_segment_lower, Next_lower,
      path_failed_lower]
    split_ifs <;> rfl

/-- C11: with `CASEFOLD` among the flags, `mrb_file_fnmatch` gives the same
result on `(p, s)` and on the two strings with every `A`..`Z` replaced by
`a`..`z`. -/
theorem casefold_lowercase_invariant (flags : Nat) (p s : List Char)
    (h : nocase flags = true) :
    mrb_file_fnmatch p s flags = mrb_file_fnmatch (p.map tolower) (s.map tolower) flags := by
  simp only [mrb_file_fnmatch, fnmatch_helper_lower h, List.length_map]
  split_ifs
  · have := iterate_map
      (fun x : List Char × List Char × Option (List Char) × Option (List Char) =>
        (x.1.map tolower, x.2.1.map tolower,
          x.2.2.1.map (List.map tolower), x.2.2.2.map (List.map tolower)))
      id _ _ (path_step_lower h) (s.length * (p.length + 1) + p.length + 1) (p, s, none, none)
    simp only [Option.map_none'] at this
    rw [this, Option.map_id_fun, id]
  · rw [Option.map_map]
    rfl

/-- C11 at a concrete input: `[A-C]*.TXT` against `b.Txt` with `CASEFOLD`. -/
theorem casefold_lowercase_invariant_witness :
    mrb_file_fnmatch "[A-C]*.TXT".toList "b.Txt".toList MRB_FNM_CASEFOLD =
      mrb_file_fnmatch ("[A-C]*.TXT".toList.map tolower) ("b.Txt".toList.map tolower)
        MRB_FNM_CASEFOLD :=
  casefold_lowercase_invariant MRB_FNM_CASEFOLD "[A-C]*.TXT".toList "b.Txt".toList (by decide)

/-! ## Patterns without a balanced brace group: C12 -/

theorem scan_no_open (flags : Nat) :
    ∀ (n : Nat) (q : List Char), q.length ≤ n → '{' ∉ q →
      Reaches (scan_step flags) (q, none, 0) (none, none) := by
  intro n
  induction n using Nat.strong_induction_on with
  | _ n ih =>
    intro q hn hq
    rcases q with _ | ⟨c, q⟩
    · exact Reaches.done (by simp [scan_step])
    · simp only [List.mem_cons, not_or] at hq
      have hc : c ≠ '{' := fun h => hq.1 h.symm
      simp only [List.length_cons] at hn
      cases hs : scan_step flags (c :: q, none, 0) with
      | inr r =>
        have : r = (none, none) := by
          simp only [scan_step, deref_cons, hc] at hs
          split_ifs at hs <;> simp_all
        rw [this] at hs
        exact Reaches.done hs
      | inl st =>
        have hst : ∃ q', st = (q', none, 0) ∧ q' <:+ q := by
          simp only [scan_step, deref_cons, hc] at hs
          split_ifs at hs <;> simp_all
          all_goals first
            | exact ⟨_, hs.symm, List.suffix_refl _⟩
            | exact ⟨_, hs.symm, List.tail_suffix _⟩
        obtain ⟨q', rfl, hq'⟩ := hst
        exact Reaches.next hs (ih (n - 1) (by omega) q' (by have := hq'.length_le; omega)
          (fun h => hq.2 (hq'.subset h)))

theorem scan_unclosed (flags : Nat) (lb : List Char) :
    ∀ (n : Nat) (q : List Char) (nest : Int), q.length ≤ n → '}' ∉ q → 0 < nest →
      Reaches (scan_step flags) (q, some lb, nest) (some lb, none) := by
  intro n
  induction n using Nat.strong_induction_on with
  | _ n ih =>
    intro q nest hn hq hnest
    rcases q with _ | ⟨c, q⟩
    · exact Reaches.done (by simp [scan_step])
    · simp only [List.mem_cons, not_or] at hq
      have hc : c ≠ '}' := fun h => hq.1 h.symm
      have hne : nest ≠ 0 := by omega
      simp only [List.length_cons] at hn
      cases hs : scan_step flags (c :: q, some lb, nest) with
      | inr r =>
        have : r = (some lb, none) := by
          simp only [scan_step, deref_cons, hc, hne] at hs
          split_ifs at hs <;> simp_all
        rw [this] at hs
        exact Reaches.done hs
      | inl st =>
        have hst : ∃ q' nest', st = (q', some lb, nest') ∧ q' <:+ q ∧ 0 < nest' := by
          simp only [scan_step, deref_cons, hc, hne] at hs
          split_ifs at hs <;> simp_all
          all_goals first
            | exact ⟨_, _, hs.symm, List.suffix_refl _, by omega⟩
            | exact ⟨_, _, hs.symm, List.tail_suffix _, by omega⟩
        obtain ⟨q', nest', rfl, hq', hn'⟩ := hst
        exact Reaches.next hs (ih (n - 1) (by omega) q' nest'
          (by have := hq'.length_le; omega) (fun h => hq.2 (hq'.subset h)) hn')

theorem brace_scan_total (flags : Nat) (p : List Char) : ∃ r, brace_scan flags p = some r :=
  scan_loop_total flags p

theorem brace_scan_eq {flags : Nat} {p : List Char}
    {r : Option (List Char) × Option (List Char)}
    (h : Reaches (scan_step flags) (p, none, 0) r) : brace_scan flags p = some r :=
  iterate_eq_of_reaches h (scan_loop_total flags p)

theorem ex_of_scan_none {flags : Nat} {p : List Char} (malloc : Nat → Bool) (path : List Char)
    (h : brace_scan flags p = some (none, none)) :
    mrb_file_fnmatch_ex malloc p path flags =
      some (if mrb_file_fnmatch p path flags = some 0 then 1 else 0) := by
  unfold brace_scan at h
  unfold mrb_file_fnmatch_ex
  rw [h]
  rcases mrb_file_fnmatch_total p path flags with hm | hm <;> simp [hm, MRB_FNM_NOMATCH]

theorem ex_of_scan_open {flags : Nat} {p lb : List Char} (malloc : Nat → Bool)
    (path : List Char) (h : brace_scan flags p = some (some lb, none)) :
    mrb_file_fnmatch_ex malloc p path flags = some 0 := by
  unfold brace_scan at h
  unfold mrb_file_fnmatch_ex
  rw [h]

/-- The claim C12 fails as stated: in `{a` the `{` is never closed, and
`mrb_file_fnmatch` matches `{a` against itself, yet `mrb_file_fnmatch_ex`
returns `0`, not `1`. -/
theorem unclosed_brace_counterexample :
    brace_scan 0 "\x7ba".toList = some (some "\x7ba".toList, none) ∧
    mrb_file_fnmatch "\x7ba".toList "\x7ba".toList 0 = some 0 ∧
    mrb_file_fnmatch_ex (fun _ => true) "\x7ba".toList "\x7ba".toList 0 = some 0 := by
  decide

/-- C12 (amended): let the brace scan of `p` end without a closing brace.
If it found no `{`, `mrb_file_fnmatch_ex` hands `p` unchanged to
`mrb_file_fnmatch` and returns `1` exactly when that call returns `0`, and
`0` otherwise.  If it found a `{` that is never closed, it returns `0`
without calling the matcher.  A pattern with no `{` at all is of the first
kind; a pattern `pre{rest` with no brace or backslash in `pre` and no `}` in
`rest` is of the second kind. -/
theorem unbalanced_brace_delegation (malloc : Nat → Bool) (flags : Nat) (p s : List Char) :
    (brace_scan flags p = some (none, none) →
      mrb_file_fnmatch_ex malloc p s flags =
        some (if mrb_file_fnmatch p s flags = some 0 then 1 else 0)) ∧
    (∀ lb, brace_scan flags p = some (some lb, none) →
      mrb_file_fnmatch_ex malloc p s flags = some 0) ∧
    ('{' ∉ p → brace_scan flags p = some (none, none)) ∧
    (∀ pre rest, p = pre ++ '{' :: rest → brace_free pre → '}' ∉ rest →
      brace_scan flags p = some (some ('{' :: rest), none)) := by
  refine ⟨ex_of_scan_none malloc s, fun lb => ex_of_scan_open malloc s, ?_, ?_⟩
  · intro hp
    exact brace_scan_eq (scan_no_open flags _ p (le_refl _) hp)
  · rintro pre rest rfl hpre hrest
    apply brace_scan_eq
    apply scan_walk flags _ none 0 _ pre hpre
    refine reaches_next (rest, some ('{' :: rest), 1) ?_ ?_
    · simp [scan_step]
    · exact scan_unclosed flags _ _ rest 1 (le_refl _) hrest (by decide)

/-- C12 (amended) at concrete inputs: `a}b` has no `{` and is delegated, `x{a`
has an unclosed `{` and yields `0`. -/
theorem unbalanced_brace_delegation_witness :
    mrb_file_fnmatch_ex (fun _ => true) "a\x7db".toList "a\x7db".toList 0 =
      some (if mrb_file_fnmatch "a\x7db".toList "a\x7db".toList 0 = some 0 then 1 else 0) ∧
    mrb_file_fnmatch_ex (fun _ => true) "x\x7ba".toList "x\x7ba".toList 0 = some 0 :=
  ⟨(unbalanced_brace_delegation (fun _ => true) 0 "a\x7db".toList "a\x7db".toList).1
      ((unbalanced_brace_delegation (fun _ => true) 0 "a\x7db".toList "a\x7db".toList).2.2.1
        (by decide)),
   (unbalanced_brace_delegation (fun _ => true) 0 "x\x7ba".toList "x\x7ba".toList).2.1 _
      ((unbalanced_brace_delegation (fun _ => true) 0 "x\x7ba".toList "x\x7ba".toList).2.2.2
        "x".toList "a".toList rfl (by decide) (by decide))⟩

/-! ## Termination: C14 -/

theorem fnmatch_helper_total (flags : Nat) (p s : List Char) :
    ∃ r, fnmatch_helper flags p s = some r := by
  obtain ⟨v, p', s', h, -⟩ := fnmatch_helper_post flags p s
  exact ⟨_, h⟩

theorem ex_step_inr {flags : Nat} {P path rb : List Char} {shift len : Nat}
    {st : List Char × Int} {r : Option Int}
    (h : ex_step flags P path rb shift len st = Sum.inr r) : ∃ v, r = some v := by
  obtain ⟨p, status⟩ := st
  simp only [ex_step] at h
  split_ifs at h with h1
  · obtain ⟨q, hq⟩ := alt_loop_total flags rb (Next p)
    rw [hq] at h
    simp only at h
    rcases mrb_file_fnmatch_total
      (cstr (List.take shift P ++ List.take (ptr_diff q (Next p)) (Next p) ++
        (_strlcpy_ (Next rb) (size_sub len (shift + ptr_diff q (Next p)))).1)) path flags
      with hm | hm
    · rw [hm] at h
      simp only at h
      split_ifs at h
      cases h
      exact ⟨_, rfl⟩
    · rw [hm] at h
      simp only at h
      split_ifs at h
      cases h
      exact ⟨_, rfl⟩
  · cases h
    exact ⟨_, rfl⟩

theorem mrb_file_fnmatch_ex_total (malloc : Nat → Bool) (p path : List Char) (flags : Nat) :
    ∃ v, mrb_file_fnmatch_ex malloc p path flags = some v := by
  unfold mrb_file_fnmatch_ex
  obtain ⟨r, hr⟩ := scan_loop_total flags p
  rw [hr]
  rcases r with ⟨_ | lb, _ | rb⟩
  · rcases mrb_file_fnmatch_total p path flags with h | h <;> simp [h]
  · exact ⟨_, rfl⟩
  · exact ⟨_, rfl⟩
  · simp only
    split_ifs
    · exact ⟨_, rfl⟩
    · obtain ⟨r, hr⟩ := ex_loop_total flags p path rb (ptr_diff lb p) (strlen p + 1) lb
      rw [hr]
      obtain ⟨v, rfl⟩ := reaches_inv (fun _ => True) (fun r => ∃ v, r = some v)
        (fun _ _ _ _ => trivial) (fun _ _ _ h => ex_step_inr h)
        (reaches_of_iterate _ _ _ hr) trivial
      exact ⟨v, rfl⟩

/-- C14: `fnmatch_helper`, `mrb_file_fnmatch` and `mrb_file_fnmatch_ex` return
for every input: the bounded runs of their loops, with the bounds
`length s * (length p + 1) + length p + 1` of the two matching loops and
`length p + 1` of the loops over the pattern, always end with a value. -/
theorem all_functions_return (malloc : Nat → Bool) (flags : Nat) (p s : List Char) :
    (∃ r, fnmatch_helper flags p s = some r) ∧
    (∃ v, mrb_file_fnmatch p s flags = some v) ∧
    (∃ v, mrb_file_fnmatch_ex malloc p s flags = some v) := by
  refine ⟨fnmatch_helper_total flags p s, ?_, mrb_file_fnmatch_ex_total malloc p s flags⟩
  rcases mrb_file_fnmatch_total p s flags with h | h <;> exact ⟨_, h⟩

/-! ## What the recursive wildcard skips: C16 -/

theorem skippable_segments {flags : Nat} {x y : List Char} (h : Skippable flags x y) :
    ∃ segs : List (List Char), x = join_segments segs y ∧
      ∀ g ∈ segs, '/' ∉ g ∧ nul_free g ∧ (period flags = true → deref g ≠ '.') := by
  induction h with
  | refl y => exact ⟨[], rfl, by simp⟩
  | cons hc1 hc2 hc3 _ ih =>
    obtain ⟨segs, rfl, hsegs⟩ := ih
    refine ⟨_ :: segs, rfl, ?_⟩
    intro g hg
    rcases List.mem_cons.mp hg with rfl | hg
    · exact ⟨hc1, hc2, hc3⟩
    · exact hsegs g hg

/-- The converse of `recursive_prefix_general`: a match of `**/p` splits the
candidate into skipped segments and a rest that `p` matches. -/
theorem recursive_prefix_split (flags : Nat) (hpath : pathname flags = true)
    (p s : List Char) (hs : nul_free s)
    (hm : mrb_file_fnmatch ('*' :: '*' :: '/' :: p) s flags = some 0) :
    ∃ (segs : List (List Char)) (r : List Char), s = join_segments segs r ∧
      (∀ g ∈ segs, '/' ∉ g ∧ nul_free g ∧ (period flags = true → deref g ≠ '.')) ∧
      nul_free r ∧ mrb_file_fnmatch p r flags = some 0 := by
  have hP : is_recursive ('*' :: '*' :: '/' :: p) = true := by simp [is_recursive]
  have hskip : skip_recursive ('*' :: '*' :: '/' :: p) = skip_recursive p := by
    simp [skip_recursive]
  have h1 := reaches_of_fnmatch hpath hm
  rw [reaches_recursive hP, hskip] at h1
  obtain ⟨z, o, hsk, hz, hst, hof, hpost⟩ := unroll_try (skip_recursive p) _ s (le_refl _) hs h1
  obtain ⟨segs, rfl, hsegs⟩ := skippable_segments hsk
  refine ⟨segs, z, rfl, hsegs, hz, ?_⟩
  -- the run from `z` without a checkpoint
  have h2 : Reaches (path_step flags) (skip_recursive p, z, none, none) (some 0) := by
    rw [straight_reaches hst]
    rcases o with _ | _ | ⟨p2, Y⟩
    · exact hpost
    · exact absurd rfl hof
    · have h' : Reaches (path_step flags) (p2, Y, some (skip_recursive p), some z) (some 0) :=
        hpost
      show Reaches (path_step flags) (p2, Y, none, none) (some 0)
      obtain ⟨hrec2, -⟩ := straight_jump_rec hst rfl
      rw [reaches_recursive hrec2] at h' ⊢
      exact h'
  apply mrb_file_fnmatch_path_eq hpath
  by_cases hrec : is_recursive p = true
  · rw [reaches_recursive hrec]
    exact try_of_reaches h2
  · have hrec' : is_recursive p = false := by simpa using hrec
    rw [skip_recursive_of_not hrec'] at h2
    exact h2

/-- In pathname mode with the leading-dot rule on, `*` matches only a
candidate without `/` that does not begin with `.`. -/
theorem star_match_general (flags : Nat) (hpath : pathname flags = true)
    (hper : period flags = true) (s : List Char) (hs : nul_free s)
    (hm : mrb_file_fnmatch ['*'] s flags = some 0) : '/' ∉ s ∧ deref s ≠ '.' := by
  have hne : (some MRB_FNM_NOMATCH : Option Int) ≠ some 0 := by decide
  by_cases hd : deref s = '.'
  · have h1 := star_helper_dot flags s (by simp [hper, hd])
    rw [mrb_file_fnmatch_first_round hpath (path_step_nomatch (by decide) (by decide) h1)] at hm
    exact absurd hm hne
  · refine ⟨?_, hd⟩
    intro hsl
    have h1 := star_helper flags s (by simp [hd])
    rw [mrb_file_fnmatch_first_round (v := MRB_FNM_NOMATCH) hpath] at hm
    · exact absurd hm hne
    · simp [path_step, is_recursive, h1, deref_skip_segment hs, hsl, path_failed]

theorem deref_join_segments_dot {flags : Nat} {segs : List (List Char)} {r : List Char}
    (hsegs : ∀ g ∈ segs, '/' ∉ g ∧ nul_free g ∧ (period flags = true → deref g ≠ '.'))
    (hper : period flags = true) (hr : deref r ≠ '.') :
    deref (join_segments segs r) ≠ '.' := by
  rcases segs with _ | ⟨g, gs⟩
  · exact hr
  · have hg := (hsegs g (List.mem_cons_self g gs)).2.2 hper
    rcases g with _ | ⟨c, g⟩
    · simp [join_segments]
    · simpa [join_segments] using hg

/-- C16: in pathname mode with the leading-dot rule on, when `**/p` matches
`s`, the candidate is `seg1/.../segk/r` for `k ≥ 0` segments without `/` none
of which begins with `.`, and `p` matches `r`.  So `**/*` matches neither
`.git/config` nor `a/.git/config`. -/
theorem recursive_wildcard_skips_no_dot_segment (flags : Nat)
    (hpath : pathname flags = true) (hper : period flags = true) :
    (∀ p s : List Char, nul_free s →
      mrb_file_fnmatch ('*' :: '*' :: '/' :: p) s flags = some 0 →
      ∃ (segs : List (List Char)) (r : List Char), s = join_segments segs r ∧
        (∀ g ∈ segs, '/' ∉ g ∧ deref g ≠ '.') ∧ mrb_file_fnmatch p r flags = some 0) ∧
    mrb_file_fnmatch "**/*".toList ".git/config".toList flags = some MRB_FNM_NOMATCH ∧
    mrb_file_fnmatch "**/*".toList "a/.git/config".toList flags = some MRB_FNM_NOMATCH := by
  refine ⟨?_, ?_, ?_⟩
  · intro p s hs hm
    obtain ⟨segs, r, h1, h2, -, h3⟩ := recursive_prefix_split flags hpath p s hs hm
    exact ⟨segs, r, h1, fun g hg => ⟨(h2 g hg).1, (h2 g hg).2.2 hper⟩, h3⟩
  · apply mrb_file_fnmatch_nomatch
    intro hm
    obtain ⟨segs, r, h1, h2, hr0, h3⟩ :=
      recursive_prefix_split flags hpath ['*'] ".git/config".toList (by decide) hm
    have hr := (star_match_general flags hpath hper r hr0 h3).2
    have := deref_join_segments_dot h2 hper hr
    rw [← h1] at this
    exact this (by decide)
  · apply mrb_file_fnmatch_nomatch
    intro hm
    obtain ⟨segs, r, h1, h2, hr0, h3⟩ :=
      recursive_prefix_split flags hpath ['*'] "a/.git/config".toList (by decide) hm
    obtain ⟨hsl, hr⟩ := star_match_general flags hpath hper r hr0 h3
    rcases segs with _ | ⟨g, gs⟩
    · apply hsl
      rw [show r = "a/.git/config".toList from h1.symm]
      decide
    · have hg := (h2 g (List.mem_cons_self g gs)).1
      have hgs : ∀ x ∈ gs, '/' ∉ x ∧ nul_free x ∧ (period flags = true → deref x ≠ '.') :=
        fun x hx => h2 x (List.mem_cons_of_mem g hx)
      have hd := deref_join_segments_dot hgs hper hr
      rcases g with _ | ⟨c, g⟩
      · simp [join_segments] at h1
      · rcases g with _ | ⟨d, g⟩
        · simp only [join_segments, String.toList, List.cons_append, List.nil_append,
            List.cons.injEq] at h1
          rw [← h1.2.2] at hd
          exact hd rfl
        · simp only [join_segments, String.toList, List.cons_append, List.cons.injEq] at h1
          apply hg
          rw [← h1.2.1]
          simp

/-- C16 at concrete inputs, with flags `PATHNAME`: the match of `**/*.c`
against `src/main.c` splits the candidate, and `**/*` matches neither
`.git/config` nor `a/.git/config`. -/
theorem recursive_wildcard_skips_no_dot_segment_witness :
    (∃ (segs : List (List Char)) (r : List Char),
      "src/main.c".toList = join_segments segs r ∧
        (∀ g ∈ segs, '/' ∉ g ∧ deref g ≠ '.') ∧
        mrb_file_fnmatch "*.c".toList r MRB_FNM_PATHNAME = some 0) ∧
    mrb_file_fnmatch "**/*".toList ".git/config".toList MRB_FNM_PATHNAME
      = some MRB_FNM_NOMATCH ∧
    mrb_file_fnmatch "**/*".toList "a/.git/config".toList MRB_FNM_PATHNAME
      = some MRB_FNM_NOMATCH :=
  ⟨(recursive_wildcard_skips_no_dot_segment MRB_FNM_PATHNAME (by decide) (by decide)).1
      "*.c".toList "src/main.c".toList (by decide) (by decide),
   (recursive_wildcard_skips_no_dot_segment MRB_FNM_PATHNAME (by decide) (by decide)).2⟩

/-! ## A dangling backslash at the end of the pattern: C13 -/

/-- Lockstep simulation: related start states give related results. -/
theorem reaches_sim {σ₁ σ₂ ρ₁ ρ₂ : Type} {step₁ : σ₁ → σ₁ ⊕ ρ₁} {step₂ : σ₂ → σ₂ ⊕ ρ₂}
    (R : σ₁ → σ₂ → Prop) (Q : ρ₁ → ρ₂ → Prop)
    (h : ∀ a b, R a b → StepRel R Q (step₁ a) (step₂ b))
    {a : σ₁} {r₁ : ρ₁} (hr : Reaches step₁ a r₁) :
    ∀ b, R a b → ∃ r₂, Reaches step₂ b r₂ ∧ Q r₁ r₂ := by
  induction hr with
  | done hs =>
    intro b hab
    have := h _ b hab
    rw [hs] at this
    cases hb : step₂ b with
    | inl b' => rw [hb] at this; exact this.elim
    | inr r₂ => rw [hb] at this; exact ⟨r₂, Reaches.done hb, this⟩
  | next hs _ ih =>
    intro b hab
    have := h _ b hab
    rw [hs] at this
    cases hb : step₂ b with
    | inl b' =>
      rw [hb] at this
      obtain ⟨r₂, h1, h2⟩ := ih b' this
      exact ⟨r₂, Reaches.next hb h1, h2⟩
    | inr r₂ => rw [hb] at this; exact this.elim

/-- Lockstep simulation of two bounded runs that both end. -/
theorem iterate_sim {σ₁ σ₂ ρ₁ ρ₂ : Type} {step₁ : σ₁ → σ₁ ⊕ ρ₁} {step₂ : σ₂ → σ₂ ⊕ ρ₂}
    (R : σ₁ → σ₂ → Prop) (Q : ρ₁ → ρ₂ → Prop)
    (h : ∀ a b, R a b → StepRel R Q (step₁ a) (step₂ b))
    {a : σ₁} {b : σ₂} (hab : R a b) {n m : Nat} {r₁ : ρ₁} {r₂ : ρ₂}
    (h1 : iterate step₁ n a = some r₁) (h2 : iterate step₂ m b = some r₂) : Q r₁ r₂ := by
  obtain ⟨r, hr, hq⟩ := reaches_sim R Q h (reaches_of_iterate _ _ _ h1) b hab
  rw [reaches_det (reaches_of_iterate _ _ _ h2) hr]
  exact hq

theorem escapes_paired_cons {c : Char} (hc : c ≠ '\\') (r : List Char) :
    escapes_paired (c :: r) = escapes_paired r := by
  rcases r with _ | ⟨d, r⟩
  · simp [escapes_paired, hc]
  · simp [escapes_paired, hc]

theorem escapes_paired_esc (d : Char) (r : List Char) :
    escapes_paired ('\\' :: d :: r) = escapes_paired r := by
  simp [escapes_paired]

theorem escapes_paired_single : escapes_paired ['\\'] = false := by
  decide

/-- The three shapes of a text without a dangling escape. -/
theorem escapes_paired_cases {p : List Char} (h : escapes_paired p = true) :
    p = [] ∨ (∃ c r, c ≠ '\\' ∧ p = c :: r ∧ escapes_paired r = true) ∨
      (∃ d r, p = '\\' :: d :: r ∧ escapes_paired r = true) := by
  rcases p with _ | ⟨c, r⟩
  · exact Or.inl rfl
  · by_cases hc : c = '\\'
    · subst hc
      rcases r with _ | ⟨d, r⟩
      · simp [escapes_paired] at h
      · rw [escapes_paired_esc] at h
        exact Or.inr (Or.inr ⟨d, r, rfl, h⟩)
    · rw [escapes_paired_cons hc] at h
      exact Or.inr (Or.inl ⟨c, r, hc, rfl, h⟩)

theorem deref_dangling (p : List Char) (k : Char) (h1 : k ≠ '\\') (h2 : k ≠ '\x00') :
    (deref (p ++ ['\\']) == k) = (deref p == k) := by
  rcases p with _ | ⟨c, p⟩
  · have e1 : ('\\' == k) = false := by simpa using fun e => h1 e.symm
    have e2 : ('\x00' == k) = false := by simpa using fun e => h2 e.symm
    simp [e1, e2]
  · rfl

theorem Next_dangling {p : List Char} (h : p ≠ []) : Next (p ++ ['\\']) = Next p ++ ['\\'] := by
  rcases p with _ | ⟨c, p⟩
  · exact absurd rfl h
  · rfl

/-- Reading one pattern byte, escaped or not, in front of a dangling
backslash. -/
theorem unescape_dangling {flags : Nat} (hesc : escape flags = true) {p : List Char}
    (hp : escapes_paired p = true) :
    deref (UNESCAPE flags (p ++ ['\\'])) = deref (UNESCAPE flags p) ∧
    (UNESCAPE flags p = [] → UNESCAPE flags (p ++ ['\\']) = []) ∧
    (UNESCAPE flags p ≠ [] →
      UNESCAPE flags (p ++ ['\\']) = UNESCAPE flags p ++ ['\\'] ∧
      escapes_paired (Next (UNESCAPE flags p)) = true) := by
  rcases escapes_paired_cases hp with rfl | ⟨c, r, hc, rfl, hr⟩ | ⟨d, r, rfl, hr⟩
  · simp [UNESCAPE, hesc]
  · simp [UNESCAPE, hesc, hc, hr]
  · simp [UNESCAPE, hesc, hr]

theorem bracket_step_dangling {flags : Nat} (hesc : escape flags = true) (s : List Char)
    (nope : Bool) (a b : List Char × Bool) (hab : BDangling a b) :
    StepRel BDangling BDanglingPost (bracket_step flags s nope a) (bracket_step flags s nope b) := by
  obtain ⟨p, ok⟩ := b
  obtain ⟨p₁, ok₁⟩ := a
  obtain ⟨⟨h1, hp⟩, h2⟩ := hab
  simp only at h1 h2 hp
  subst h1 h2
  have e0 : ∀ q : List Char, (if (escape flags && deref q == '\\') = true then Next q else q)
      = UNESCAPE flags q := fun q => rfl
  simp only [bracket_step, e0, bne, deref_dangling p ']' (by decide) (by decide)]
  by_cases h1 : deref p = ']'
  · have hne : p ≠ [] := by rintro rfl; simp at h1
    have hp' : escapes_paired (Next p) = true := by
      rcases p with _ | ⟨c, r⟩
      · exact absurd rfl hne
      · simp only [deref_cons] at h1
        subst h1
        rw [escapes_paired_cons (by decide)] at hp
        exact hp
    simp only [h1, beq_self_eq_true, Bool.not_true, Bool.false_eq_true, if_false,
      Next_dangling hne]
    split_ifs
    · trivial
    · exact ⟨rfl, hp'⟩
  · obtain ⟨u1, u2, u3⟩ := unescape_dangling hesc hp
    have h1' : (deref p == ']') = false := by simpa using h1
    simp only [h1', Bool.not_false, if_true, u1]
    by_cases h0 : deref (UNESCAPE flags p) = '\x00'
    · simp only [h0, beq_self_eq_true, if_true]
      trivial
    · have hne : UNESCAPE flags p ≠ [] := by
        intro e
        rw [e] at h0
        exact h0 rfl
      obtain ⟨u4, u5⟩ := u3 hne
      have h0' : (deref (UNESCAPE flags p) == '\x00') = false := by simpa using h0
      simp only [h0', Bool.false_eq_true, if_false, u4, Next_dangling hne,
        deref_dangling _ '-' (by decide) (by decide)]
      have hc1 : Compare flags (UNESCAPE flags p ++ ['\\']) s = Compare flags (UNESCAPE flags p) s := by
        simp only [Compare, ← u4, u1]
      by_cases hd : deref (Next (UNESCAPE flags p)) = '-'
      · have hne2 : Next (UNESCAPE flags p) ≠ [] := by
          intro e
          rw [e] at hd
          exact absurd hd (by decide)
        have hp2 : escapes_paired (Next (Next (UNESCAPE flags p))) = true := by
          generalize Next (UNESCAPE flags p) = q at hd u5 hne2
          rcases q with _ | ⟨c, r⟩
          · exact absurd rfl hne2
          · simp only [deref_cons] at hd
            subst hd
            rw [escapes_paired_cons (by decide)] at u5
            exact u5
        obtain ⟨v1, v2, v3⟩ := unescape_dangling hesc hp2
        simp only [hd, beq_self_eq_true, Bool.true_and, Next_dangling hne2,
          deref_dangling _ ']' (by decide) (by decide), v1]
        by_cases hcl : deref (Next (Next (UNESCAPE flags p))) = ']'
        · simp only [hcl, beq_self_eq_true, Bool.not_true, Bool.false_eq_true, if_false, hc1]
          exact ⟨⟨rfl, u5⟩, rfl⟩
        · have hcl' : (deref (Next (Next (UNESCAPE flags p))) == ']') = false := by simpa using hcl
          simp only [hcl', Bool.not_false, if_true]
          by_cases h00 : deref (UNESCAPE flags (Next (Next (UNESCAPE flags p)))) = '\x00'
          · simp only [h00, beq_self_eq_true, if_true]
            trivial
          · have hne3 : UNESCAPE flags (Next (Next (UNESCAPE flags p))) ≠ [] := by
              intro e
              rw [e] at h00
              exact h00 rfl
            obtain ⟨v4, v5⟩ := v3 hne3
            have h00' : (deref (UNESCAPE flags (Next (Next (UNESCAPE flags p)))) == '\x00')
                = false := by simpa using h00
            have hc2 : Compare flags s (UNESCAPE flags (Next (Next (UNESCAPE flags p))) ++ ['\\'])
                = Compare flags s (UNESCAPE flags (Next (Next (UNESCAPE flags p)))) := by
              simp only [Compare, ← v4, v1]
            simp only [h00', Bool.false_eq_true, if_false, hc1, hc2, v4, Next_dangling hne3]
            exact ⟨⟨rfl, v5⟩, rfl⟩
      · have hd' : (deref (Next (UNESCAPE flags p)) == '-') = false := by simpa using hd
        simp only [hd', Bool.false_and, Bool.false_eq_true, if_false, hc1]
        exact ⟨⟨rfl, u5⟩, rfl⟩

theorem bracket_dangling {flags : Nat} (hesc : escape flags = true) {p : List Char}
    (hp : escapes_paired p = true) (s : List Char) :
    ∃ r₁ r₂, bracket flags (p ++ ['\\']) s = some r₁ ∧ bracket flags p s = some r₂ ∧
      BDanglingPost r₁ r₂ := by
  obtain ⟨r₁, h1⟩ := bracket_total flags (p ++ ['\\']) s
  obtain ⟨r₂, h2⟩ := bracket_total flags p s
  refine ⟨r₁, r₂, h1, h2, ?_⟩
  unfold bracket at h1 h2
  simp only [deref_dangling p '!' (by decide) (by decide),
    deref_dangling p '^' (by decide) (by decide)] at h1
  refine iterate_sim BDangling BDanglingPost (bracket_step_dangling hesc s _) ?_ h1 h2
  refine ⟨?_, rfl⟩
  by_cases hn : (deref p == '!' || deref p == '^') = true
  · simp only [hn, if_true]
    rcases p with _ | ⟨c, r⟩
    · simp at hn
    · have hc : c ≠ '\\' := by
        rintro rfl
        simp at hn
      rw [escapes_paired_cons hc] at hp
      exact ⟨rfl, hp⟩
  · simp only [hn, if_false]
    exact ⟨rfl, hp⟩

theorem skip_stars_dangling {r : List Char} (hr : escapes_paired r = true) :
    (r ++ ['\\']).dropWhile (fun c => c == '*') = r.dropWhile (fun c => c == '*') ++ ['\\'] ∧
      escapes_paired (r.dropWhile (fun c => c == '*')) = true := by
  induction r with
  | nil => exact ⟨by decide, rfl⟩
  | cons c r ih =>
    by_cases hc : c = '*'
    · subst hc
      rw [escapes_paired_cons (by decide)] at hr
      simpa using ih hr
    · simp [hc, hr]

theorem ISEND_congr {flags : Nat} {x y : List Char} (h : deref x = deref y) :
    ISEND flags x = ISEND flags y := by
  simp only [ISEND, h]

theorem Compare_congr {flags : Nat} {x y : List Char} (h : deref x = deref y) (s : List Char) :
    Compare flags x s = Compare flags y s := by
  simp only [Compare, h]

theorem helper_failed_dangling {p₁ p₂ s : List Char} {pt₁ pt₂ st : Option (List Char)}
    (hpt : match pt₁, pt₂ with
      | none, none => True
      | some x, some y => Dangling x y
      | _, _ => False) :
    StepRel HDangling HDanglingPost (helper_failed p₁ s pt₁ st) (helper_failed p₂ s pt₂ st) := by
  have hne : MRB_FNM_NOMATCH ≠ 0 := by decide
  rcases pt₁ with _ | x <;> rcases pt₂ with _ | y <;> rcases st with _ | st <;>
    simp_all [helper_failed, StepRel, HDanglingPost, HDangling]

/-- What `fnmatch_helper` stores back as the pattern cursor, with and without
the dangling backslash. -/
theorem unescape_dangling_post {flags : Nat} (hesc : escape flags = true) {p : List Char}
    (hp : escapes_paired p = true) :
    deref (UNESCAPE flags (p ++ ['\\'])) = deref (UNESCAPE flags p) ∧
    (deref (UNESCAPE flags p) ≠ '\x00' →
      Dangling (Next (UNESCAPE flags (p ++ ['\\']))) (Next (UNESCAPE flags p))) := by
  obtain ⟨u1, -, u3⟩ := unescape_dangling hesc hp
  refine ⟨u1, fun h0 => ?_⟩
  have hne : UNESCAPE flags p ≠ [] := by
    intro e
    rw [e] at h0
    exact h0 rfl
  obtain ⟨u4, u5⟩ := u3 hne
  rw [u4, Next_dangling hne]
  exact ⟨rfl, u5⟩

theorem escapes_paired_next {p : List Char} {c : Char} (hp : escapes_paired p = true)
    (hd : deref p = c) (hc : c ≠ '\\') (hc0 : c ≠ '\x00') :
    p ≠ [] ∧ escapes_paired (Next p) = true := by
  rcases p with _ | ⟨d, r⟩
  · exact absurd hd.symm hc0
  · simp only [deref_cons] at hd
    subst hd
    rw [escapes_paired_cons hc] at hp
    exact ⟨by simp, hp⟩

theorem helper_step_dangling {flags : Nat} (hesc : escape flags = true)
    (a b : List Char × List Char × Option (List Char) × Option (List Char))
    (hab : HDangling a b) :
    StepRel HDangling HDanglingPost (helper_step flags a) (helper_step flags b) := by
  obtain ⟨p, s, pt, st⟩ := b
  obtain ⟨p₁, s₁, pt₁, st₁⟩ := a
  obtain ⟨⟨h1, hp⟩, h2, hpt, h3⟩ := hab
  simp only at h1 h2 h3 hp hpt
  subst h1 h2 h3
  have hne : MRB_FNM_NOMATCH ≠ 0 := by decide
  simp only [helper_step, deref_dangling p '*' (by decide) (by decide),
    deref_dangling p '?' (by decide) (by decide), deref_dangling p '[' (by decide) (by decide)]
  by_cases hstar : deref p = '*'
  · obtain ⟨hpne, hp1⟩ := escapes_paired_next hp hstar (by decide) (by decide)
    obtain ⟨k1, k2⟩ := skip_stars_dangling hp1
    obtain ⟨u1, u2⟩ := unescape_dangling_post hesc k2
    simp only [hstar, beq_self_eq_true, if_true, Next_dangling hpne, k1, ISEND_congr u1]
    split_ifs with i1 i2
    · exact ⟨rfl, rfl, fun _ => ⟨u1, u2⟩⟩
    · exact ⟨rfl, rfl, fun h => absurd h hne⟩
    · exact ⟨⟨rfl, k2⟩, rfl, ⟨rfl, k2⟩, rfl⟩
  have hstar' : (deref p == '*') = false := by simpa using hstar
  simp only [hstar', Bool.false_eq_true, if_false]
  by_cases hq : deref p = '?'
  · obtain ⟨hpne, hp1⟩ := escapes_paired_next hp hq (by decide) (by decide)
    simp only [hq, beq_self_eq_true, if_true, Next_dangling hpne]
    split_ifs with i1
    · exact ⟨rfl, rfl, fun h => absurd h hne⟩
    · exact ⟨⟨rfl, hp1⟩, rfl, hpt, rfl⟩
  have hq' : (deref p == '?') = false := by simpa using hq
  simp only [hq', Bool.false_eq_true, if_false]
  by_cases hbr : deref p = '['
  · obtain ⟨hpne, hp1⟩ := escapes_paired_next hp hbr (by decide) (by decide)
    simp only [hbr, beq_self_eq_true, if_true, Next_dangling hpne]
    split_ifs with i1
    · exact ⟨rfl, rfl, fun h => absurd h hne⟩
    · obtain ⟨r₁, r₂, e1, e2, hpost⟩ := bracket_dangling hesc hp1 s₁
      rw [e1, e2]
      rcases r₁ with _ | t₁ <;> rcases r₂ with _ | t₂
      · exact helper_failed_dangling hpt
      · exact hpost.elim
      · exact hpost.elim
      · exact ⟨hpost, rfl, hpt, rfl⟩
  have hbr' : (deref p == '[') = false := by simpa using hbr
  simp only [hbr', Bool.false_eq_true, if_false]
  obtain ⟨u1, u2⟩ := unescape_dangling_post hesc hp
  simp only [ISEND_congr u1, Compare_congr u1]
  split_ifs with i1 i2 i3 i4
  · exact ⟨rfl, rfl, fun _ => ⟨u1, u2⟩⟩
  · exact ⟨rfl, rfl, fun h => absurd h hne⟩
  · exact helper_failed_dangling hpt
  · exact helper_failed_dangling hpt
  · have hI : ¬ ISEND flags (UNESCAPE flags p) = true := by assumption
    have h0 : deref (UNESCAPE flags p) ≠ '\x00' := by
      intro e
      simp [ISEND, e] at hI
    exact ⟨u2 h0, rfl, hpt, rfl⟩

theorem fnmatch_helper_dangling {flags : Nat} (hesc : escape flags = true) {p : List Char}
    (hp : escapes_paired p = true) (s : List Char) :
    HDanglingPost (fnmatch_helper flags (p ++ ['\\']) s) (fnmatch_helper flags p s) := by
  have hne : MRB_FNM_NOMATCH ≠ 0 := by decide
  obtain ⟨u1, -⟩ := unescape_dangling_post hesc hp
  unfold fnmatch_helper
  rw [u1]
  split_ifs
  · exact ⟨rfl, rfl, fun h => absurd h hne⟩
  · obtain ⟨r₁, h1⟩ := helper_loop_total flags (p ++ ['\\']) s
    obtain ⟨r₂, h2⟩ := helper_loop_total flags p s
    have := iterate_sim HDangling HDanglingPost (helper_step_dangling hesc)
      (a := (p ++ ['\\'], s, none, none)) (b := (p, s, none, none))
      ⟨⟨rfl, hp⟩, rfl, trivial, rfl⟩ h1 h2
    rw [h1, h2]
    exact this

theorem is_recursive_dangling (p : List Char) :
    is_recursive (p ++ ['\\']) = is_recursive p := by
  rcases p with _ | ⟨a, _ | ⟨b, _ | ⟨c, r⟩⟩⟩
  · decide
  · have : ('\\' == '*') = false := by decide
    simp [is_recursive, this]
  · have : ('\\' == '/') = false := by decide
    simp [is_recursive, this]
  · rfl

theorem skip_recursive_dangling :
    ∀ p : List Char, escapes_paired p = true →
      skip_recursive (p ++ ['\\']) = skip_recursive p ++ ['\\'] ∧
        escapes_paired (skip_recursive p) = true
  | [], _ => ⟨rfl, rfl⟩
  | [a], h => ⟨rfl, h⟩
  | [a, b], h => ⟨by
      have : ('\\' == '/') = false := by decide
      simp [skip_recursive, this], h⟩
  | a :: b :: c :: rest, h => by
    by_cases hc : (a == '*' && b == '*' && c == '/') = true
    · simp only [Bool.and_eq_true, beq_iff_eq] at hc
      obtain ⟨⟨rfl, rfl⟩, rfl⟩ := hc
      rw [escapes_paired_cons (by decide), escapes_paired_cons (by decide),
        escapes_paired_cons (by decide)] at h
      have ih := skip_recursive_dangling rest h
      simpa [skip_recursive] using ih
    · have hc' : (a == '*' && b == '*' && c == '/') = false := by simpa using hc
      simp only [List.cons_append, skip_recursive, hc']
      exact ⟨rfl, h⟩

theorem path_failed_dangling (flags : Nat) {pt₁ pt₂ st : Option (List Char)}
    (hpt : match pt₁, pt₂ with
      | none, none => True
      | some x, some y => Dangling x y
      | _, _ => False) :
    StepRel HDangling (fun r₁ r₂ : Option Int => r₁ = r₂)
      (path_failed flags pt₁ st) (path_failed flags pt₂ st) := by
  rcases pt₁ with _ | x <;> rcases pt₂ with _ | y <;> rcases st with _ | st <;>
    simp_all [path_failed, StepRel]
  split_ifs <;> simp_all [HDangling]

theorem path_step_eq_round (flags : Nat) (p s : List Char) (pt st : Option (List Char)) :
    path_step flags (p, s, pt, st) =
      path_round flags (if is_recursive p = true then skip_recursive p else p) s
        (if is_recursive p = true then some (skip_recursive p) else pt)
        (if is_recursive p = true then some s else st) := by
  by_cases h : is_recursive p = true <;> simp only [path_step, path_round, h, if_true] <;> rfl

theorem path_round_dangling {flags : Nat} (hesc : escape flags = true) {q : List Char}
    (hq : escapes_paired q = true) (s : List Char) {pt₁ pt₂ : Option (List Char)}
    (st : Option (List Char))
    (hpt : match pt₁, pt₂ with
      | none, none => True
      | some x, some y => Dangling x y
      | _, _ => False) :
    StepRel HDangling (fun r₁ r₂ : Option Int => r₁ = r₂)
      (path_round flags (q ++ ['\\']) s pt₁ st) (path_round flags q s pt₂ st) := by
  have hh := fnmatch_helper_dangling hesc hq s
  unfold path_round
  rcases h1 : fnmatch_helper flags (q ++ ['\\']) s with _ | ⟨v₁, p₁', s₁'⟩ <;>
    rcases h2 : fnmatch_helper flags q s with _ | ⟨v₂, p₂', s₂'⟩ <;>
    rw [h1, h2] at hh
  · trivial
  · exact hh.elim
  · exact hh.elim
  · obtain ⟨rfl, rfl, hv⟩ := hh
    simp only
    by_cases hv0 : v₁ = 0
    · obtain ⟨d1, d2⟩ := hv hv0
      simp only [hv0, beq_self_eq_true, if_true, d1]
      split_ifs with i1 i2
      · have h0 : deref p₂' ≠ '\x00' := by
          intro e
          simp [e] at i1
        exact ⟨d2 h0, rfl, hpt, rfl⟩
      · rfl
      · exact path_failed_dangling flags hpt
    · have : (v₁ == 0) = false := by simpa using hv0
      simp only [this, Bool.false_eq_true, if_false]
      exact path_failed_dangling flags hpt

theorem path_step_dangling {flags : Nat} (hesc : escape flags = true)
    (a b : List Char × List Char × Option (List Char) × Option (List Char))
    (hab : HDangling a b) :
    StepRel HDangling (fun r₁ r₂ : Option Int => r₁ = r₂)
      (path_step flags a) (path_step flags b) := by
  obtain ⟨p, s, pt, st⟩ := b
  obtain ⟨p₁, s₁, pt₁, st₁⟩ := a
  obtain ⟨⟨h1, hp⟩, h2, hpt, h3⟩ := hab
  simp only at h1 h2 h3 hp hpt
  subst h1 h2 h3
  obtain ⟨k1, k2⟩ := skip_recursive_dangling p hp
  rw [path_step_eq_round, path_step_eq_round, is_recursive_dangling, k1]
  by_cases hrec : is_recursive p = true
  · simp only [hrec, if_true]
    exact path_round_dangling hesc k2 s₁ _ ⟨rfl, k2⟩
  · simp only [hrec, if_false]
    exact path_round_dangling hesc hp s₁ _ hpt

/-- The claim C13 fails as stated: with flags `0` the pattern `a\` matches
the candidate `a`, and the pattern `*\` matches `abc`. -/
theorem dangling_escape_counterexample :
    mrb_file_fnmatch ['a', '\\'] ['a'] 0 = some 0 ∧
    mrb_file_fnmatch ['*', '\\'] "abc".toList 0 = some 0 := by
  decide

/-- C13 (amended): without `NOESCAPE`, a backslash that is the last byte of
the pattern and escapes nothing is ignored: for every text `q` whose own
escapes are all paired and every candidate `s`, the pattern `q` followed by a
backslash gives the same result as `q`; so `a\` matches exactly `a`. -/
theorem dangling_escape_ignored (flags : Nat) (q s : List Char) (hesc : escape flags = true)
    (hq : escapes_paired q = true) :
    mrb_file_fnmatch (q ++ ['\\']) s flags = mrb_file_fnmatch q s flags := by
  unfold mrb_file_fnmatch
  split_ifs
  · obtain ⟨r₁, h1⟩ := path_loop_total flags (q ++ ['\\']) s
    obtain ⟨r₂, h2⟩ := path_loop_total flags q s
    have := iterate_sim HDangling (fun r₁ r₂ : Option Int => r₁ = r₂) (path_step_dangling hesc)
      (a := (q ++ ['\\'], s, none, none)) (b := (q, s, none, none))
      ⟨⟨rfl, hq⟩, rfl, trivial, rfl⟩ h1 h2
    rw [h1, h2, this]
  · have hh := fnmatch_helper_dangling hesc hq s
    rcases h1 : fnmatch_helper flags (q ++ ['\\']) s with _ | ⟨v₁, p₁', s₁'⟩ <;>
      rcases h2 : fnmatch_helper flags q s with _ | ⟨v₂, p₂', s₂'⟩ <;>
      rw [h1, h2] at hh
    · exact hh.elim
    · exact hh.elim
    · obtain ⟨rfl, -, -⟩ := hh
      rfl

/-- C13 (amended) at a concrete input: `[a-c]*\` against `bcd`, flags `0`. -/
theorem dangling_escape_ignored_witness :
    mrb_file_fnmatch ("[a-c]*".toList ++ ['\\']) "bcd".toList 0 =
      mrb_file_fnmatch "[a-c]*".toList "bcd".toList 0 :=
  dangling_escape_ignored 0 "[a-c]*".toList "bcd".toList (by decide) (by decide)

/-! ## A run of stars outside pathname mode: C18 -/

theorem starpair_deref {b p₁ p₂ : List Char} (h : StarPair b p₁ p₂) : deref p₁ = deref p₂ := by
  rcases h with ⟨x, -, rfl, rfl⟩ | rfl
  · rcases x with _ | ⟨c, x⟩ <;> rfl
  · rfl

theorem starpair_unescape {flags : Nat} {b p₁ p₂ : List Char} (h : StarPair b p₁ p₂) :
    deref (UNESCAPE flags p₁) = deref (UNESCAPE flags p₂) := by
  rcases h with ⟨x, hx, rfl, rfl⟩ | rfl
  · rcases x with _ | ⟨c, x⟩
    · have : ('*' == '\\') = false := by decide
      simp [UNESCAPE, this]
    · have hc := (hx c (List.mem_cons_self c x)).2
      simp [UNESCAPE, hc]
  · rfl

theorem starpair_skip_stars {b p₁ p₂ : List Char} (h : StarPair b p₁ p₂) :
    StarPair b (p₁.dropWhile (fun c => c == '*')) (p₂.dropWhile (fun c => c == '*')) := by
  rcases h with ⟨x, hx, rfl, rfl⟩ | rfl
  · induction x with
    | nil => exact Or.inr (by simp)
    | cons c x ih =>
      by_cases hc : c = '*'
      · subst hc
        simpa using ih (fun d hd => hx d (List.mem_cons_of_mem _ hd))
      · simp only [List.cons_append, List.dropWhile_cons, beq_iff_eq, hc, if_false]
        exact Or.inl ⟨c :: x, hx, rfl, rfl⟩
  · exact Or.inr rfl

theorem starpair_next {b p₁ p₂ : List Char} (h : StarPair b p₁ p₂) (hs : deref p₂ ≠ '*') :
    StarPair b (Next p₁) (Next p₂) := by
  rcases h with ⟨x, hx, rfl, rfl⟩ | rfl
  · rcases x with _ | ⟨c, x⟩
    · exact absurd rfl hs
    · exact Or.inl ⟨x, fun d hd => hx d (List.mem_cons_of_mem _ hd), rfl, rfl⟩
  · exact Or.inr rfl

theorem helper_failed_star {b p₁ p₂ s : List Char} {pt₁ pt₂ st : Option (List Char)}
    (hpt : match pt₁, pt₂ with
      | none, none => True
      | some x, some y => StarPair b x y
      | _, _ => False) :
    StepRel (HStar b) HStarPost (helper_failed p₁ s pt₁ st) (helper_failed p₂ s pt₂ st) := by
  rcases pt₁ with _ | x <;> rcases pt₂ with _ | y <;> rcases st with _ | st <;>
    simp_all [helper_failed, StepRel, HStarPost, HStar]

theorem skip_stars_next {p : List Char} (h : deref p = '*') :
    (Next p).dropWhile (fun c => c == '*') = p.dropWhile (fun c => c == '*') := by
  rcases p with _ | ⟨c, r⟩
  · rfl
  · simp only [deref_cons] at h
    subst h
    simp

theorem starpair_bracket {b p₁ p₂ : List Char} (h : StarPair b p₁ p₂) (hb : deref p₂ = '[') :
    p₁ = p₂ := by
  rcases h with ⟨x, hx, rfl, rfl⟩ | rfl
  · rcases x with _ | ⟨c, x⟩
    · have : ('*' : Char) ≠ '[' := by decide
      exact absurd hb this
    · exact absurd hb (hx c (List.mem_cons_self c x)).1
  · rfl

theorem starpair_next_unescape {flags : Nat} {b p₁ p₂ : List Char} (h : StarPair b p₁ p₂)
    (hs : deref p₂ ≠ '*') :
    StarPair b (Next (UNESCAPE flags p₁)) (Next (UNESCAPE flags p₂)) := by
  rcases h with ⟨x, hx, rfl, rfl⟩ | rfl
  · rcases x with _ | ⟨c, x⟩
    · exact absurd rfl hs
    · have hc := (hx c (List.mem_cons_self c x)).2
      have hc' : (c == '\\') = false := by simpa using hc
      simp only [UNESCAPE, List.cons_append, deref_cons, hc', Bool.and_false,
        Bool.false_eq_true, if_false, Next_cons]
      exact Or.inl ⟨x, fun d hd => hx d (List.mem_cons_of_mem _ hd), rfl, rfl⟩
  · exact Or.inr rfl

theorem helper_step_star {flags : Nat} (b : List Char)
    (a₁ a₂ : List Char × List Char × Option (List Char) × Option (List Char))
    (hab : HStar b a₁ a₂) :
    StepRel (HStar b) HStarPost (helper_step flags a₁) (helper_step flags a₂) := by
  obtain ⟨p, s, pt, st⟩ := a₂
  obtain ⟨p₁, s₁, pt₁, st₁⟩ := a₁
  obtain ⟨hp, h2, hpt, h3⟩ := hab
  simp only at h2 h3 hp hpt
  subst h2 h3
  have hd := starpair_deref hp
  simp only [helper_step, hd]
  by_cases hstar : deref p = '*'
  · have hsk := starpair_skip_stars hp
    rw [← skip_stars_next (hd.trans hstar), ← skip_stars_next hstar] at hsk
    have hu := @starpair_unescape flags _ _ _ hsk
    simp only [hstar, beq_self_eq_true, if_true, ISEND_congr hu]
    split_ifs
    · exact ⟨rfl, rfl⟩
    · exact ⟨rfl, rfl⟩
    · exact ⟨hsk, rfl, hsk, rfl⟩
  have hstar' : (deref p == '*') = false := by simpa using hstar
  simp only [hstar', Bool.false_eq_true, if_false]
  by_cases hq : deref p = '?'
  · simp only [hq, beq_self_eq_true, if_true]
    split_ifs
    · exact ⟨rfl, rfl⟩
    · exact ⟨starpair_next hp hstar, rfl, hpt, rfl⟩
  have hq' : (deref p == '?') = false := by simpa using hq
  simp only [hq', Bool.false_eq_true, if_false]
  by_cases hbr : deref p = '['
  · have := starpair_bracket hp hbr
    subst this
    simp only [hbr, beq_self_eq_true, if_true]
    split_ifs
    · exact ⟨rfl, rfl⟩
    · rcases bracket flags (Next p₁) s₁ with _ | _ | t
      · trivial
      · exact helper_failed_star hpt
      · exact ⟨Or.inr rfl, rfl, hpt, rfl⟩
  have hbr' : (deref p == '[') = false := by simpa using hbr
  simp only [hbr', Bool.false_eq_true, if_false]
  have hu := @starpair_unescape flags _ _ _ hp
  simp only [ISEND_congr hu, Compare_congr hu]
  split_ifs
  · exact ⟨rfl, rfl⟩
  · exact ⟨rfl, rfl⟩
  · exact helper_failed_star hpt
  · exact helper_failed_star hpt
  · exact ⟨starpair_next_unescape hp hstar, rfl, hpt, rfl⟩

/-- C18: outside pathname mode, two stars in a row behind a text `a` without
`[` and backslash match what one star matches there: `a**b` and `a*b` give
the same result on every candidate. -/
theorem star_run_collapses (flags : Nat) (a b s : List Char) (hpath : pathname flags = false)
    (ha : ∀ c ∈ a, c ≠ '[' ∧ c ≠ '\\') :
    mrb_file_fnmatch (a ++ '*' :: '*' :: b) s flags = mrb_file_fnmatch (a ++ '*' :: b) s flags := by
  have hp : StarPair b (a ++ '*' :: '*' :: b) (a ++ '*' :: b) := Or.inl ⟨a, ha, rfl, rfl⟩
  have hu := @starpair_unescape flags _ _ _ hp
  simp only [mrb_file_fnmatch, hpath, Bool.false_eq_true, if_false, fnmatch_helper, hu]
  split_ifs
  · rfl
  · obtain ⟨r₁, h1⟩ := helper_loop_total flags (a ++ '*' :: '*' :: b) s
    obtain ⟨r₂, h2⟩ := helper_loop_total flags (a ++ '*' :: b) s
    have := iterate_sim (HStar b) HStarPost (helper_step_star b)
      (a := (a ++ '*' :: '*' :: b, s, none, none)) (b := (a ++ '*' :: b, s, none, none))
      ⟨hp, rfl, trivial, rfl⟩ h1 h2
    rw [h1, h2]
    rcases r₁ with _ | ⟨v₁, p₁', s₁'⟩ <;> rcases r₂ with _ | ⟨v₂, p₂', s₂'⟩
    · rfl
    · exact this.elim
    · exact this.elim
    · obtain ⟨rfl, -⟩ := this
      rfl

/-- C18 at a concrete input: `x?**[a-c]` and `x?*[a-c]` against `xyzb` with
`CASEFOLD`. -/
theorem star_run_collapses_witness :
    mrb_file_fnmatch ("x?".toList ++ '*' :: '*' :: "[a-c]".toList) "xyzb".toList
        MRB_FNM_CASEFOLD =
      mrb_file_fnmatch ("x?".toList ++ '*' :: "[a-c]".toList) "xyzb".toList MRB_FNM_CASEFOLD :=
  star_run_collapses MRB_FNM_CASEFOLD "x?".toList "[a-c]".toList "xyzb".toList (by decide)
    (by decide)

/-! ## Single-checkpoint backtracking against the naive glob relation: C15 -/

theorem G_nil (s : List Char) : G [] s ↔ s = [] := by
  constructor
  · intro h; cases h; rfl
  · rintro rfl; exact G.nil

theorem G_star (p s : List Char) :
    G ('*' :: p) s ↔ G p s ∨ (s ≠ [] ∧ G ('*' :: p) s.tail) := by
  constructor
  · intro h
    cases h with
    | star_skip h => exact Or.inl h
    | star_take c h => exact Or.inr ⟨by simp, h⟩
    | other x h1 _ _ => exact absurd rfl h1
  · rintro (h | ⟨hs, h⟩)
    · exact G.star_skip h
    · rcases s with _ | ⟨c, s⟩
      · exact absurd rfl hs
      · exact G.star_take c h

theorem G_quest (p s : List Char) : G ('?' :: p) s ↔ s ≠ [] ∧ G p s.tail := by
  constructor
  · intro h
    cases h with
    | quest c h => exact ⟨by simp, h⟩
    | other x _ h2 _ => exact absurd rfl h2
  · rintro ⟨hs, h⟩
    rcases s with _ | ⟨c, s⟩
    · exact absurd rfl hs
    · exact G.quest c h

theorem G_other (x : Char) (p s : List Char) (h1 : x ≠ '*') (h2 : x ≠ '?') :
    G (x :: p) s ↔ s ≠ [] ∧ s.head? = some x ∧ G p s.tail := by
  constructor
  · intro h
    cases h with
    | star_skip _ => exact absurd rfl h1
    | star_take _ _ => exact absurd rfl h1
    | quest _ _ => exact absurd rfl h2
    | other x _ _ h => exact ⟨by simp, rfl, h⟩
  · rintro ⟨hs, hh, h⟩
    rcases s with _ | ⟨c, s⟩
    · exact absurd rfl hs
    · simp only [List.head?_cons, Option.some.injEq] at hh
      subst hh
      exact G.other c h1 h2 h

/-- A star matches any front part of the candidate. -/
theorem G_star_iff (p s : List Char) : G ('*' :: p) s ↔ ∃ t, t <:+ s ∧ G p t := by
  induction s with
  | nil =>
    rw [G_star]
    constructor
    · rintro (h | ⟨h, -⟩)
      · exact ⟨[], List.suffix_refl _, h⟩
      · exact absurd rfl h
    · rintro ⟨t, ht, h⟩
      rw [List.suffix_nil] at ht
      subst ht
      exact Or.inl h
  | cons c s ih =>
    rw [G_star]
    constructor
    · rintro (h | ⟨-, h⟩)
      · exact ⟨_, List.suffix_refl _, h⟩
      · obtain ⟨t, ht, h⟩ := ih.mp h
        exact ⟨t, ht.trans (List.suffix_cons c s), h⟩
    · rintro ⟨t, ht, h⟩
      rcases List.suffix_cons_iff.mp ht with rfl | ht
      · exact Or.inl h
      · exact Or.inr ⟨by simp, ih.mpr ⟨t, ht, h⟩⟩

/-- A run of stars matches what one star matches. -/
theorem G_stars (r s : List Char) :
    G ('*' :: r) s ↔ ∃ t, t <:+ s ∧ G (r.dropWhile (fun c => c == '*')) t := by
  induction r generalizing s with
  | nil => exact G_star_iff [] s
  | cons c r ih =>
    by_cases hc : c = '*'
    · subst hc
      rw [G_star_iff]
      simp only [List.dropWhile_cons, beq_self_eq_true, if_true]
      constructor
      · rintro ⟨t, ht, h⟩
        obtain ⟨t', ht', h'⟩ := (ih t).mp h
        exact ⟨t', ht'.trans ht, h'⟩
      · rintro ⟨t, ht, h⟩
        exact ⟨t, ht, (ih t).mpr ⟨t, List.suffix_refl _, h⟩⟩
    · rw [G_star_iff]
      simp [hc]

theorem G_not_nil {c : Char} {p : List Char} (hc : c ≠ '*') : ¬ G (c :: p) [] := by
  intro h
  cases h with
  | star_skip _ => exact hc rfl

/-- A star-free front part of the pattern consumes as many candidate bytes as
it has pattern bytes. -/
theorem G_front (p : List Char) :
    ∀ (x t : List Char), '*' ∉ x → G (x ++ p) t →
      ∃ y t', t = y ++ t' ∧ y.length = x.length ∧ G p t' := by
  intro x
  induction x with
  | nil => intro t _ h; exact ⟨[], t, rfl, rfl, h⟩
  | cons c x ih =>
    intro t hx h
    simp only [List.mem_cons, not_or] at hx
    have hc : c ≠ '*' := fun e => hx.1 e.symm
    rcases t with _ | ⟨d, t⟩
    · exact absurd h (G_not_nil hc)
    · have h' : G (x ++ p) t := by
        cases h with
        | star_skip _ => exact absurd rfl hc
        | star_take _ _ => exact absurd rfl hc
        | quest _ h => exact h
        | other _ _ _ h => exact h
      obtain ⟨y, t', rfl, hy, hg⟩ := ih t hx.2 h'
      exact ⟨d :: y, t', rfl, by simp [hy], hg⟩

/-- A retry from the checkpoint can only match a candidate rest that is long
enough for the pattern piece between checkpoint and cursor. -/
theorem gcheckpoint_front {p s pt st t : List Char} (h : GCheckpoint p s pt st)
    (ht : t <:+ st) (hlt : t.length < st.length) (hg : G pt t) :
    ∃ t', t' <:+ s ∧ t'.length < s.length ∧ G p t' := by
  obtain ⟨x, y, rfl, rfl, hxy, hx⟩ := h
  obtain ⟨y', t', rfl, hy', hg'⟩ := G_front p x t hx hg
  obtain ⟨w, hw⟩ := ht
  refine ⟨t', ?_, ?_, hg'⟩
  · rw [← List.append_assoc] at hw
    rcases List.append_eq_append_iff.mp hw with ⟨a, ha, hb⟩ | ⟨c, hc, hd⟩
    · have h1 := congrArg List.length ha
      have h2 := congrArg List.length hb
      simp only [List.length_append] at h1 h2 hlt
      have : a = [] := List.length_eq_zero.mp (by omega)
      subst this
      simp only [List.nil_append] at hb
      exact ⟨[], by simp [hb]⟩
    · exact ⟨c, hd.symm⟩
  · simp only [List.length_append] at hlt ⊢
    omega

theorem helper_failed_glob {P p p' s : List Char} {ptmp stmp : Option (List Char)}
    (hinv : GInv P (p, s, ptmp, stmp)) (hs : s ≠ []) (hg : ¬ G p s) :
    GStepPost P (p, s, ptmp, stmp) (helper_failed p' s ptmp stmp) := by
  obtain ⟨hpP, hs0, hck⟩ := hinv
  rcases ptmp with _ | pt <;> rcases stmp with _ | st
  · refine ⟨MRB_FNM_NOMATCH, p', s, rfl, ?_⟩
    simp only [GAcc, or_false]
    constructor
    · intro h; exact absurd h (by decide)
    · intro h; exact absurd h hg
  · exact hck.elim
  · exact hck.elim
  · obtain ⟨hptP, hst0, hcp⟩ := hck
    have hst : st ≠ [] := by
      obtain ⟨x, y, -, rfl, -, -⟩ := hcp
      simp [hs]
    rcases st with _ | ⟨d, st⟩
    · exact absurd rfl hst
    · show GInv P (pt, st, some pt, some st) ∧ _
      refine ⟨⟨hptP, fun h => hst0 (List.mem_cons_of_mem _ h), hptP,
        fun h => hst0 (List.mem_cons_of_mem _ h), [], [], rfl, rfl, rfl, by simp⟩, ?_⟩
      simp only [GAcc, Next_cons]
      constructor
      · rintro (h | ⟨t, ht, hlt, h⟩)
        · exact Or.inr ⟨st, List.suffix_cons d st, by simp, h⟩
        · exact Or.inr ⟨t, ht.trans (List.suffix_cons d st), by simp; omega, h⟩
      · rintro (h | ⟨t, ht, hlt, h⟩)
        · exact absurd h hg
        · rcases List.suffix_cons_iff.mp ht with rfl | ht'
          · simp at hlt
          · by_cases hl : t.length = st.length
            · have := ht'.eq_of_length hl
              subst this
              exact Or.inl h
            · have := ht'.length_le
              exact Or.inr ⟨t, ht', by omega, h⟩

theorem gacc_nil {P p : List Char} {ptmp stmp : Option (List Char)}
    (hinv : GInv P (p, [], ptmp, stmp)) : GAcc (p, [], ptmp, stmp) ↔ G p [] := by
  obtain ⟨-, -, hck⟩ := hinv
  simp only [GAcc]
  constructor
  · rintro (h | h)
    · exact h
    · rcases ptmp with _ | pt <;> rcases stmp with _ | st
      · exact h.elim
      · exact h.elim
      · exact h.elim
      · obtain ⟨t, ht, hlt, hg⟩ := h
        obtain ⟨t', -, hl, -⟩ := gcheckpoint_front hck.2.2 ht hlt hg
        simp at hl
  · exact Or.inl

theorem gcheckpoint_advance {p s pt st : List Char} {c d : Char}
    (h : GCheckpoint (c :: p) (d :: s) pt st) (hc : c ≠ '*') : GCheckpoint p s pt st := by
  obtain ⟨x, y, rfl, rfl, hxy, hx⟩ := h
  refine ⟨x ++ [c], y ++ [d], by simp, by simp, by simp [hxy], ?_⟩
  simp only [List.mem_append, List.mem_singleton, not_or]
  exact ⟨hx, fun e => hc e.symm⟩

/-- The invariant after the pattern and the candidate cursor moved on by one
byte each. -/
theorem ginv_advance {P p s : List Char} {ptmp stmp : Option (List Char)} {c d : Char}
    (hinv : GInv P (c :: p, d :: s, ptmp, stmp)) (hc : c ≠ '*') :
    GInv P (p, s, ptmp, stmp) := by
  obtain ⟨hpP, hs0, hck⟩ := hinv
  refine ⟨(List.suffix_cons c p).trans hpP, fun h => hs0 (List.mem_cons_of_mem _ h), ?_⟩
  rcases ptmp with _ | pt <;> rcases stmp with _ | st
  · trivial
  · exact hck.elim
  · exact hck.elim
  · exact ⟨hck.1, hck.2.1, gcheckpoint_advance hck.2.2 hc⟩

theorem gacc_congr {p s p' s' : List Char} (ptmp stmp : Option (List Char))
    (h : G p' s' ↔ G p s) : GAcc (p', s', ptmp, stmp) ↔ GAcc (p, s, ptmp, stmp) := by
  simp only [GAcc, h]

theorem flags_dotmatch :
    period MRB_FNM_DOTMATCH = false ∧ pathname MRB_FNM_DOTMATCH = false ∧
      escape MRB_FNM_DOTMATCH = true ∧ nocase MRB_FNM_DOTMATCH = false := by
  decide

theorem helper_step_glob {P : List Char} (hP : glob_text P)
    (st : List Char × List Char × Option (List Char) × Option (List Char))
    (hinv : GInv P st) : GStepPost P st (helper_step MRB_FNM_DOTMATCH st) := by
  obtain ⟨p, s, ptmp, stmp⟩ := st
  obtain ⟨hf1, hf2, hf3, hf4⟩ := flags_dotmatch
  have hpP := hinv.1
  have hs0 := hinv.2.1
  have hne : MRB_FNM_NOMATCH ≠ 0 := by decide
  rcases p with _ | ⟨c, p⟩
  · -- the pattern is used up
    rcases s with _ | ⟨d, s⟩
    · refine ⟨0, [], [], ?_, ?_⟩
      · simp [helper_step, UNESCAPE, ISEND]
      · simp [GAcc, G.nil]
    · have hd : d ≠ '\x00' := fun e => hs0 (by simp [e])
      have : helper_step MRB_FNM_DOTMATCH ([], d :: s, ptmp, stmp)
          = helper_failed [] (d :: s) ptmp stmp := by
        simp [helper_step, UNESCAPE, ISEND, hd, hf2]
      rw [this]
      exact helper_failed_glob hinv (by simp) (by rw [G_nil]; simp)
  · obtain ⟨hc1, hc2, hc3⟩ := hP c (hpP.subset (List.mem_cons_self c p))
    by_cases hstar : c = '*'
    · -- a run of stars
      subst hstar
      have hq : p.dropWhile (fun c => c == '*') <:+ P :=
        ((List.dropWhile_suffix _).trans (List.suffix_cons _ p)).trans hpP
      have hstars := G_stars p
      have hhead := @List.head_dropWhile_not _ (fun c => c == '*') p
      generalize hqdef : p.dropWhile (fun c => c == '*') = q at hq hstars hhead
      replace hqdef := hqdef.symm
      have hstep : helper_step MRB_FNM_DOTMATCH ('*' :: p, s, ptmp, stmp) =
          if ISEND MRB_FNM_DOTMATCH (UNESCAPE MRB_FNM_DOTMATCH q) then
            Sum.inr (some (0, UNESCAPE MRB_FNM_DOTMATCH q, s))
          else if ISEND MRB_FNM_DOTMATCH s then Sum.inr (some (MRB_FNM_NOMATCH, q, s))
          else Sum.inl (q, s, some q, some s) := by
        rw [hqdef]
        simp [helper_step]
      rw [hstep]
      rcases q with _ | ⟨e, q⟩
      · refine ⟨0, [], s, by simp [UNESCAPE, ISEND], ?_⟩
        have : G ('*' :: p) s := (hstars s).mpr ⟨[], List.nil_suffix, G.nil⟩
        simp [GAcc, this]
      · obtain ⟨he1, he2, he3⟩ := hP e (hq.subset (List.mem_cons_self e q))
        have he : e ≠ '*' := by
          have := hhead (by simp)
          simpa using this
        have hu : UNESCAPE MRB_FNM_DOTMATCH (e :: q) = e :: q := by simp [UNESCAPE, he2]
        have hi : ISEND MRB_FNM_DOTMATCH (e :: q) = false := by simp [ISEND, he3, hf2]
        rw [hu, hi]
        rcases s with _ | ⟨d, s⟩
        · refine ⟨MRB_FNM_NOMATCH, e :: q, [], by simp [ISEND], ?_⟩
          rw [gacc_nil hinv]
          constructor
          · intro h; exact absurd h hne
          · intro h
            obtain ⟨t, ht, hg⟩ := (hstars []).mp h
            rw [List.suffix_nil] at ht
            subst ht
            exact absurd hg (G_not_nil he)
        · have hd : d ≠ '\x00' := fun e => hs0 (by simp [e])
          have hi2 : ISEND MRB_FNM_DOTMATCH (d :: s) = false := by simp [ISEND, hd, hf2]
          rw [hi2]
          simp only [Bool.false_eq_true, if_false]
          refine ⟨⟨hq, hs0, hq, hs0, [], [], rfl, rfl, rfl, by simp⟩, ?_⟩
          have key : (G (e :: q) (d :: s) ∨
              ∃ t, t <:+ d :: s ∧ t.length < (d :: s).length ∧ G (e :: q) t) ↔
              G ('*' :: p) (d :: s) := by
            rw [hstars]
            constructor
            · rintro (h | ⟨t, ht, -, h⟩)
              · exact ⟨_, List.suffix_refl _, h⟩
              · exact ⟨t, ht, h⟩
            · rintro ⟨t, ht, h⟩
              by_cases hl : t.length = (d :: s).length
              · rw [ht.eq_of_length hl] at h
                exact Or.inl h
              · have := ht.length_le
                exact Or.inr ⟨t, ht, by omega, h⟩
          show GAcc (e :: q, d :: s, some (e :: q), some (d :: s)) ↔ _
          simp only [GAcc]
          rw [key]
          constructor
          · exact Or.inl
          · rintro (h | h)
            · exact h
            · obtain ⟨-, -, hck⟩ := hinv
              rcases ptmp with _ | pt <;> rcases stmp with _ | st
              · exact h.elim
              · exact h.elim
              · exact h.elim
              · obtain ⟨t, ht, hlt, hg⟩ := h
                obtain ⟨t', ht', -, hg'⟩ := gcheckpoint_front hck.2.2 ht hlt hg
                obtain ⟨t'', ht'', hg''⟩ := (hstars t').mp hg'
                exact (hstars _).mpr ⟨t'', ht''.trans ht', hg''⟩
    · by_cases hq : c = '?'
      · -- any one byte
        subst hq
        rcases s with _ | ⟨d, s⟩
        · refine ⟨MRB_FNM_NOMATCH, '?' :: p, [], by simp [helper_step, ISEND], ?_⟩
          rw [gacc_nil hinv]
          constructor
          · intro h; exact absurd h hne
          · intro h; exact absurd h (G_not_nil (by decide))
        · have hd : d ≠ '\x00' := fun e => hs0 (by simp [e])
          have : helper_step MRB_FNM_DOTMATCH ('?' :: p, d :: s, ptmp, stmp)
              = Sum.inl (p, s, ptmp, stmp) := by
            simp [helper_step, ISEND, hd, hf2]
          rw [this]
          refine ⟨ginv_advance hinv (by decide), gacc_congr _ _ ?_⟩
          rw [G_quest]
          simp
      · -- a byte that stands for itself
        rw [helper_step_literal _ c p s ptmp stmp ⟨hstar, hq, hc1, hc2, hc3⟩]
        have hi : ISEND MRB_FNM_DOTMATCH (c :: p) = false := by simp [ISEND, hc3, hf2]
        rw [hi]
        rcases s with _ | ⟨d, s⟩
        · refine ⟨MRB_FNM_NOMATCH, c :: p, [], by simp [ISEND], ?_⟩
          rw [gacc_nil hinv]
          constructor
          · intro h; exact absurd h hne
          · intro h; exact absurd h (G_not_nil hstar)
        · have hd : d ≠ '\x00' := fun e => hs0 (by simp [e])
          have hi2 : ISEND MRB_FNM_DOTMATCH (d :: s) = false := by simp [ISEND, hd, hf2]
          have hcmp : (Compare MRB_FNM_DOTMATCH (c :: p) (d :: s) != 0) = !decide (c = d) := by
            have := Compare_cons_eq_zero MRB_FNM_DOTMATCH c d p s
            simp only [downcase, hf4, Bool.false_and, Bool.false_eq_true, if_false] at this
            by_cases e : c = d
            · have e2 := this.mpr e
              rw [e2]
              simp [e]
            · have : ¬ Compare MRB_FNM_DOTMATCH (c :: p) (d :: s) = 0 := fun h => e (this.mp h)
              simp [e, this]
          rw [hi2, hcmp]
          simp only [Bool.false_eq_true, if_false]
          by_cases e : c = d
          · subst e
            simp only [decide_True, Bool.not_true, Bool.false_eq_true, if_false, Next_cons]
            refine ⟨ginv_advance hinv hstar, gacc_congr _ _ ?_⟩
            rw [G_other c p _ hstar hq]
            simp
          · simp only [e, decide_False, Bool.not_false, if_true]
            apply helper_failed_glob hinv (by simp)
            rw [G_other c p _ hstar hq]
            simp only [List.head?_cons, Option.some.injEq]
            intro h
            exact e h.2.1.symm

theorem reaches_glob {P : List Char} (hP : glob_text P)
    {st : List Char × List Char × Option (List Char) × Option (List Char)}
    {r : Option (Int × List Char × List Char)}
    (h : Reaches (helper_step MRB_FNM_DOTMATCH) st r) :
    GInv P st → ∃ v p' s', r = some (v, p', s') ∧ (v = 0 ↔ GAcc st) := by
  induction h with
  | done hs =>
    intro hinv
    have := helper_step_glob hP _ hinv
    rw [hs] at this
    exact this
  | next hs _ ih =>
    intro hinv
    have := helper_step_glob hP _ hinv
    rw [hs] at this
    obtain ⟨v, p', s', hr, hv⟩ := ih this.1
    exact ⟨v, p', s', hr, hv.trans this.2⟩

/-- C15: with flags `DOTMATCH` alone, on a pattern without `[` and backslash
the single-checkpoint loop of `fnmatch_helper` reports a match exactly when
the naive recursive glob relation `G` holds, where `G` satisfies the four
clauses of its definition in the specification. -/
theorem single_checkpoint_agrees_with_backtracking :
    (∀ s, G [] s ↔ s = []) ∧
    (∀ p' s, G ('*' :: p') s ↔ G p' s ∨ (s ≠ [] ∧ G ('*' :: p') s.tail)) ∧
    (∀ p' s, G ('?' :: p') s ↔ s ≠ [] ∧ G p' s.tail) ∧
    (∀ x p' s, x ≠ '*' → x ≠ '?' →
      (G (x :: p') s ↔ s ≠ [] ∧ s.head? = some x ∧ G p' s.tail)) ∧
    (∀ p s, glob_text p → nul_free s →
      (mrb_file_fnmatch p s MRB_FNM_DOTMATCH = some 0 ↔ G p s)) := by
  refine ⟨G_nil, G_star, G_quest, G_other, ?_⟩
  intro p s hp hs
  obtain ⟨hf1, hf2, hf3, hf4⟩ := flags_dotmatch
  obtain ⟨r, hr⟩ := helper_loop_total MRB_FNM_DOTMATCH p s
  obtain ⟨v, p', s', rfl, hv⟩ := reaches_glob hp (reaches_of_iterate _ _ _ hr)
    ⟨List.suffix_refl p, hs, trivial⟩
  have : mrb_file_fnmatch p s MRB_FNM_DOTMATCH = some v := by
    simp [mrb_file_fnmatch, hf2, fnmatch_helper, hf1, hr]
  rw [this]
  simp only [Option.some.injEq, hv, GAcc, or_false]

/-- C15 at a concrete input: `a*b?c` against `axbxbyc`. -/
theorem single_checkpoint_agrees_with_backtracking_witness :
    mrb_file_fnmatch "a*b?c".toList "axbxbyc".toList MRB_FNM_DOTMATCH = some 0 ↔
      G "a*b?c".toList "axbxbyc".toList :=
  single_checkpoint_agrees_with_backtracking.2.2.2.2 "a*b?c".toList "axbxbyc".toList
    (by decide) (by decide)

/-! ## The buffer of `mrb_file_fnmatch_ex`: C20 -/

/-- An invariant holds in every state a loop comes through. -/
theorem visits_inv {σ ρ : Type} {step : σ → σ ⊕ ρ} (Inv : σ → Prop)
    (hstep : ∀ st st', Inv st → step st = Sum.inl st' → Inv st')
    {st st' : σ} (h : Visits step st st') (hinv : Inv st) : Inv st' := by
  induction h with
  | here _ => exact hinv
  | next hs _ ih => exact ih (hstep _ _ hinv hs)

theorem strlcpy_copy_count :
    ∀ (src : List Char) (n : Nat), nul_free src → src.length + 1 ≤ n →
      ((strlcpy_copy n src).2.2 = 0 ∧ (strlcpy_copy n src).2.1 = src.length) ∨
      ((strlcpy_copy n src).2.2 ≠ 0 ∧ (strlcpy_copy n src).2.1 = src.length + 1) := by
  intro src
  induction src with
  | nil =>
    intro n _ hn
    obtain ⟨m, rfl⟩ : ∃ m, n = m + 1 := ⟨n - 1, by omega⟩
    by_cases hm : m = 0
    · subst hm
      exact Or.inl ⟨rfl, rfl⟩
    · right
      simp [strlcpy_copy, hm]
  | cons c t ih =>
    intro n hs hn
    obtain ⟨m, rfl⟩ : ∃ m, n = m + 1 := ⟨n - 1, by omega⟩
    obtain ⟨hc, ht⟩ := nul_free_cons hs
    have hm : m ≠ 0 := by
      simp only [List.length_cons] at hn
      omega
    have e : strlcpy_copy (m + 1) (c :: t) =
        (c :: (strlcpy_copy m t).1, (strlcpy_copy m t).2.1 + 1, (strlcpy_copy m t).2.2) := by
      simp [strlcpy_copy, hm, hc]
    rw [e]
    rcases ih m ht (by simp only [List.length_cons] at hn; omega) with ⟨h1, h2⟩ | ⟨h1, h2⟩
    · exact Or.inl ⟨h1, by simp [h2]⟩
    · exact Or.inr ⟨h1, by simp [h2]⟩

/-- The value `_strlcpy_` returns is the length of the source; the copy was
truncated exactly when this value is not below `dsize`. -/
theorem strlcpy_return (src : List Char) (dsize : Nat) (hs : nul_free src)
    (hn : src.length + 1 ≤ dsize) : (_strlcpy_ src dsize).2 = src.length := by
  have hd : dsize ≠ 0 := by omega
  rcases strlcpy_copy_count src dsize hs hn with ⟨h1, h2⟩ | ⟨h1, h2⟩
  · simp [_strlcpy_, hd, h1, h2, strlen]
  · simp [_strlcpy_, hd, h1, h2]

theorem scan_step_inv {flags : Nat} {P : List Char}
    (st st' : List Char × Option (List Char) × Int) (hinv : ScanInv P st)
    (hs : scan_step flags st = Sum.inl st') : ScanInv P st' := by
  obtain ⟨p, lb, nest⟩ := st
  obtain ⟨p', lb', nest'⟩ := st'
  obtain ⟨hp, hl⟩ := hinv
  simp only [scan_step] at hs
  split_ifs at hs with h0 h1 h2 h3
  all_goals simp only [Sum.inl.injEq, Prod.mk.injEq] at hs
  all_goals obtain ⟨rfl, rfl, -⟩ := hs
  all_goals
    have hne : p ≠ [] := by
      rintro rfl
      simp at h0
    have hlen : (Next p).length < p.length := by
      rcases p with _ | ⟨c, p⟩
      · exact absurd rfl hne
      · simp
    have hnn : (Next (Next p)).length < p.length :=
      lt_of_le_of_lt (Next_length_le _) hlen
    have hs1 : Next p <:+ p := Next_suffix p
    have hs2 : Next (Next p) <:+ p := (Next_suffix _).trans hs1
  all_goals
    refine ⟨by first | exact hs2.trans hp | exact hs1.trans hp, fun l hl' => ?_⟩
    first
      | (cases hl'; first | exact ⟨hp, hs2, hnn⟩ | exact ⟨hp, hs1, hlen⟩)
      | (obtain ⟨a, b, c⟩ := hl l hl'
         first
           | exact ⟨a, hs2.trans b, by omega⟩
           | exact ⟨a, hs1.trans b, by omega⟩)

theorem scan_step_post {flags : Nat} {P : List Char}
    (st : List Char × Option (List Char) × Int)
    (r : Option (List Char) × Option (List Char)) (hinv : ScanInv P st)
    (hs : scan_step flags st = Sum.inr r) :
    ∀ lb rb, r = (some lb, some rb) →
      lb <:+ P ∧ rb <:+ lb ∧ rb.length < lb.length ∧ deref rb = '}' := by
  obtain ⟨p, lb, nest⟩ := st
  obtain ⟨hp, hl⟩ := hinv
  intro lb' rb' hr
  subst hr
  simp only [scan_step] at hs
  by_cases hc : deref p = '}'
  · have hb : (deref p == '{') = false := by rw [hc]; decide
    have hb0 : (deref p != '\x00') = true := by rw [hc]; decide
    have hb1 : (deref p == '\\') = false := by rw [hc]; decide
    have hb2 : (deref p == '}') = true := by rw [hc]; decide
    simp only [hb, hb0, hb1, hb2, Bool.false_and, Bool.true_and,
      Bool.false_eq_true, if_false, if_true] at hs
    split_ifs at hs
    all_goals first
      | (simp only [Sum.inr.injEq, Prod.mk.injEq, Option.some.injEq] at hs
         obtain ⟨h4, rfl⟩ := hs
         obtain ⟨a, b, c⟩ := hl lb' h4
         exact ⟨a, b, c, hc⟩)
  · have hb : (deref p == '}') = false := by simpa using hc
    simp only [hb, Bool.false_and, Bool.false_eq_true, if_false] at hs
    split_ifs at hs <;> simp at hs

/-- The two braces the scan finds: `lbrace` in the pattern, `rbrace` behind
it, at a `}`. -/
theorem brace_scan_group {flags : Nat} {P lb rb : List Char}
    (h : brace_scan flags P = some (some lb, some rb)) :
    lb <:+ P ∧ rb <:+ lb ∧ rb.length < lb.length ∧ deref rb = '}' :=
  reaches_inv (ScanInv P)
    (fun r => ∀ lb rb, r = (some lb, some rb) →
      lb <:+ P ∧ rb <:+ lb ∧ rb.length < lb.length ∧ deref rb = '}')
    scan_step_inv scan_step_post (reaches_of_iterate _ _ _ h)
    ⟨List.suffix_refl P, fun l hl => by cases hl⟩ lb rb rfl

theorem suffix_next {rb p : List Char} (h : rb <:+ p) (hlt : rb.length < p.length) :
    rb <:+ Next p := by
  rcases p with _ | ⟨c, p⟩
  · simp at hlt
  · rcases List.suffix_cons_iff.mp h with rfl | h'
    · simp at hlt
    · exact h'

theorem alt_step_keeps {flags : Nat} {rb : List Char} (st st' : List Char × Int)
    (hinv : rb <:+ st.1) (hs : alt_step flags rb st = Sum.inl st') : rb <:+ st'.1 := by
  obtain ⟨p, n⟩ := st
  simp only at hinv
  simp only [alt_step] at hs
  split_ifs at hs with h1 h2 h3
  all_goals simp only [Sum.inl.injEq] at hs
  all_goals subst hs
  all_goals
    simp only [Bool.and_eq_true, ptr_lt, decide_eq_true_eq] at h1
    have k1 := suffix_next hinv h1.1
  all_goals first
    | exact k1
    | (have hne : (Next p).length ≠ rb.length := by simpa using h3
       have := k1.length_le
       exact suffix_next k1 (by omega))

theorem alt_step_stops {flags : Nat} {rb : List Char} (st : List Char × Int) (q : List Char)
    (hinv : rb <:+ st.1) (hs : alt_step flags rb st = Sum.inr q) : rb <:+ q := by
  obtain ⟨p, n⟩ := st
  simp only at hinv
  simp only [alt_step] at hs
  split_ifs at hs with h1 h2 h3
  all_goals simp only [Sum.inr.injEq] at hs
  all_goals subst hs
  · simp only [Bool.and_eq_true, ptr_lt, decide_eq_true_eq] at h1
    exact suffix_next hinv h1.1
  · exact hinv

/-- The end of an alternative lies between its start and `rbrace`. -/
theorem alt_loop_bounds {flags : Nat} {rb t q : List Char} (hrb : rb <:+ t)
    (h : Reaches (alt_step flags rb) (t, 0) q) : q <:+ t ∧ rb <:+ q :=
  ⟨alt_loop_suffix h,
   reaches_inv (fun st => rb <:+ st.1) (fun q => rb <:+ q) alt_step_keeps alt_step_stops h hrb⟩

theorem nul_free_take {p : List Char} (h : nul_free p) (n : Nat) : nul_free (p.take n) :=
  fun hx => h (List.mem_of_mem_take hx)

/-- One round of the loop over the alternatives, for any cursor between the
two braces: where the alternative ends, how much room the buffer has, and
the pattern that is matched. -/
theorem ex_step_general (flags : Nat) (P path lb rb pc : List Char) (status : Int)
    (hP : nul_free P) (hlb : lb <:+ P) (hpc : pc <:+ lb) (hrb : rb <:+ pc)
    (hlt : rb.length < pc.length) (hrb0 : rb ≠ []) :
    ∃ q, iterate (alt_step flags rb) ((Next pc).length + 1) (Next pc, 0) = some q ∧
      (Next pc).length < lb.length ∧ q <:+ Next pc ∧ rb <:+ q ∧
      ptr_diff lb P + ptr_diff q (Next pc) + (Next rb).length + 2 ≤ P.length ∧
      size_sub (strlen P + 1) (ptr_diff lb P + ptr_diff q (Next pc)) =
        P.length + 1 - (ptr_diff lb P + ptr_diff q (Next pc)) ∧
      (_strlcpy_ (Next rb) (size_sub (strlen P + 1) (ptr_diff lb P + ptr_diff q (Next pc)))).1
        = Next rb ++ ['\x00'] ∧
      (_strlcpy_ (Next rb) (size_sub (strlen P + 1) (ptr_diff lb P + ptr_diff q (Next pc)))).2
        = (Next rb).length ∧
      (rewritten P lb rb pc q).length =
        ptr_diff lb P + ptr_diff q (Next pc) + (Next rb).length ∧
      nul_free (rewritten P lb rb pc q) ∧
      ex_step flags P path rb (ptr_diff lb P) (strlen P + 1) (pc, status) =
        match mrb_file_fnmatch (rewritten P lb rb pc q) path flags with
        | none => Sum.inr none
        | some r => if r == 0 then Sum.inr (some 1) else Sum.inl (q, 0) := by
  have hrbt := suffix_next hrb hlt
  obtain ⟨q, hq⟩ := alt_loop_total flags rb (Next pc)
  obtain ⟨hqt, hrbq⟩ := alt_loop_bounds hrbt (reaches_of_iterate _ _ _ hq)
  have l1 := hlb.length_le
  have l2 := hpc.length_le
  have l3 := hqt.length_le
  have l4 := hrbq.length_le
  have l5 : (Next pc).length + 1 = pc.length := by
    rcases pc with _ | ⟨c, t⟩
    · simp at hlt
    · simp
  have l6 : (Next rb).length + 1 = rb.length := by
    rcases rb with _ | ⟨c, t⟩
    · exact absurd rfl hrb0
    · simp
  have hrbP : rb <:+ P := (hrb.trans hpc).trans hlb
  have hnr : nul_free (Next rb) := nul_free_suffix hP ((Next_suffix rb).trans hrbP)
  have hnt : nul_free (Next pc) :=
    nul_free_suffix hP (((Next_suffix pc).trans hpc).trans hlb)
  have hlen : strlen P = P.length := strlen_nul_free hP
  have hsz : size_sub (strlen P + 1) (ptr_diff lb P + ptr_diff q (Next pc)) =
      P.length + 1 - (ptr_diff lb P + ptr_diff q (Next pc)) := by
    unfold size_sub ptr_diff
    rw [hlen, if_pos (by omega)]
  have hroom : (Next rb).length + 1 ≤
      P.length + 1 - (ptr_diff lb P + ptr_diff q (Next pc)) := by
    unfold ptr_diff
    omega
  have hcopy := strlcpy_fits (Next rb) _ hnr hroom
  have hret := strlcpy_return (Next rb) _ hnr hroom
  have hrl : (rewritten P lb rb pc q).length =
      ptr_diff lb P + ptr_diff q (Next pc) + (Next rb).length := by
    unfold rewritten ptr_diff
    simp only [List.length_append, List.length_take]
    omega
  have hrn : nul_free (rewritten P lb rb pc q) := by
    intro h
    unfold rewritten at h
    simp only [List.mem_append] at h
    rcases h with (h | h) | h
    · exact nul_free_take hP _ h
    · exact nul_free_take hnt _ h
    · exact hnr h
  refine ⟨q, hq, by omega, hqt, hrbq, by unfold ptr_diff; omega, hsz, ?_, ?_, hrl, hrn, ?_⟩
  · rw [hsz]; exact hcopy
  · rw [hsz]; exact hret
  · have hpl : ptr_lt pc rb = true := by simp [ptr_lt, hlt]
    have hc : cstr (List.take (ptr_diff lb P) P ++
        List.take (ptr_diff q (Next pc)) (Next pc) ++ (Next rb ++ ['\x00']))
        = rewritten P lb rb pc q := by
      have := cstr_append_nul (rewritten P lb rb pc q) [] hrn
      unfold rewritten at this ⊢
      simpa using this
    simp only [ex_step, hpl, if_true, hq, hsz, hcopy, hc]

/-- Every cursor the loop over the alternatives comes through lies between
the two braces. -/
theorem ex_loop_cursor {flags : Nat} {P path lb rb : List Char} (hP : nul_free P)
    (hlb : lb <:+ P) (hrb : rb <:+ lb) (hrb0 : rb ≠ []) {pc : List Char} {status : Int}
    (hv : Visits (ex_step flags P path rb (ptr_diff lb P) (strlen P + 1)) (lb, 0)
      (pc, status)) : rb <:+ pc ∧ pc <:+ lb := by
  refine visits_inv (fun st : List Char × Int => rb <:+ st.1 ∧ st.1 <:+ lb) ?_ hv
    ⟨hrb, List.suffix_refl lb⟩
  rintro ⟨p, st⟩ ⟨p', st'⟩ ⟨h1, h2⟩ hs
  simp only at h1 h2
  by_cases hlt : rb.length < p.length
  · obtain ⟨q, -, -, hq1, hq2, -, -, -, -, -, -, heq⟩ :=
      ex_step_general flags P path lb rb p st hP hlb h2 h1 hlt hrb0
    rw [heq] at hs
    have : p' = q := by
      split at hs
      · cases hs
      · split_ifs at hs
        cases hs
        rfl
    subst this
    exact ⟨hq2, (hq1.trans (Next_suffix p)).trans h2⟩
  · have : ptr_lt p rb = false := by simp [ptr_lt, hlt]
    simp [ex_step, this] at hs

/-- C20: let the scan of the pattern `P` find the braces `lbrace` and
`rbrace`.  In every round of the loop over the alternatives, with the cursor
at `pc`, the alternative runs from `t = pc + 1` to the pointer `q` where the
inner loop stops, with `lbrace < t ≤ q ≤ rbrace`; the rewritten pattern
(prefix, alternative, suffix) has at most `length P - 2` bytes, so with its
terminator it fits the buffer of `strlen P + 1` bytes; `_strlcpy_` copies the
whole suffix with its terminator and returns less than the size it was given
(no truncation); and the rewritten pattern is what is handed to
`mrb_file_fnmatch`.  This holds with and without `NOESCAPE`. -/
theorem rewritten_pattern_fits (flags : Nat) (P path lb rb : List Char) (hP : nul_free P)
    (hscan : brace_scan flags P = some (some lb, some rb)) (pc : List Char) (status : Int)
    (hv : Visits (ex_step flags P path rb (ptr_diff lb P) (strlen P + 1)) (lb, 0)
      (pc, status))
    (hlt : ptr_lt pc rb = true) :
    ∃ q, iterate (alt_step flags rb) ((Next pc).length + 1) (Next pc, 0) = some q ∧
      ptr_lt lb (Next pc) = true ∧ q <:+ Next pc ∧ rb <:+ q ∧
      (rewritten P lb rb pc q).length + 2 ≤ P.length ∧
      (rewritten P lb rb pc q ++ ['\x00']).length ≤ strlen P + 1 ∧
      (_strlcpy_ (Next rb) (size_sub (strlen P + 1) (ptr_diff lb P + ptr_diff q (Next pc)))).1
        = Next rb ++ ['\x00'] ∧
      (_strlcpy_ (Next rb) (size_sub (strlen P + 1) (ptr_diff lb P + ptr_diff q (Next pc)))).2
        < size_sub (strlen P + 1) (ptr_diff lb P + ptr_diff q (Next pc)) ∧
      P.take (ptr_diff lb P) ++ (Next pc).take (ptr_diff q (Next pc)) ++
        (_strlcpy_ (Next rb)
          (size_sub (strlen P + 1) (ptr_diff lb P + ptr_diff q (Next pc)))).1
        = rewritten P lb rb pc q ++ ['\x00'] ∧
      ex_step flags P path rb (ptr_diff lb P) (strlen P + 1) (pc, status) =
        match mrb_file_fnmatch (rewritten P lb rb pc q) path flags with
        | none => Sum.inr none
        | some r => if r == 0 then Sum.inr (some 1) else Sum.inl (q, 0) := by
  obtain ⟨hlb, hrb, hrl, hd⟩ := brace_scan_group hscan
  have hrb0 : rb ≠ [] := by
    rintro rfl
    exact absurd hd (by decide)
  obtain ⟨h1, h2⟩ := ex_loop_cursor hP hlb hrb hrb0 hv
  have hlt' : rb.length < pc.length := by simpa [ptr_lt] using hlt
  obtain ⟨q, k1, k2, k3, k4, k5, k6, k7, k8, k9, k10, k11⟩ :=
    ex_step_general flags P path lb rb pc status hP hlb h2 h1 hlt' hrb0
  have hlen : strlen P = P.length := strlen_nul_free hP
  refine ⟨q, k1, by simp [ptr_lt, k2], k3, k4, by omega, ?_, k7, ?_, ?_, k11⟩
  · simp only [List.length_append, List.length_singleton]
    omega
  · rw [k8, k6]
    omega
  · rw [k7]
    unfold rewritten
    simp

/-- C20 at a concrete input: the first round on `a{b,c}d` with flags `0`;
the rewritten pattern has at most `7 - 2` bytes. -/
theorem rewritten_pattern_fits_witness :
    ∃ q, iterate (alt_step 0 "\x7dd".toList) ((Next "{b,c}d".toList).length + 1)
        (Next "{b,c}d".toList, 0) = some q ∧
      (rewritten "a{b,c}d".toList "{b,c}d".toList "\x7dd".toList "{b,c}d".toList q).length + 2
        ≤ "a{b,c}d".toList.length :=
  match rewritten_pattern_fits 0 "a{b,c}d".toList "x".toList "{b,c}d".toList "\x7dd".toList
      (by decide) (by decide) "{b,c}d".toList 0 (Visits.here _) (by decide) with
  | ⟨q, h1, _, _, _, h5, _⟩ => ⟨q, h1, h5⟩

/-! ## A nested brace group: C17 -/

/-- The inner loop steps over bytes that are no brace, no backslash and, at
depth `0`, no comma. -/
theorem alt_walk_depth (flags : Nat) (rb T : List Char) (n : Int) (hT : rb.length ≤ T.length)
    (r : List Char) (hr : Reaches (alt_step flags rb) (T, n) r) :
    ∀ (a : List Char), (∀ c ∈ a, c ≠ '{' ∧ c ≠ '}' ∧ c ≠ '\\' ∧ (n = 0 → c ≠ ',')) →
      Reaches (alt_step flags rb) (a ++ T, n) r := by
  intro a
  induction a with
  | nil => intro _; exact hr
  | cons c a ih =>
    intro ha
    obtain ⟨h1, h2, h3, h4⟩ := ha c (List.mem_cons_self c a)
    refine Reaches.next ?_ (ih (fun d hd => ha d (List.mem_cons_of_mem c hd)))
    have : rb.length < a.length + T.length + 1 := by omega
    by_cases hn : n = 0
    · have := h4 hn
      simp [alt_step, ptr_lt, *]
    · simp [alt_step, ptr_lt, *]

theorem alt_text_brace_free {a : List Char} (h : alt_text a) : brace_free a :=
  fun c hc => ⟨(h c hc).1, (h c hc).2.1, (h c hc).2.2.2.1, (h c hc).2.2.2.2⟩

/-- The alternative of the outer group of `{x{y,z}w}` is `x{y,z}w`: the comma
of the inner group does not end it. -/
theorem alt_walk_nested (flags : Nat) (x y z w suf : List Char) (hx : alt_text x)
    (hy : alt_text y) (hz : alt_text z) (hw : alt_text w) :
    Reaches (alt_step flags ('}' :: suf))
      (x ++ '{' :: y ++ ',' :: z ++ '}' :: w ++ '}' :: suf, 0) ('}' :: suf) := by
  have e : x ++ '{' :: y ++ ',' :: z ++ '}' :: w ++ '}' :: suf =
      x ++ ('{' :: ((y ++ ',' :: z) ++ ('}' :: (w ++ '}' :: suf)))) := by simp
  rw [e]
  apply alt_walk_depth flags _ _ 0 (by simp; omega) _ _ x
    (fun c hc => ⟨(hx c hc).1, (hx c hc).2.1, (hx c hc).2.2.2.1, fun _ => (hx c hc).2.2.1⟩)
  refine reaches_next ((y ++ ',' :: z) ++ ('}' :: (w ++ '}' :: suf)), 1) ?_ ?_
  · have : suf.length + 1 < (y ++ ',' :: z ++ '}' :: (w ++ '}' :: suf)).length + 1 := by
      simp; omega
    simp [alt_step, ptr_lt]
    omega
  apply alt_walk_depth flags _ _ 1 (by simp; omega) _ _ (y ++ ',' :: z)
  · intro c hc
    refine ⟨?_, ?_, ?_, fun h => absurd h (by decide)⟩ <;>
    · rcases List.mem_append.mp hc with h | h
      · first | exact (hy c h).1 | exact (hy c h).2.1 | exact (hy c h).2.2.2.1
      · rcases List.mem_cons.mp h with rfl | h
        · decide
        · first | exact (hz c h).1 | exact (hz c h).2.1 | exact (hz c h).2.2.2.1
  refine reaches_next (w ++ '}' :: suf, 0) ?_ ?_
  · have : suf.length + 1 < (w ++ '}' :: suf).length + 1 := by simp; omega
    simp [alt_step, ptr_lt]
    omega
  apply alt_walk_depth flags _ _ 0 (by simp) _ _ w
    (fun c hc => ⟨(hw c hc).1, (hw c hc).2.1, (hw c hc).2.2.2.1, fun _ => (hw c hc).2.2.1⟩)
  exact Reaches.done (by simp [alt_step, ptr_lt])

/-- The scan finds the outer group of `pre{x{y,z}w}suf`. -/
theorem scan_finds_nested (flags : Nat) (pre x y z w suf : List Char) (hpre : alt_text pre)
    (hx : alt_text x) (hy : alt_text y) (hz : alt_text z) (hw : alt_text w) :
    brace_scan flags (pre ++ '{' :: x ++ '{' :: y ++ ',' :: z ++ '}' :: w ++ '}' :: suf) =
      some (some ('{' :: x ++ '{' :: y ++ ',' :: z ++ '}' :: w ++ '}' :: suf),
        some ('}' :: suf)) := by
  apply brace_scan_eq
  have e : pre ++ '{' :: x ++ '{' :: y ++ ',' :: z ++ '}' :: w ++ '}' :: suf =
      pre ++ ('{' :: (x ++ ('{' :: ((y ++ ',' :: z) ++ ('}' :: (w ++ '}' :: suf)))))) := by
    simp
  have e2 : '{' :: x ++ '{' :: y ++ ',' :: z ++ '}' :: w ++ '}' :: suf =
      '{' :: (x ++ ('{' :: ((y ++ ',' :: z) ++ ('}' :: (w ++ '}' :: suf))))) := by
    simp
  rw [e, e2]
  generalize hL : '{' :: (x ++ ('{' :: ((y ++ ',' :: z) ++ ('}' :: (w ++ '}' :: suf))))) = L
  apply scan_walk flags _ none 0 _ pre (alt_text_brace_free hpre)
  refine reaches_next (x ++ ('{' :: ((y ++ ',' :: z) ++ ('}' :: (w ++ '}' :: suf)))),
    some L, 1) (by rw [← hL]; simp [scan_step]) ?_
  apply scan_walk flags _ _ 1 _ x (alt_text_brace_free hx)
  refine reaches_next ((y ++ ',' :: z) ++ ('}' :: (w ++ '}' :: suf)), some L, 2)
    (by simp [scan_step]) ?_
  apply scan_walk flags _ _ 2 _ (y ++ ',' :: z)
  · intro c hc
    rcases List.mem_append.mp hc with h | h
    · exact alt_text_brace_free hy c h
    · rcases List.mem_cons.mp h with rfl | h
      · decide
      · exact alt_text_brace_free hz c h
  refine reaches_next (w ++ '}' :: suf, some L, 1) (by simp [scan_step]) ?_
  apply scan_walk flags _ _ 1 _ w (alt_text_brace_free hw)
  exact Reaches.done (by simp [scan_step])

/-- C17: for texts `pre`, `x`, `y`, `z`, `w` without `{`, `}`, `,` and
backslash, any suffix `suf` and any candidate, `mrb_file_fnmatch_ex` on
`pre{x{y,z}w}suf` returns `1` exactly when `mrb_file_fnmatch` matches
`prex{y,z}wsuf`, and `0` otherwise (the buffer allocation succeeding): only
the outer pair of braces is removed, and the comma of the inner group does
not split.  This holds for every flag set. -/
theorem nested_brace_group_verbatim (flags : Nat) (pre x y z w suf s : List Char)
    (hpre : alt_text pre) (hx : alt_text x) (hy : alt_text y) (hz : alt_text z)
    (hw : alt_text w) (hsuf : nul_free suf) :
    mrb_file_fnmatch_ex (fun _ => true)
        (pre ++ '{' :: x ++ '{' :: y ++ ',' :: z ++ '}' :: w ++ '}' :: suf) s flags =
      some (if mrb_file_fnmatch (pre ++ x ++ '{' :: y ++ ',' :: z ++ '}' :: w ++ suf) s flags
          = some 0 then 1 else 0) := by
  have hscan := scan_finds_nested flags pre x y z w suf hpre hx hy hz hw
  generalize hP : pre ++ '{' :: x ++ '{' :: y ++ ',' :: z ++ '}' :: w ++ '}' :: suf = P
    at hscan ⊢
  generalize hA : x ++ '{' :: y ++ ',' :: z ++ '}' :: w = A
  have hlbA : '{' :: x ++ '{' :: y ++ ',' :: z ++ '}' :: w ++ '}' :: suf
      = '{' :: (A ++ '}' :: suf) := by
    rw [← hA]; simp
  have hPA : P = pre ++ '{' :: (A ++ '}' :: suf) := by
    rw [← hP, ← hA]; simp
  have hA0 : nul_free A := by
    rw [← hA]
    intro h
    simp only [List.mem_append, List.mem_cons] at h
    rcases h with (((h | h | h) | h | h) | h | h)
    · exact (hx _ h).2.2.2.2 rfl
    · cases h
    · exact (hy _ h).2.2.2.2 rfl
    · cases h
    · exact (hz _ h).2.2.2.2 rfl
    · cases h
    · exact (hw _ h).2.2.2.2 rfl
  have hP0 : nul_free P := by
    rw [hPA]
    intro h
    simp only [List.mem_append, List.mem_cons] at h
    rcases h with h | h | h | h | h
    · exact (hpre _ h).2.2.2.2 rfl
    · cases h
    · exact hA0 h
    · cases h
    · exact hsuf h
  rw [hlbA] at hscan
  have hwalk : Reaches (alt_step flags ('}' :: suf)) (A ++ '}' :: suf, 0) ('}' :: suf) := by
    have := alt_walk_nested flags x y z w suf hx hy hz hw
    rw [← hA]
    simpa using this
  have hlbP : '{' :: (A ++ '}' :: suf) <:+ P := ⟨pre, hPA.symm⟩
  obtain ⟨q, k1, -, -, -, -, -, -, -, -, -, k11⟩ :=
    ex_step_general flags P s ('{' :: (A ++ '}' :: suf)) ('}' :: suf)
      ('{' :: (A ++ '}' :: suf)) 0 hP0 hlbP (List.suffix_refl _)
      ⟨'{' :: A, by simp⟩ (by simp; omega) (by simp)
  have hq : q = '}' :: suf := by
    have := iterate_eq_of_reaches hwalk (alt_loop_total flags _ _)
    simp only [Next_cons] at k1
    rw [this] at k1
    cases k1
    rfl
  subst hq
  have hrew : rewritten P ('{' :: (A ++ '}' :: suf)) ('}' :: suf) ('{' :: (A ++ '}' :: suf))
      ('}' :: suf) = pre ++ x ++ '{' :: y ++ ',' :: z ++ '}' :: w ++ suf := by
    have t1 : P.take (ptr_diff ('{' :: (A ++ '}' :: suf)) P) = pre := by
      rw [hPA]
      exact List.take_left' (by simp [ptr_diff])
    have t2 : (A ++ '}' :: suf).take (ptr_diff ('}' :: suf) (A ++ '}' :: suf)) = A :=
      List.take_left' (by simp [ptr_diff])
    unfold rewritten
    rw [t1, Next_cons, t2, Next_cons, ← hA]
    simp
  rw [hrew] at k11
  have hloop : Reaches (ex_step flags P s ('}' :: suf)
      (ptr_diff ('{' :: (A ++ '}' :: suf)) P) (strlen P + 1)) ('{' :: (A ++ '}' :: suf), 0)
      (some (if mrb_file_fnmatch (pre ++ x ++ '{' :: y ++ ',' :: z ++ '}' :: w ++ suf) s flags
          = some 0 then 1 else 0)) := by
    rcases mrb_file_fnmatch_total (pre ++ x ++ '{' :: y ++ ',' :: z ++ '}' :: w ++ suf) s flags
      with h0 | h1
    · rw [h0] at k11 ⊢
      exact Reaches.done k11
    · rw [h1] at k11 ⊢
      refine Reaches.next k11 (Reaches.done ?_)
      simp [ex_step, ptr_lt, MRB_FNM_NOMATCH]
  have hiter := iterate_eq_of_reaches hloop (ex_loop_total flags P s ('}' :: suf) _ _ _)
  unfold brace_scan at hscan
  unfold mrb_file_fnmatch_ex
  simp only [hscan, Bool.not_true, Bool.false_eq_true, if_false, hiter]
  rfl

/-- C17 at a concrete input: `a{b{c,d}e}f` matches `ab{c,d}ef`. -/
theorem nested_brace_group_verbatim_witness :
    mrb_file_fnmatch_ex (fun _ => true) "a{b{c,d}e}f".toList "ab{c,d}ef".toList 0 =
      some (if mrb_file_fnmatch "ab{c,d}ef".toList "ab{c,d}ef".toList 0 = some 0
        then 1 else 0) :=
  nested_brace_group_verbatim 0 "a".toList "b".toList "c".toList "d".toList "e".toList
    "f".toList "ab{c,d}ef".toList (by decide) (by decide) (by decide) (by decide)
    (by decide) (by decide)

/-! ## The increments of `fnmatch_helper` and `bracket` stay in the strings: C19 -/

theorem inc_of_deref {p : List Char} (h : deref p ≠ '\x00') : inc p = some (Next p) := by
  rcases p with _ | ⟨c, t⟩
  · exact absurd rfl h
  · rfl

theorem inc_of_deref_eq {p : List Char} {c : Char} (h : deref p = c) (hc : c ≠ '\x00') :
    inc p = some (Next p) :=
  inc_of_deref (by rw [h]; exact hc)

theorem inc_of_not_ISEND {flags : Nat} {s : List Char} (h : ISEND flags s = false) :
    inc s = some (Next s) := by
  apply inc_of_deref
  intro e
  simp [ISEND, e] at h

theorem UNESCAPE_chk_eq (flags : Nat) (p : List Char) :
    UNESCAPE_chk flags p = some (UNESCAPE flags p) := by
  unfold UNESCAPE_chk UNESCAPE
  split_ifs with h
  · simp only [Bool.and_eq_true, beq_iff_eq] at h
    exact inc_of_deref_eq h.2 (by decide)
  · rfl

/-- Every increment in the body of the loop of `bracket` is applied to a
pointer that does not stand on the terminator. -/
theorem bracket_step_chk_eq (flags : Nat) (s : List Char) (nope : Bool)
    (st : List Char × Bool) :
    bracket_step_chk flags s nope st = some (bracket_step flags s nope st) := by
  obtain ⟨p, ok⟩ := st
  have e0 : ∀ q : List Char, (if (escape flags && deref q == '\\') = true then Next q else q)
      = UNESCAPE flags q := fun q => rfl
  simp only [bracket_step_chk, bracket_step, UNESCAPE_chk_eq, Option.some_bind, e0]
  by_cases h1 : deref p = ']'
  · simp [h1, inc_of_deref_eq h1]
  · have h1' : (deref p != ']') = true := by simpa using h1
    simp only [h1', if_true]
    by_cases h2 : deref (UNESCAPE flags p) = '\x00'
    · simp [h2]
    · have h2' : (deref (UNESCAPE flags p) == '\x00') = false := by simpa using h2
      simp only [h2', Bool.false_eq_true, if_false, inc_of_deref h2, Option.some_bind]
      by_cases h3 : deref (Next (UNESCAPE flags p)) = '-'
      · simp only [h3, beq_self_eq_true, if_true, Bool.true_and,
          inc_of_deref_eq h3 (by decide), Option.some_bind]
        by_cases h4 : deref (Next (Next (UNESCAPE flags p))) = ']'
        · simp [h4]
        · have h4' : (deref (Next (Next (UNESCAPE flags p))) != ']') = true := by simpa using h4
          simp only [h4', if_true]
          by_cases h5 : deref (UNESCAPE flags (Next (Next (UNESCAPE flags p)))) = '\x00'
          · simp [h5]
          · have h5' : (deref (UNESCAPE flags (Next (Next (UNESCAPE flags p)))) == '\x00')
                = false := by simpa using h5
            simp only [h5', Bool.false_eq_true, if_false, inc_of_deref h5, Option.some_bind]
      · have h3' : (deref (Next (UNESCAPE flags p)) == '-') = false := by simpa using h3
        simp only [h3', Bool.false_eq_true, if_false, Bool.false_and]

/-- At the label `failed` the saved candidate position does not stand on a
segment end, so its increment stays in the candidate. -/
theorem checkpoint_not_at_end {flags : Nat} {s0 s st : List Char} (hs0 : nul_free s0)
    (hst : st <:+ s0) (hss : SegSuffix flags s st) (he : ISEND flags s = false) :
    ISEND flags st = false ∧ inc st = some (Next st) := by
  obtain ⟨b, rfl, hb⟩ := hss
  rcases b with _ | ⟨c, b⟩
  · exact ⟨he, inc_of_not_ISEND he⟩
  · have hc0 : c ≠ '\x00' := by
      intro e
      apply hs0
      apply hst.subset
      simp [e]
    refine ⟨?_, rfl⟩
    rw [List.cons_append, ISEND_cons flags c _ hc0]
    by_cases hp : pathname flags = true
    · have := hb hp
      simp only [List.mem_cons, not_or] at this
      have hc : (c == '/') = false := by
        simpa using fun e => this.1 e.symm
      simp [hc]
    · simp [hp]

theorem helper_failed_chk_eq {flags : Nat} {p0 s0 p s : List Char}
    {ptmp stmp : Option (List Char)} (hs0 : nul_free s0)
    (hinv : HInv flags p0 s0 (p, s, ptmp, stmp)) (he : ISEND flags s = false) (q : List Char) :
    helper_failed_chk q s ptmp stmp = some (helper_failed q s ptmp stmp) := by
  rcases ptmp with _ | pt <;> rcases stmp with _ | st
  · rfl
  · rfl
  · rfl
  · obtain ⟨-, -, -, hst, -, hss⟩ := hinv
    obtain ⟨-, hi⟩ := checkpoint_not_at_end hs0 hst.suffix hss he
    simp [helper_failed_chk, helper_failed, hi]

/-- Every increment in the body of the loop of `fnmatch_helper` is applied to
a pointer that does not stand on the terminator. -/
theorem helper_step_chk_eq {flags : Nat} {p0 s0 : List Char} (hs0 : nul_free s0)
    (st : List Char × List Char × Option (List Char) × Option (List Char))
    (hinv : HInv flags p0 s0 st) :
    helper_step_chk flags st = some (helper_step flags st) := by
  obtain ⟨p, s, ptmp, stmp⟩ := st
  simp only [helper_step_chk, helper_step, UNESCAPE_chk_eq, Option.some_bind]
  by_cases h1 : deref p = '*'
  · simp only [h1, beq_self_eq_true, if_true, inc_of_deref_eq h1 (by decide),
      Option.some_bind]
    split_ifs <;> rfl
  have h1' : (deref p == '*') = false := by simpa using h1
  simp only [h1', Bool.false_eq_true, if_false]
  by_cases h2 : deref p = '?'
  · simp only [h2, beq_self_eq_true, if_true, inc_of_deref_eq h2 (by decide),
      Option.some_bind]
    split_ifs with i1
    · rfl
    · have i1' : ISEND flags s = false := by simpa using i1
      simp [inc_of_not_ISEND i1']
  have h2' : (deref p == '?') = false := by simpa using h2
  simp only [h2', Bool.false_eq_true, if_false]
  by_cases h3 : deref p = '['
  · simp only [h3, beq_self_eq_true, if_true, inc_of_deref_eq h3 (by decide),
      Option.some_bind]
    split_ifs with i1
    · rfl
    · have i1' : ISEND flags s = false := by simpa using i1
      rcases bracket flags (Next p) s with _ | _ | t
      · rfl
      · exact helper_failed_chk_eq hs0 hinv i1' p
      · simp [inc_of_not_ISEND i1']
  have h3' : (deref p == '[') = false := by simpa using h3
  simp only [h3', Bool.false_eq_true, if_false]
  split_ifs with i1 i2 i3 i4
  · rfl
  · rfl
  · exact helper_failed_chk_eq hs0 hinv (by simpa using i1) _
  · exact helper_failed_chk_eq hs0 hinv (by simpa using i1) _
  · have i1' : ISEND flags s = false := by simpa using i1
    have i2' : ISEND flags (UNESCAPE flags p) = false := by
      have : ¬ ISEND flags (UNESCAPE flags p) = true := by assumption
      simpa using this
    simp [inc_of_not_ISEND i1', inc_of_not_ISEND i2']

theorem goes_to_failed_step {flags : Nat}
    {st : List Char × List Char × Option (List Char) × Option (List Char)}
    (h : goes_to_failed flags st = true) :
    ISEND flags st.2.1 = false ∧
      ∃ q, helper_step flags st = helper_failed q st.2.1 st.2.2.1 st.2.2.2 := by
  obtain ⟨p, s, ptmp, stmp⟩ := st
  simp only [goes_to_failed] at h
  simp only [helper_step]
  split_ifs at h with h1 h2 h3
  · simp only [Bool.and_eq_true, Bool.not_eq_true'] at h
    refine ⟨h.1, p, ?_⟩
    simp only [h1, h2, h3, h.1, Bool.false_eq_true, if_false, if_true]
    rcases hb : bracket flags (Next p) s with _ | _ | t
    · rw [hb] at h; simp at h
    · rfl
    · rw [hb] at h; simp at h
  · simp only [Bool.and_eq_true, Bool.not_eq_true', Bool.or_eq_true] at h
    refine ⟨h.1, UNESCAPE flags p, ?_⟩
    simp only [h1, h2, h3, h.1, Bool.false_eq_true, if_false]
    rcases h.2 with h4 | h4
    · simp [h4]
    · simp [h4]

/-- The invariant of the loop of `fnmatch_helper` holds in every state the
loop comes through. -/
theorem visits_hinv {flags : Nat} {p0 s0 : List Char}
    {st : List Char × List Char × Option (List Char) × Option (List Char)}
    (hv : Visits (helper_step flags) (p0, s0, none, none) st) : HInv flags p0 s0 st :=
  visits_inv (HInv flags p0 s0) (fun _ _ hinv hs => (helper_step_inl hinv hs).1) hv
    (HInv_init flags p0 s0)

/-- C19: in every state `(p, s, ptmp, stmp)` the loop of `fnmatch_helper`
comes through, the cursors lie in the strings, every pointer increment of the
loop body is applied to a pointer that does not stand on the terminator (the
checked body agrees with the body), and so is every increment of the body of
`bracket`, look-aheads included.  With a checkpoint, `stmp ≤ s` with no `/`
between the two in pathname mode; and when the body jumps to `failed`, `stmp`
does not stand on a segment end, its increment stays in the candidate and the
loop retries from `(ptmp, stmp + 1)`. -/
theorem failed_stays_in_segment (flags : Nat) (p0 s0 : List Char) (hs0 : nul_free s0)
    (p s : List Char) (ptmp stmp : Option (List Char))
    (hv : Visits (helper_step flags) (p0, s0, none, none) (p, s, ptmp, stmp)) :
    p <:+ p0 ∧ s <:+ s0 ∧
    helper_step_chk flags (p, s, ptmp, stmp) = some (helper_step flags (p, s, ptmp, stmp)) ∧
    (∀ q ok nope,
      bracket_step_chk flags s nope (q, ok) = some (bracket_step flags s nope (q, ok))) ∧
    (∀ pt st, ptmp = some pt → stmp = some st →
      pt <:+ p0 ∧ st <:+ s0 ∧
      (∃ b, st = b ++ s ∧ (pathname flags = true → '/' ∉ b)) ∧
      (goes_to_failed flags (p, s, ptmp, stmp) = true →
        ISEND flags st = false ∧ inc st = some (Next st) ∧
        helper_step flags (p, s, ptmp, stmp) =
          Sum.inl (pt, Next st, some pt, some (Next st)))) := by
  have hinv := visits_hinv hv
  refine ⟨hinv.1, hinv.2.1.suffix, helper_step_chk_eq hs0 _ hinv,
    fun q ok nope => bracket_step_chk_eq flags s nope (q, ok), ?_⟩
  rintro pt st rfl rfl
  obtain ⟨-, -, hpt, hst, -, hss⟩ := hinv
  refine ⟨hpt, hst.suffix, hss, fun hg => ?_⟩
  obtain ⟨he, q, hq⟩ := goes_to_failed_step hg
  obtain ⟨h1, h2⟩ := checkpoint_not_at_end hs0 hst.suffix hss he
  exact ⟨h1, h2, by rw [hq]; rfl⟩

/-- C19 at a concrete input: `*b` against `ab` with flags `0`; after the
star the body jumps to `failed` with the checkpoint at `ab`. -/
theorem failed_stays_in_segment_witness :
    goes_to_failed 0 ("b".toList, "ab".toList, some "b".toList, some "ab".toList) = true ∧
    ISEND 0 "ab".toList = false ∧ inc "ab".toList = some (Next "ab".toList) ∧
    helper_step 0 ("b".toList, "ab".toList, some "b".toList, some "ab".toList) =
      Sum.inl ("b".toList, Next "ab".toList, some "b".toList, some (Next "ab".toList)) :=
  ⟨by decide,
   ((failed_stays_in_segment 0 "*b".toList "ab".toList (by decide) "b".toList "ab".toList
      (some "b".toList) (some "ab".toList)
      (Visits.next (by decide) (Visits.here _))).2.2.2.2 _ _ rfl rfl).2.2.2 (by decide)⟩

end Fnmatch
